import Mathlib

/-!
Verification of the pyrrhic incremental build engine (`src/pyrrhic/rules.py`,
`src/pyrrhic/commands.py`) against its natural-language specification.

The embedding below translates the Python source into Lean:
* `pathlib.Path` values become `String`s (their POSIX string form; Python
  compares and hashes paths by exactly that string).
* Python `set`s of links become duplicate-free `List`s kept in insertion
  order; set membership and set equality are extensional, mirroring
  `set.__eq__`.  The list order stands for the (hash-seed dependent)
  iteration order of the set.
* Python `sorted` (a stable sort driven by `__lt__`) becomes a stable
  insertion sort `sortBy le` with `le a b = !(lt b a)`.
* Exceptions become `Except` values.
* `float` mtimes become `Int` (the tests only use integral values and the
  code only compares them).
-/

namespace Pyrrhic

/-- Decidable equality of `Except` results (needed to state concrete
evaluations of the fallible operations). -/
instance exceptDecEq [DecidableEq ε] [DecidableEq α] : DecidableEq (Except ε α) := fun x y =>
  match x, y with
  | .ok a, .ok b =>
      if h : a = b then .isTrue (by rw [h])
      else .isFalse (by intro hh; injection hh; contradiction)
  | .ok _, .error _ => .isFalse (by intro hh; injection hh)
  | .error _, .ok _ => .isFalse (by intro hh; injection hh)
  | .error e, .error f =>
      if h : e = f then .isTrue (by rw [h])
      else .isFalse (by intro hh; injection hh; contradiction)

/-- Stable insertion of `x` into a list: `x` is placed before the first
element `y` with `le x y`.  For a total preorder `le` this agrees with
Python's stable `sorted`. -/
def insertBy (le : α → α → Bool) (x : α) : List α → List α
  | [] => [x]
  | y :: ys => if le x y then x :: y :: ys else y :: insertBy le x ys

/-- Stable sort (model of Python `sorted` with comparator `lt`,
used as `sortBy (fun a b => !(lt b a))`). -/
def sortBy (le : α → α → Bool) : List α → List α
  | [] => []
  | x :: xs => insertBy le x (sortBy le xs)

/-- `str(base / path)` for POSIX-style relative paths. -/
def pjoin (base p : String) : String :=
  if base = "" then p else base ++ "/" ++ p

/-- Lexicographic-by-code-point `<` on character lists. -/
def ltChars : List Char → List Char → Bool
  | [], [] => false
  | [], _ :: _ => true
  | _ :: _, [] => false
  | a :: as, b :: bs =>
      Nat.blt a.toNat b.toNat || (a.toNat == b.toNat && ltChars as bs)

/-- Python string/Path `<` (lexicographic by code point; `pathlib` orders
paths by their string form). -/
def strLt (a b : String) : Bool := ltChars a.toList b.toList

/-- `le` comparator fed to the stable sort so that it models
`sorted` driven by `<`. -/
def strLe (a b : String) : Bool := !(strLt b a)

/-- The callable part of a `TCommand` triple.  Commands are opaque
callables in the source; the claims only ever exercise `commands.cat`
and the deserializer's `do_not_call` stub, so those are the recognised
shapes. -/
inductive CmdFn where
  | cat (dest : String)
  | doNotCall
  deriving DecidableEq, Repr

/-- Modelled from the spec: `pyrrhic.hash.function` (file `hash.py` is not
in `src/`).  Per §4.8 the fingerprint is deterministic across runs for
identical parameterizations and distinct for different ones (test
`test_dag_hash`); the digest is rendered in hex by `to_hex`.  We model the
digest directly as a distinct plain string per parameterization. -/
def hashFunction : CmdFn → String
  | .cat dest => "cat." ++ dest
  | .doNotCall => "donotcall"

/-- Modelled from the spec: `pyrrhic.hash.to_hex` / `from_hex` (file
`hash.py` is not in `src/`).  §4.6 only requires that hashes serialize to
a whitespace-free token and that decoding inverts encoding; since our
modelled digests are already such strings, both maps are the identity. -/
def toHex (h : String) : String := h

/-- See `toHex`. -/
def fromHex (s : String) : String := s

/-- A `TCommand` triple `(fn, name, hash)`. -/
structure Cmd where
  fn : CmdFn
  name : String
  hash : String
  deriving DecidableEq, Repr

/-- `commands.cat dest` with the default name `"cat"` (`commands.py`
lines 19–57, via `_mkret`). -/
def catCmd (dest : String) : Cmd :=
  { fn := .cat dest, name := "cat", hash := hashFunction (.cat dest) }

/-- A `Link`: directed edge labelled with the command's name and hash
(`rules.py` lines 119–164).  The constructor discards the callable and
the `basedir` argument is only used by the out-of-scope applier, so
neither is a field; `src`/`dest` are the endpoint node paths (node
equality and hashing are by path). -/
structure Link where
  cmd_name : String
  cmd_hash : String
  src : String
  dest : String
  deriving DecidableEq, Repr

/-- `Link.__eq__`: the `(cmd_name, cmd_hash, src.path, dest.path)` tuple. -/
def linkBEq (a b : Link) : Bool :=
  a.cmd_name == b.cmd_name && a.cmd_hash == b.cmd_hash && a.src == b.src && a.dest == b.dest

/-- `Link.__lt__` (`rules.py` lines 152–157): a *disjunction* of the four
field comparisons, exactly as in the source (it is not a lexicographic
tuple order). -/
def linkLt (a b : Link) : Bool :=
  strLt a.cmd_name b.cmd_name || strLt a.cmd_hash b.cmd_hash ||
  strLt a.src b.src || strLt a.dest b.dest

/-- `set.add` on a set of links (insertion order retained). -/
def addLink (l : Link) (ls : List Link) : List Link :=
  if ls.any (linkBEq l) then ls else ls ++ [l]

/-- Python `set` equality (extensional). -/
def linkSetEq (a b : List Link) : Bool :=
  a.all (fun l => b.any (linkBEq l)) && b.all (fun l => a.any (linkBEq l))

/-- A `Node` (`rules.py` lines 60–116).  `production` keeps only the
command triple; `index` is the build-order index assigned by `to_dag`. -/
structure Node where
  path : String
  links : List Link := []
  dlinks : List Link := []
  rlinks : List Link := []
  drlinks : List Link := []
  production : Option Cmd := none
  index : Nat := 0
  deriving DecidableEq, Repr

/-- `Node(path)`. -/
def newNode (p : String) : Node := { path := p }

/-- A `DAG`: ordered mapping path → node (`rules.py` line 170).  The list
order is the `OrderedDict` insertion order and each node is stored under
its own `path` (the source always inserts `node.path`). -/
structure DAG where
  nodes : List Node := []
  deriving DecidableEq, Repr

/-- `DAG.pick`: lookup without insert. -/
def DAG.pick (d : DAG) (p : String) : Option Node :=
  d.nodes.find? (fun n => n.path == p)

/-- `DAG.get`: get-or-insert; returns the updated dag (the mutation) and
the interned node. -/
def DAG.get (d : DAG) (n : Node) : DAG × Node :=
  match d.pick n.path with
  | some m => (d, m)
  | none => ({ nodes := d.nodes ++ [n] }, n)

/-- Replace the node stored at path `p` by `f` of it (models in-place
mutation of the interned node object). -/
def DAG.modify (d : DAG) (p : String) (f : Node → Node) : DAG :=
  { nodes := d.nodes.map (fun n => if n.path == p then f n else n) }

/-- The node object at path `p` (total helper; callers only use it at
paths present in the dag, where it is the interned node). -/
def DAG.node (d : DAG) (p : String) : Node :=
  (d.pick p).getD (newNode p)

/-- `DAG.source_nodes`: nodes with no reverse links, in insertion order. -/
def DAG.sourceNodes (d : DAG) : List Node :=
  d.nodes.filter (fun n => n.rlinks.isEmpty)

/-- The nodes in sorted-by-path order (`sorted(self.nodes.items())`;
tuple comparison on unique `Path` keys orders by path). -/
def DAG.sortedNodes (d : DAG) : List Node :=
  sortBy (fun a b => strLe a.path b.path) d.nodes

/-- Equality of two `OrderedDict`s of nodes: equal length and pairwise
equal items in order.  Each item is `(node.path, node)`; the key
comparison is path equality and the value comparison is `Node.__eq__`
(`rules.py` lines 73–75), which compares **only** `path` — so the whole
item comparison is the single path test below. -/
def nodeItemsEq : List Node → List Node → Bool
  | [], [] => true
  | n :: ns, m :: ms => n.path == m.path && nodeItemsEq ns ms
  | _, _ => false

/-- `DAG.__eq__` (`rules.py` lines 190–193): compare the two
path-sorted `OrderedDict`s. -/
def DAG.eq (a b : DAG) : Bool :=
  nodeItemsEq a.sortedNodes b.sortedNodes

/-! ### Glob resolution (`Globber`, `rules.py` lines 23–57) -/

/-- Try matching `m` against every suffix of the string: the meaning of
a `*` in front of the rest of the pattern. -/
def tryStar (m : List Char → Bool) : List Char → Bool
  | [] => m []
  | c :: cs => m (c :: cs) || tryStar m cs

/-- `fnmatch`-style wildcard matching on character lists: `*` matches any
run of characters (in `fnmatch`, unlike filesystem globbing, `*` also
crosses `/`); every other character matches itself.  The claims only use
patterns built from literals and `*`. -/
def fnmatchChars : List Char → List Char → Bool
  | [], s => s.isEmpty
  | '*' :: ps, s => tryStar (fnmatchChars ps) s
  | _ :: _, [] => false
  | p :: ps, c :: cs => p == c && fnmatchChars ps cs

/-- `fnmatch.fnmatch(s, pat)` (POSIX: no case folding). -/
def fnmatchB (s pat : String) : Bool := fnmatchChars pat.toList s.toList

/-- A raw glob match as it is put into the `seen` set: matches from
`base.glob(...)` are `Path` objects, matches from `fnmatch.filter` are
plain strings.  A `Path` and a `str` are *never* equal in Python (their
`__eq__` returns `NotImplemented` across types), which the derived `BEq`
mirrors: cross-constructor comparisons are `false`. -/
inductive GlobMatch where
  | fsPath (s : String)
  | outStr (s : String)
  deriving DecidableEq, Repr

/-- The underlying path string of a raw match. -/
def GlobMatch.str : GlobMatch → String
  | .fsPath s => s
  | .outStr s => s

/-- Char-level list prefix test. -/
def isPre : List Char → List Char → Bool
  | [], _ => true
  | _ :: _, [] => false
  | a :: as, b :: bs => a == b && isPre as bs

/-- `Path(match).relative_to(base)` for matches lying under `base`. -/
def relativeTo (base m : String) : String :=
  if base = "" then m
  else if isPre (base ++ "/").toList m.toList then ⟨m.toList.drop (base.length + 1)⟩ else m

/-- One iteration of the loop body of `Globber.glob` for a starred path:
the raw candidates, filesystem first. -/
def globCandidates (fsGlob : String → String → List String)
    (outputs : List String) (base p : String) : List GlobMatch :=
  (fsGlob base p).map GlobMatch.fsPath ++
    ((outputs.filter (fun o => fnmatchB o (pjoin base p))).map GlobMatch.outStr)

/-- The inner `for match in chain(...)` loop: thread the `seen` set,
yielding each not-yet-seen match rewritten relative to `base`. -/
def globEmit (base : String) : List GlobMatch → List GlobMatch →
    List (String × String) × List GlobMatch
  | [], seen => ([], seen)
  | m :: ms, seen =>
      if seen.contains m then globEmit base ms seen
      else
        let (out, seen') := globEmit base ms (m :: seen)
        ((base, relativeTo base m.str) :: out, seen')

/-- `Globber.glob` (`rules.py` lines 34–57).  `fsGlob base pat` is the
filesystem-glob oracle (`base.glob(pat)`, returning full paths under
`base`); `outputs` is the globber's declared-output set, as a list in
iteration order.  The `seen` set is shared across all input pairs, as in
the source. -/
def globber (fsGlob : String → String → List String) (outputs : List String) :
    List (String × String) → List GlobMatch → List (String × String)
  | [], _ => []
  | (base, p) :: rest, seen =>
      if (!p.toList.contains '*') then
        (base, p) :: globber fsGlob outputs rest seen
      else
        let (out, seen') := globEmit base (globCandidates fsGlob outputs base p) seen
        out ++ globber fsGlob outputs rest seen'

/-- Entry point: fresh `seen`. -/
def Globber.glob (fsGlob : String → String → List String) (outputs : List String)
    (inputs : List (String × String)) : List (String × String) :=
  globber fsGlob outputs inputs []

/-! ### Rule resolution (`resolve`, `rules.py` lines 506–521) -/

/-- One output descriptor after resolution: the 4-tuple minus the
deferred writer (never invoked by the core), with `inputs` and `sources`
already converted by `set(...)` — modelled as first-occurrence
deduplication of the list the command yielded. -/
structure Desc where
  cmd : Cmd
  dest : String
  inputs : List (String × String)
  sources : List (String × String)
  deriving DecidableEq, Repr

/-- Drop the elements already in `seen`, and repeats, keeping first
occurrences. -/
def dedupRel [BEq α] (seen : List α) : List α → List α
  | [] => []
  | x :: xs => if seen.contains x then dedupRel seen xs else x :: dedupRel (x :: seen) xs

/-- First-occurrence deduplication: the content of `set([...])`.  (The
iteration order of a Python set is hash-dependent; the list keeps
first-seen order.  Every downstream use is order-insensitive except
serialization, whose order sensitivity is treated explicitly there.) -/
def dedupF [BEq α] (l : List α) : List α := dedupRel [] l

/-- Run a command's callable over its expanded inputs, yielding the
descriptors (`cat_fn` in `commands.py` lines 48–56 yields a single
descriptor whose direct inputs and sources are the full input list;
`do_not_call` would raise and is never invoked by the engine). -/
def runCmdFn (c : Cmd) : List (String × String) → List Desc
  | ins =>
    match c.fn with
    | .cat dest => [{ cmd := c, dest := dest, inputs := ins, sources := ins }]
    | .doNotCall => []

/-- A rule: `(Command, inputs)`. -/
structure Rule where
  cmd : Cmd
  inputs : List (String × String)
  deriving DecidableEq, Repr

/-- `resolve` (`rules.py` lines 506–521): walk the rules in order,
glob-expanding inputs against the filesystem and the outputs declared so
far, run each command, convert each descriptor's `inputs`/`sources` with
`set(...)`, and record the output path in the globber state. -/
def resolveRules (fsGlob : String → String → List String) :
    List Rule → List String → List Desc
  | [], _ => []
  | r :: rs, outputs =>
      let expanded := Globber.glob fsGlob outputs r.inputs
      let descs := runCmdFn r.cmd expanded
      let descs := descs.map (fun d =>
        { d with inputs := dedupF d.inputs, sources := dedupF d.sources })
      descs ++ resolveRules fsGlob rs (outputs ++ descs.map Desc.dest)

/-- `resolve(rules)` with an empty initial output set. -/
def resolve (fsGlob : String → String → List String) (rules : List Rule) : List Desc :=
  resolveRules fsGlob rules []

/-! ### DAG construction (`to_dag`, `rules.py` lines 524–556) -/

/-- The errors `to_dag` and `DAG.deserialize` can raise. -/
inductive BuildErr where
  | cycle          -- `util.RecursionError` (self loop at `Link.__init__`, or `has_cycles`)
  | duplicate      -- `RuntimeError("Output ... used in multiple productions")`
  deriving DecidableEq, Repr

/-- `Link(cmd, src, dest)`: raises on a self loop (`rules.py` 126–128),
node equality being path equality. -/
def mkLink (cmd : Cmd) (src dest : String) : Except BuildErr Link :=
  if src == dest then .error .cycle
  else .ok { cmd_name := cmd.name, cmd_hash := cmd.hash, src := src, dest := dest }

/-- Record a link in `src.links` and `dest.rlinks` (the two adds shared
by the sources loop, the inputs loop and the deserializer's `link`
branch). -/
def addLinkRecord (dag : DAG) (l : Link) : DAG :=
  let dag := dag.modify l.src (fun n => { n with links := addLink l n.links })
  dag.modify l.dest (fun n => { n with rlinks := addLink l n.rlinks })

/-- Additionally record a link in `src.dlinks` and `dest.drlinks` (the
inputs loop and the deserializer's `dlink` branch). -/
def addDlinkRecord (dag : DAG) (l : Link) : DAG :=
  let dag := dag.modify l.src (fun n => { n with dlinks := addLink l n.dlinks })
  dag.modify l.dest (fun n => { n with drlinks := addLink l n.drlinks })

/-- The `for basedir, source in sources` loop of `to_dag`: intern the
source node, construct the `Link` (raising on a self loop), record it. -/
def sourcesFold (cmd : Cmd) (dest : String) : List (String × String) → DAG → Except BuildErr DAG
  | [], dag => .ok dag
  | bs :: rest, dag =>
      let src := pjoin bs.1 bs.2
      let dag := (dag.get (newNode src)).1
      match mkLink cmd src dest with
      | .error e => .error e
      | .ok l => sourcesFold cmd dest rest (addLinkRecord dag l)

/-- The `for basedir, source in inputs` loop of `to_dag`: as
`sourcesFold`, but also recording the direct-set membership. -/
def inputsFold (cmd : Cmd) (dest : String) : List (String × String) → DAG → Except BuildErr DAG
  | [], dag => .ok dag
  | bs :: rest, dag =>
      let src := pjoin bs.1 bs.2
      let dag := (dag.get (newNode src)).1
      match mkLink cmd src dest with
      | .error e => .error e
      | .ok l => inputsFold cmd dest rest (addDlinkRecord (addLinkRecord dag l) l)

/-- Process one resolved descriptor (the body of the build loop in
`to_dag`): intern the destination, reject double production, then add the
links for `sources` and `inputs`, and stamp the build index. -/
def buildStep (dag : DAG) (i : Nat) (d : Desc) : Except BuildErr DAG :=
  let got := dag.get (newNode d.dest)
  if got.2.production.isSome then .error .duplicate
  else
    let dag := got.1.modify d.dest (fun n => { n with production := some d.cmd })
    match sourcesFold d.cmd d.dest d.sources dag with
    | .error e => .error e
    | .ok dag =>
      match inputsFold d.cmd d.dest d.inputs dag with
      | .error e => .error e
      | .ok dag => .ok (dag.modify d.dest (fun n => { n with index := i }))

/-- The build loop of `to_dag` over the resolved descriptors. -/
def buildDag : List Desc → DAG → Nat → Except BuildErr DAG
  | [], dag, _ => .ok dag
  | d :: ds, dag, i =>
      match buildStep dag i d with
      | .error e => .error e
      | .ok dag' => buildDag ds dag' (i + 1)

/-! ### Cycle detection (`DAG.has_cycles`, `rules.py` lines 195–236) -/

/-- The white/grey/black colouring, keyed by node path
(0 = unseen, 1 = discovered, 2 = finished). -/
def Colors := List (String × Nat)

/-- Colour lookup.  (Every link endpoint of a `to_dag`/`deserialize` DAG
is itself a node of the DAG, so the key is always present there; an
absent key reads as white.) -/
def getColor (cs : Colors) (p : String) : Nat :=
  match List.find? (fun e => e.1 == p) cs with
  | some e => e.2
  | none => 0

/-- Colour update. -/
def setColor (cs : Colors) (p : String) (c : Nat) : Colors :=
  (p, c) :: cs

/-- The `for link in node.links` loop inside `visit`: `v` is the
recursive visit at the remaining fuel.  Returns `true` if a back edge
into a grey node was found (the source returns the offending pair; only
its presence matters downstream). -/
def goLinks (v : Colors → String → Bool × Colors) :
    List Link → Colors → Bool × Colors
  | [], cs => (false, cs)
  | l :: ls, cs =>
      match getColor cs l.dest with
      | 0 =>
        match v cs l.dest with
        | (true, cs') => (true, cs')
        | (false, cs') => goLinks v ls cs'
      | 1 => (true, cs)
      | _ => goLinks v ls cs

/-- `visit(node)`: grey the node, scan its outgoing links, then blacken
it.  Fuel bounds the recursion depth (each recursive call is on a white
node which is immediately greyed, so `|nodes| + 1` fuel suffices in the
source's use); exhausted fuel conservatively reports a cycle. -/
def visitC (d : DAG) : Nat → Colors → String → Bool × Colors
  | 0, cs, _ => (true, cs)
  | fuel + 1, cs, p =>
      let cs := setColor cs p 1
      match goLinks (visitC d fuel) (d.node p).links cs with
      | (true, cs') => (true, cs')
      | (false, cs') => (false, setColor cs' p 2)

/-- The top-level loop of `has_cycles` over all nodes. -/
def cycleScan (d : DAG) (fuel : Nat) : List Node → Colors → Bool
  | [], _ => false
  | n :: ns, cs =>
      if getColor cs n.path == 0 then
        match visitC d fuel cs n.path with
        | (true, _) => true
        | (false, cs') => cycleScan d fuel ns cs'
      else cycleScan d fuel ns cs

/-- `DAG.has_cycles`, reduced to its truth value (the caller only tests
it against `None`). -/
def DAG.hasCycles (d : DAG) : Bool :=
  cycleScan d (d.nodes.length + 1) d.nodes (d.nodes.map (fun n => (n.path, 0)))

/-- `to_dag` (`rules.py` lines 524–556): resolve, build, then reject
cycles. -/
def to_dag (fsGlob : String → String → List String) (rules : List Rule) :
    Except BuildErr DAG :=
  match buildDag (resolve fsGlob rules) {} 0 with
  | .error e => .error e
  | .ok dag => if dag.hasCycles then .error .cycle else .ok dag

/-! ### Diff & plan (`DAG._apply` / `DAG.apply`, `rules.py` lines 397–503) -/

/-- `FileNotFoundError("input ... not found")` raised inside `search`. -/
inductive ApplyErr where
  | missingInput (p : String)
  deriving DecidableEq, Repr

/-- The state threaded through `_apply`: the local mtime cache and the
`seen` set of scheduled nodes (membership is by path, since `Node`
hashes and compares by path). -/
structure AState where
  mt : List (String × Int)
  seen : List String
  deriving Repr

/-- `_getmtime`: consult the cache, fall back to the mtime oracle
(`_mtime`, −1 for a missing file) and cache the answer.  Later entries
shadow earlier ones, so prepending models a dict update. -/
def getmtime (oracle : String → Int) (mt : List (String × Int)) (p : String) :
    Int × List (String × Int) :=
  match mt.find? (fun e => e.1 == p) with
  | some e => (e.2, mt)
  | none => (oracle p, (p, oracle p) :: mt)

/-- `_visit(node)`'s child fold, with the recursive visit at the next
fuel passed in. -/
def visitFold (v : List String → String → List (String × Node) × List String) :
    List String → List String → List (String × Node) × List String
  | [], seen => ([], seen)
  | c :: cs, seen =>
      let (o1, seen1) := v seen c
      let (o2, seen2) := visitFold v cs seen1
      (o1 ++ o2, seen2)

/-- `_visit(node)` (`rules.py` lines 447–453): emit a write unless the
node is already scheduled, mark it, then visit all children in sorted
path order. -/
def visitV (cdag : DAG) : Nat → List String → String → List (String × Node) × List String
  | 0, seen, _ => ([], seen)
  | fuel + 1, seen, p =>
      let n := cdag.node p
      let out0 : List (String × Node) := if seen.contains p then [] else [("w", n)]
      let seen := p :: seen
      let children := sortBy strLe (n.links.map Link.dest)
      let (out1, seen') := visitFold (visitV cdag fuel) children seen
      (out0 ++ out1, seen')

/-- The `for dest in sorted(...)` loop body of `search` (`rules.py`
lines 455–486), with the visit and the recursive search passed in. -/
def searchKids (visit : List String → String → List (String × Node) × List String)
    (srch : String → AState → Except ApplyErr (List (String × Node) × AState))
    (cdag pdag : DAG) (oracle : String → Int) (p : String) :
    List String → AState → Except ApplyErr (List (String × Node) × AState)
  | [], st => .ok ([], st)
  | dest :: rest, st =>
      match pdag.pick dest with
      | some pn =>
          if st.seen.contains pn.path then
            searchKids visit srch cdag pdag oracle p rest st
          else if !(linkSetEq (cdag.node dest).links pn.links) ||
              !(linkSetEq (cdag.node dest).rlinks pn.rlinks) then
            (searchKids visit srch cdag pdag oracle p rest
              { st with seen := (visit st.seen dest).2 }).map
              (fun r => ((visit st.seen dest).1 ++ r.1, r.2))
          else
            if (getmtime oracle st.mt p).1 < 0 then .error (.missingInput p)
            else
              if (getmtime oracle (getmtime oracle st.mt p).2 dest).1 < 0 ||
                  (getmtime oracle st.mt p).1 >
                    (getmtime oracle (getmtime oracle st.mt p).2 dest).1 then
                (searchKids visit srch cdag pdag oracle p rest
                  { mt := (dest, (getmtime oracle st.mt p).1) ::
                      (getmtime oracle (getmtime oracle st.mt p).2 dest).2,
                    seen := (visit st.seen dest).2 }).map
                  (fun r => ((visit st.seen dest).1 ++ r.1, r.2))
              else
                match srch dest { st with
                    mt := (getmtime oracle (getmtime oracle st.mt p).2 dest).2 } with
                | .error e => .error e
                | .ok r =>
                    match searchKids visit srch cdag pdag oracle p rest r.2 with
                    | .error e => .error e
                    | .ok r2 => .ok (r.1 ++ r2.1, r2.2)
      | none =>
          (searchKids visit srch cdag pdag oracle p rest
            { st with seen := (visit st.seen dest).2 }).map
            (fun r => ((visit st.seen dest).1 ++ r.1, r.2))

/-- `search(node)`. -/
def searchS (cdag pdag : DAG) (oracle : String → Int) :
    Nat → String → AState → Except ApplyErr (List (String × Node) × AState)
  | 0, _, st => .ok ([], st)
  | fuel + 1, p, st =>
      searchKids (visitV cdag fuel) (searchS cdag pdag oracle fuel) cdag pdag oracle p
        (sortBy strLe ((cdag.node p).links.map Link.dest)) st

/-- The bottom loop of `_apply`: search from every source node of the
current dag, in insertion order. -/
def searchSources (cdag pdag : DAG) (oracle : String → Int) (fuel : Nat) :
    List Node → AState → Except ApplyErr (List (String × Node))
  | [], _ => .ok []
  | n :: ns, st =>
      match searchS cdag pdag oracle fuel n.path st with
      | .error e => .error e
      | .ok r =>
          match searchSources cdag pdag oracle fuel ns r.2 with
          | .error e => .error e
          | .ok rest => .ok (r.1 ++ rest)

/-- The deletion pass of `_apply` (`rules.py` lines 489–499): previous
nodes in sorted path order that are not sources and whose path is gone
from the current dag, each recorded as missing in the mtime cache. -/
def deletionPass (cdag : DAG) :
    List Node → List (String × Node) × List (String × Int) → List (String × Node) × List (String × Int)
  | [], acc => acc
  | n :: ns, (dels, mt) =>
      if n.rlinks.isEmpty then deletionPass cdag ns (dels, mt)
      else if (cdag.pick n.path).isSome then deletionPass cdag ns (dels, mt)
      else deletionPass cdag ns (dels ++ [("d", n)], (n.path, -1) :: mt)

/-- `DAG._apply` as a list (the generator, fully evaluated). -/
def DAG.applyAux (cdag pdag : DAG) (oracle : String → Int)
    (mt0 : List (String × Int)) (fuel : Nat) :
    Except ApplyErr (List (String × Node)) :=
  match searchSources cdag pdag oracle fuel cdag.sourceNodes
      { mt := (deletionPass cdag pdag.sortedNodes ([], mt0)).2, seen := [] } with
  | .error e => .error e
  | .ok writes => .ok ((deletionPass cdag pdag.sortedNodes ([], mt0)).1 ++ writes)

/-- `DAG.apply` (`rules.py` lines 397–401): the `_apply` stream sorted
(stably) by `node.index`. -/
def DAG.apply (cdag pdag : DAG) (oracle : String → Int)
    (mt0 : List (String × Int)) : Except ApplyErr (List (String × Node)) :=
  (DAG.applyAux cdag pdag oracle mt0 (cdag.nodes.length + pdag.nodes.length + 1)).map
    (sortBy (fun a b => decide (a.2.index ≤ b.2.index)))

/-! ### Serialization (`DAG._serialize` / `serialize`, `rules.py` lines 244–283) -/

/-- Decimal digits of a natural number (the `%d` of the format strings),
with fuel for structural recursion; `fuel ≥ n` always suffices. -/
def natDigitsAux : Nat → Nat → List Char
  | 0, _ => []
  | fuel + 1, n =>
      if n < 10 then [Nat.digitChar n]
      else natDigitsAux fuel (n / 10) ++ [Nat.digitChar (n % 10)]

/-- `"%d" % n`. -/
def natToString (n : Nat) : String := ⟨natDigitsAux (n + 1) n⟩

/-- One character of `str_encode`: whitespace and the escape character
itself become `\xHH`; everything else passes through. -/
def encodeChar (c : Char) : List Char :=
  if c = ' ' ∨ c = '\n' ∨ c = '\\' then
    ['\\', 'x', Nat.digitChar (c.toNat / 16), Nat.digitChar (c.toNat % 16)]
  else [c]

/-- Modelled from the spec: `pyrrhic.util.str_encode` (file `util.py` is
not in `src/`).  §4.6: "Paths must be escaped so that whitespace and
non-printables round-trip"; the serialized records are split on single
spaces and joined with newlines, so the escaping must remove exactly
those characters (and be injective, hence the backslash is escaped
too). -/
def strEncodeChars : List Char → List Char
  | [] => []
  | c :: cs => encodeChar c ++ strEncodeChars cs

/-- See `strEncodeChars`. -/
def str_encode (s : String) : String := ⟨strEncodeChars s.toList⟩

/-- Value of a lower-case hex digit. -/
def hexVal (c : Char) : Nat :=
  if c.toNat ≤ 57 then c.toNat - 48 else c.toNat - 87

/-- Modelled from the spec: `pyrrhic.util.str_decode`, the inverse of
`str_encode`. -/
def strDecodeChars : List Char → List Char
  | [] => []
  | c :: cs =>
      if c = '\\' then
        match cs with
        | 'x' :: h1 :: h2 :: rest =>
            Char.ofNat (16 * hexVal h1 + hexVal h2) :: strDecodeChars rest
        | [] => [c]
        | d :: ds => c :: strDecodeChars (d :: ds)
      else c :: strDecodeChars cs

/-- See `strDecodeChars`. -/
def str_decode (s : String) : String := ⟨strDecodeChars s.toList⟩

/-- `sorted(list(node.links))` under `Link.__lt__` — the stable sort with
the source's (non-total) comparator. -/
def pySortLinks (ls : List Link) : List Link :=
  sortBy (fun a b => !(linkLt b a)) ls

/-- Append `x` unless already present (the `seen_cmds`/`cmds` pair in
`_serialize`). -/
def addFirst [BEq α] (acc : List α) (x : α) : List α :=
  if acc.contains x then acc else acc ++ [x]

/-- The unique `(cmd_name, cmd_hash)` pairs in first-encountered order
over the sorted node traversal. -/
def collectCmds (ns : List Node) : List (String × String) :=
  ns.foldl (fun acc n =>
    (pySortLinks n.links).foldl (fun acc l => addFirst acc (l.cmd_name, l.cmd_hash)) acc) []

/-- `list.index` (callers guarantee membership; absent values never
arise in a well-formed serialization). -/
def idxOf [BEq α] (x : α) : List α → Nat
  | [] => 0
  | y :: ys => if y == x then 0 else idxOf x ys + 1

/-- The `(d)link` record lines: for each node (in sorted order, with its
enumeration index) and each of its links (in `Link.__lt__`-sorted
order), a `dlink` line if the link is also in the node's direct set,
else a `link` line. -/
def linkLines (keys : List String) (cmds : List (String × String)) :
    Nat → List Node → List String
  | _, [] => []
  | i, n :: ns =>
      (pySortLinks n.links).map (fun l =>
        (if n.dlinks.any (linkBEq l) then "dlink " else "link ") ++
          natToString i ++ " " ++ natToString (idxOf l.dest keys) ++ " " ++
          natToString (idxOf (l.cmd_name, l.cmd_hash) cmds)) ++
      linkLines keys cmds (i + 1) ns

/-- `DAG._serialize` (`rules.py` lines 244–278) as the list of lines the
generator yields, with each yielded `"\n# ..."` section header split
into its empty line and comment line (byte-identical after joining). -/
def DAG.serializeLines (d : DAG) : List String :=
  let sorted := d.sortedNodes
  let keys := sorted.map Node.path
  let cmds := collectCmds sorted
  ["# DAG serialised by Pyrrhic",
   "# See https://github.com/tawesoft/pyrrhic",
   "# See https://www.tawesoft.co.uk/products/open-source-software",
   "format 2",
   "", "# node num_links path"] ++
  sorted.map (fun n => "node " ++ natToString n.links.length ++ " " ++ str_encode n.path) ++
  ["", "# func name hash"] ++
  cmds.map (fun c => "func " ++ c.1 ++ " " ++ toHex c.2) ++
  ["", "# (d)link source_node_index dest_node_index function_index",
   "# dlink means the input is direct, link means indirect"] ++
  linkLines keys cmds 0 sorted

/-- `"\n".join(...)` at the character level. -/
def joinNlChars : List (List Char) → List Char
  | [] => []
  | [l] => l
  | l :: ls => l ++ '\n' :: joinNlChars ls

/-- `DAG.serialize` (`rules.py` lines 281–283). -/
def DAG.serialize (d : DAG) : String :=
  ⟨joinNlChars (d.serializeLines.map String.toList)⟩

/-! ### Deserialization (`DAG.deserialize`, `rules.py` lines 285–356) -/

/-- `data.split("\n")` at the character level. -/
def splitNlChars : List Char → List (List Char)
  | [] => [[]]
  | c :: cs =>
      let r := splitNlChars cs
      if c = '\n' then [] :: r
      else match r with
        | h :: t => (c :: h) :: t
        | [] => [[c]]

/-- The lines of a string. -/
def linesOf (s : String) : List String :=
  (splitNlChars s.toList).map (fun l => ⟨l⟩)

/-- `line.split(" ", maxsplit=1)` helper: the part before the first
space and, if a space was found, the remainder. -/
def splitSp1Chars (acc : List Char) : List Char → List Char × Option (List Char)
  | [] => (acc.reverse, none)
  | ' ' :: rest => (acc.reverse, some rest)
  | c :: rest => splitSp1Chars (c :: acc) rest

/-- `line.split(" ", maxsplit=1)`. -/
def splitSp1 (s : String) : List String :=
  match splitSp1Chars [] s.toList with
  | (a, none) => [⟨a⟩]
  | (a, some r) => [⟨a⟩, ⟨r⟩]

/-- `rest.split(" ", maxsplit=2)`. -/
def splitSp2 (s : String) : List String :=
  match splitSp1Chars [] s.toList with
  | (a, none) => [⟨a⟩]
  | (a, some r) =>
    match splitSp1Chars [] r with
    | (b, none) => [⟨a⟩, ⟨b⟩]
    | (b, some r2) => [⟨a⟩, ⟨b⟩, ⟨r2⟩]

/-- Whether a character is an ASCII decimal digit. -/
def isDigitChar (c : Char) : Bool := 48 ≤ c.toNat && c.toNat ≤ 57

/-- Accumulate the value of a digit string. -/
def pyNatAcc : Nat → List Char → Option Nat
  | acc, [] => some acc
  | acc, c :: cs =>
      if isDigitChar c then pyNatAcc (acc * 10 + (c.toNat - 48)) cs else none

/-- `int(s)` for the strings that occur here: an optional leading `-`
followed by one or more decimal digits; anything else raises
`ValueError` (`none`). -/
def pyInt? (s : String) : Option Int :=
  match s.toList with
  | [] => none
  | c :: cs =>
      if c = '-' then
        if cs.isEmpty then none else (pyNatAcc 0 cs).map (fun k => -(k : Int))
      else (pyNatAcc 0 (c :: cs)).map Int.ofNat

/-- `l[i]` with Python semantics: negative indices count from the end;
out of range is an `IndexError` (`none`). -/
def pyGet? (l : List α) : Int → Option α
  | .ofNat n => l.get? n
  | .negSucc m => if m + 1 ≤ l.length then l.get? (l.length - (m + 1)) else none

/-- `line == "" or line.isspace()` (a line never contains `\n`). -/
def isBlankLine (s : String) : Bool :=
  s.toList.isEmpty || s.toList.all (fun c => c == ' ' || c == '\t' || c == '\r')

/-- `line.startswith("#")`. -/
def startsHash (s : String) : Bool :=
  match s.toList with
  | c :: _ => c == '#'
  | [] => false

/-- The errors `DAG.deserialize` can raise: `SyntaxError(lineno)` (also
for an unknown label), `ValueError` from `int(...)` or tuple unpacking,
`IndexError` from list indexing, and the `RecursionError` a self-loop
`Link` would raise. -/
inductive DeserErr where
  | syntaxError (lineno : Nat)
  | valueError
  | indexError
  | cycleError
  deriving DecidableEq, Repr

/-- Deserializer state: the dag under construction plus the `paths` and
`commands` index lists. -/
structure DState where
  dag : DAG := {}
  paths : List String := []
  commands : List (String × String) := []
  deriving Repr

/-- Result of processing one line: continue with a new state, or the
early `return DAG()` taken for an unknown format version. -/
inductive DStep where
  | cont (st : DState)
  | earlyReturn (d : DAG)

/-- Parse the three integer fields of a `(d)link` line and build the
`Link` with the `(do_not_call, name, hash)` stub command; shared by the
`link` and `dlink` branches. -/
def parseLinkFields (st : DState) (rest : String) : Except DeserErr Link := do
  match splitSp2 rest with
  | [s1, s2, s3] =>
    let i1 ← match pyInt? s1 with | some v => pure v | none => throw .valueError
    let i2 ← match pyInt? s2 with | some v => pure v | none => throw .valueError
    let i3 ← match pyInt? s3 with | some v => pure v | none => throw .valueError
    let srcPath ← match pyGet? st.paths i1 with | some p => pure p | none => throw .indexError
    let destPath ← match pyGet? st.paths i2 with | some p => pure p | none => throw .indexError
    let cmd ← match pyGet? st.commands i3 with | some c => pure c | none => throw .indexError
    match mkLink { fn := .doNotCall, name := cmd.1, hash := cmd.2 } srcPath destPath with
    | .ok l => pure l
    | .error _ => throw .cycleError
  | _ => throw .valueError

/-- Process one (non-blank, non-comment) line of the serialized text. -/
def deserLine (st : DState) (lineno : Nat) (line : String) : Except DeserErr DStep := do
  match splitSp1 line with
  | [label, rest] =>
    if label == "format" then
      match pyInt? rest with
      | none => throw .valueError
      | some v => if v == 2 then pure (.cont st) else pure (.earlyReturn {})
    else if label == "node" then
      match splitSp2 rest with
      | [_, penc] =>
        let p := str_decode penc
        pure (.cont { st with dag := (st.dag.get (newNode p)).1, paths := st.paths ++ [p] })
      | _ => throw (.syntaxError lineno)
    else if label == "func" then
      match splitSp2 rest with
      | [name, hex] =>
        pure (.cont { st with commands := st.commands ++ [(name, fromHex hex)] })
      | _ => throw (.syntaxError lineno)
    else if label == "link" then
      let l ← parseLinkFields st rest
      pure (.cont { st with dag := addLinkRecord st.dag l })
    else if label == "dlink" then
      let l ← parseLinkFields st rest
      pure (.cont { st with dag := addDlinkRecord (addLinkRecord st.dag l) l })
    else
      throw (.syntaxError lineno)
  | _ => throw (.syntaxError lineno)

/-- The `for lineno, line in enumerate(...)` loop. -/
def deserLoop : List String → Nat → DState → Except DeserErr DAG
  | [], _, st => .ok st.dag
  | l :: ls, i, st =>
      if isBlankLine l || startsHash l then deserLoop ls (i + 1) st
      else
        match deserLine st i l with
        | .error e => .error e
        | .ok (.cont st') => deserLoop ls (i + 1) st'
        | .ok (.earlyReturn d) => .ok d

/-- `DAG.deserialize` (`rules.py` lines 285–356); the module-level
`deserialize` (line 559) delegates to it. -/
def DAG.deserialize (s : String) : Except DeserErr DAG :=
  deserLoop (linesOf s) 0 {}

/-! ### Concrete scenarios from `test_dag.py` and spec §8 -/

/-- A filesystem-glob oracle with no matches (the test rules use no
wildcards, so the oracle is never consulted). -/
def noFsGlob : String → String → List String := fun _ _ => []

/-- The plan projected the way the tests project it:
`(op, str(node.path))`. -/
def planPaths (pl : List (String × Node)) : List (String × String) :=
  pl.map (fun e => (e.1, e.2.path))

/-- The eight rules of Scenario D (`test_dag_mtimes`). -/
def scenarioD_rules : List Rule := [
  { cmd := catCmd "dest/a",    inputs := [("src", "a")] },
  { cmd := catCmd "dest/b",    inputs := [("src", "b")] },
  { cmd := catCmd "dest/c",    inputs := [("src", "c")] },
  { cmd := catCmd "dest/ab",   inputs := [("src", "a"), ("src", "b")] },
  { cmd := catCmd "dest/abc",  inputs := [("src", "a"), ("src", "b"), ("src", "c")] },
  { cmd := catCmd "dest/a2",   inputs := [("dest", "a")] },
  { cmd := catCmd "dest/b2",   inputs := [("dest", "b")] },
  { cmd := catCmd "dest/a2b2", inputs := [("dest", "a"), ("dest", "b")] }]

/-- The mtime map of Scenario D. -/
def scenarioD_mtimes : List (String × Int) := [
  ("src/a", 1), ("src/b", 1), ("src/c", 1),
  ("dest/a", -1), ("dest/b", 2), ("dest/c", -1),
  ("dest/ab", -1), ("dest/abc", -1),
  ("dest/a2", 3), ("dest/b2", -1), ("dest/a2b2", 3)]

/-- `to_dag(scenario D rules).apply(itself, mtimes)`, projected to
`(op, path)` pairs (`none` if any stage errors, which it does not). -/
def scenarioD_result : Option (List (String × String)) :=
  match to_dag noFsGlob scenarioD_rules with
  | .ok d =>
    match DAG.apply d d (fun _ => -1) scenarioD_mtimes with
    | .ok pl => some (planPaths pl)
    | .error _ => none
  | .error _ => none

/-- The plan Scenario D's spec sentence and `test_dag_mtimes` expect. -/
def scenarioD_expected : List (String × String) :=
  [("w", "dest/a"), ("w", "dest/a2"), ("w", "dest/a2b2"), ("w", "dest/ab"),
   ("w", "dest/abc"), ("w", "dest/b2"), ("w", "dest/c")]

/-- The current-run rules of `test_dag_diff` (Scenario E). -/
def diff_rules1 : List Rule := [
  { cmd := catCmd "dest/a",  inputs := [("src", "a")] },
  { cmd := catCmd "dest/b",  inputs := [("src", "b")] },
  { cmd := catCmd "dest/c",  inputs := [("src", "c")] },
  { cmd := catCmd "dest/e",  inputs := [("src", "e")] },
  { cmd := catCmd "dest/e2", inputs := [("dest", "e")] }]

/-- The previous-run rules of `test_dag_diff` (Scenario E). -/
def diff_rules2 : List Rule := [
  { cmd := catCmd "dest/a",  inputs := [("src", "a")] },
  { cmd := catCmd "dest/b",  inputs := [("src", "b")] },
  { cmd := catCmd "dest/c",  inputs := [("src", "c")] },
  { cmd := catCmd "dest/d",  inputs := [("src", "d")] },
  { cmd := catCmd "dest/d2", inputs := [("dest", "d")] }]

/-- The mtime map of `test_dag_diff`. -/
def diff_mtimes : List (String × Int) := [
  ("src/a", 1), ("dest/a", 2), ("src/b", 1), ("dest/b", 2),
  ("src/c", 1), ("dest/c", 2), ("src/d", 1), ("dest/d", 2),
  ("dest/d2", 3), ("src/e", 1), ("dest/e", 2), ("dest/e2", 3)]

/-- `to_dag(rules1).apply(to_dag(rules2), mtimes)` projected to
`(op, path)` pairs. -/
def diff_result : Option (List (String × String)) :=
  match to_dag noFsGlob diff_rules1, to_dag noFsGlob diff_rules2 with
  | .ok d1, .ok d2 =>
    match DAG.apply d1 d2 (fun _ => -1) diff_mtimes with
    | .ok pl => some (planPaths pl)
    | .error _ => none
  | _, _ => none

/-! ### Fixtures for the concrete counterexamples -/

/-- A link `s → t` (any command labelling). -/
def cexLink : Link := { cmd_name := "cat", cmd_hash := "h", src := "s", dest := "t" }

/-- A two-node dag in which `s → t` is linked. -/
def cexDagLinked : DAG :=
  { nodes := [{ path := "s", links := [cexLink] }, { path := "t", rlinks := [cexLink] }] }

/-- The same two paths with no links at all. -/
def cexDagBare : DAG := { nodes := [{ path := "s" }, { path := "t" }] }

/-- Two links out of `s` on which `Link.__lt__` is not asymmetric:
`lt cexL1 cexL2` by `cmd_name` and `lt cexL2 cexL1` by `cmd_hash`. -/
def cexL1 : Link := { cmd_name := "a", cmd_hash := "z", src := "s", dest := "t" }

/-- See `cexL1`. -/
def cexL2 : Link := { cmd_name := "b", cmd_hash := "y", src := "s", dest := "u" }

/-- A dag whose node `s` holds the link set `{cexL1, cexL2}`, iterated
in the order `[cexL1, cexL2]`. -/
def cexDagIterA : DAG :=
  { nodes := [{ path := "s", links := [cexL1, cexL2] },
              { path := "t", rlinks := [cexL1] },
              { path := "u", rlinks := [cexL2] }] }

/-- The same dag with the set iterated in the order `[cexL2, cexL1]`
(Python set iteration order is hash-seed dependent). -/
def cexDagIterB : DAG :=
  { nodes := [{ path := "s", links := [cexL2, cexL1] },
              { path := "t", rlinks := [cexL1] },
              { path := "u", rlinks := [cexL2] }] }

/-- A glob oracle for the C6 counterexample: the pattern `*.txt` under
`src` matches the on-disk file `src/a.txt`. -/
def cexFsGlob : String → String → List String :=
  fun base pat => if base == "src" && pat == "*.txt" then ["src/a.txt"] else []

/-- Rule set in which the duplicate output (`o`, rules 1 and 2) is
resolved before the self-loop rule (`x ← x`). -/
def cexDupFirstRules : List Rule := [
  { cmd := catCmd "o", inputs := [("", "a")] },
  { cmd := catCmd "o", inputs := [("", "b")] },
  { cmd := catCmd "x", inputs := [("", "x")] }]

/-- Rule set in which the self-loop rule (`x ← x`) is resolved before
the duplicate output pair. -/
def cexLoopFirstRules : List Rule := [
  { cmd := catCmd "x", inputs := [("", "x")] },
  { cmd := catCmd "o", inputs := [("", "a")] },
  { cmd := catCmd "o", inputs := [("", "b")] }]

/-- A resolved descriptor lists its own output among its sources or
inputs (`Link.__init__` would raise on it). -/
def Desc.selfLoop (d : Desc) : Bool :=
  (d.sources ++ d.inputs).any (fun bs => pjoin bs.1 bs.2 == d.dest)

/-- Some descriptor of the stream has a self loop. -/
def anySelfLoop (ds : List Desc) : Bool := ds.any Desc.selfLoop


/-- The Scenario D DAG (used as the concrete witness input). -/
def scenarioD_dag : DAG := (to_dag noFsGlob scenarioD_rules).toOption.getD {}

/-- The plan `DAG.apply` produces for Scenario D against itself. -/
def scenarioD_plan : List (String × Node) :=
  (DAG.apply scenarioD_dag scenarioD_dag (fun _ => -1) scenarioD_mtimes).toOption.getD []

/-- Some output path occurs twice in the stream. -/
def hasDupB [BEq α] : List α → Bool
  | [] => false
  | x :: xs => xs.contains x || hasDupB xs

/-- The emission discipline of the `seen` set in `Globber.glob`,
abstracted from the rewriting: keep the candidates not yet seen, first
occurrence wins. -/
def emitSpec (seen : List GlobMatch) : List GlobMatch → List GlobMatch
  | [] => []
  | m :: ms => if seen.contains m then emitSpec seen ms else m :: emitSpec (m :: seen) ms

/-- The node at `p` exists and carries a production. -/
def hasProd (d : DAG) (p : String) : Bool :=
  match d.pick p with
  | some n => n.production.isSome
  | none => false

/-- An edge of the dependency graph: a link out of the node stored at
`p` pointing to `q`. -/
def Edge (d : DAG) (p q : String) : Prop :=
  ∃ n, d.pick p = some n ∧ ∃ l ∈ n.links, l.dest = q

/-- No directed cycle: no nonempty link path from any node back to
itself. -/
def Acyclic (d : DAG) : Prop :=
  ∀ p, ¬ Relation.TransGen (Edge d) p p

/-- An edge the resolved descriptor stream *would* put into the graph:
some descriptor produces `q` from the joined source/input path `p`. -/
def EdgeRes (ds : List Desc) (p q : String) : Prop :=
  ∃ d ∈ ds, q = d.dest ∧ ∃ bs ∈ d.sources ++ d.inputs, p = pjoin bs.1 bs.2

/-- DFS invariant: every out-link of a finished (black) node leads to a
finished node. -/
def BlackClosed (d : DAG) (cs : Colors) : Prop :=
  ∀ p, getColor cs p = 2 → ∀ l ∈ (d.node p).links, getColor cs l.dest = 2

/-- DFS invariant: no finished node lies on a directed cycle. -/
def NoBlackCycle (d : DAG) (cs : Colors) : Prop :=
  ∀ p, getColor cs p = 2 → ¬ Relation.TransGen (Edge d) p p

/-- Every colour is white, grey or black. -/
def ColorsBounded (cs : Colors) : Prop :=
  ∀ q, getColor cs q = 0 ∨ getColor cs q = 1 ∨ getColor cs q = 2

/-- Well-formedness of a DAG, as `to_dag` and `deserialize` guarantee it:
one node per path (the `OrderedDict` invariant), every link recorded
under a node points to an interned node other than the node itself
(links are created between interned endpoints and self loops raise), and
command names and hex-encoded hashes contain no separator characters
(names are Python identifiers, `hexlify` output is lower-case hex). -/
def wfSer (d : DAG) : Bool :=
  !hasDupB (d.nodes.map Node.path) &&
  d.nodes.all (fun n => n.links.all (fun l =>
    !(n.path == l.dest) &&
    (d.nodes.map Node.path).contains l.dest &&
    l.cmd_name.toList.all (fun c => !(c == ' ') && !(c == '\n')) &&
    l.cmd_hash.toList.all (fun c => !(c == ' ') && !(c == '\n'))))

/-! ## Theorems -/

theorem insertBy_perm (le : α → α → Bool) (x : α) (l : List α) :
    List.Perm (insertBy le x l) (x :: l) := by
  induction l with
  | nil => simp [insertBy]
  | cons y ys ih =>
    simp only [insertBy]
    split
    · exact List.Perm.refl _
    · exact List.Perm.trans (List.Perm.cons y ih) (List.Perm.swap x y ys)

theorem sortBy_perm (le : α → α → Bool) (l : List α) :
    List.Perm (sortBy le l) l := by
  induction l with
  | nil => exact List.Perm.refl _
  | cons x xs ih =>
    exact List.Perm.trans (insertBy_perm le x (sortBy le xs)) (List.Perm.cons x ih)

/-- C1: Scenario D (`test_dag_mtimes`) on the code as written: `DAG.apply`
sorts the whole `_apply` stream by the nodes' build index
(`rules.py` line 401), so the eight cat rules applied against themselves
with the given mtimes produce the plan in build-index order
`a, c, ab, abc, a2, b2, a2b2` — NOT the DFS order
`a, a2, a2b2, ab, abc, b2, c` that the claim (and the repository's own
test `test_dag_mtimes`) states.  The code contradicts its own test. -/
theorem c1_scenarioD_plan_bug :
    scenarioD_result =
      some [("w", "dest/a"), ("w", "dest/c"), ("w", "dest/ab"), ("w", "dest/abc"),
            ("w", "dest/a2"), ("w", "dest/b2"), ("w", "dest/a2b2")] ∧
    scenarioD_result ≠ some scenarioD_expected := by
  constructor
  · rfl
  · decide

/-- C2: the ordering guarantee fails on the code: `DAG.apply` stably
sorts deletions and writes *together* by `node.index`, so in the
`test_dag_diff` scenario the write of `dest/e` (index 3) comes before the
deletion of `dest/d2` (index 4) — a deletion does not precede every
write, and the repository's own test asserts the contrary order. -/
theorem c2_plan_order_bug :
    diff_result =
      some [("d", "dest/d"), ("w", "dest/e"), ("d", "dest/d2"), ("w", "dest/e2")] ∧
    diff_result ≠
      some [("d", "dest/d"), ("d", "dest/d2"), ("w", "dest/e"), ("w", "dest/e2")] := by
  constructor
  · rfl
  · decide

/-- `nodeItemsEq` (hence `DAG.__eq__`) only sees the path sequences. -/
theorem nodeItemsEq_iff_paths (xs ys : List Node) :
    nodeItemsEq xs ys = true ↔ xs.map Node.path = ys.map Node.path := by
  induction xs generalizing ys with
  | nil => cases ys <;> simp [nodeItemsEq]
  | cons n ns ih =>
    cases ys with
    | nil => simp [nodeItemsEq]
    | cons m ms => simp [nodeItemsEq, ih ms]

/-- C3 counterexample: `cexDagLinked` has a link `s → t` while
`cexDagBare` has none, yet `DAG.__eq__` pronounces them equal — the
claim says two DAGs with identical paths but different link sets compare
unequal. -/
theorem c3_counterexample :
    DAG.eq cexDagLinked cexDagBare = true ∧
    linkSetEq (cexDagLinked.node "s").links (cexDagBare.node "s").links = false := by
  decide

/-- C3 (amended): `DAG.__eq__` compares only the sorted sequences of
node paths, because `Node.__eq__` (`rules.py` lines 73–75) compares only
`path`; link sets are never consulted. -/
theorem c3_dag_eq_is_path_eq (a b : DAG) :
    DAG.eq a b = true ↔ a.sortedNodes.map Node.path = b.sortedNodes.map Node.path := by
  exact nodeItemsEq_iff_paths _ _

set_option maxRecDepth 4000 in
/-- C5 counterexample: `cexDagIterA` and `cexDagIterB` are the same DAG
content — same nodes, same link sets (only the set-iteration order of
`s.links` differs) — and they compare equal, yet they serialize to
different bytes: `Link.__lt__` is not asymmetric on `cexL1`/`cexL2`
(both `lt cexL1 cexL2` and `lt cexL2 cexL1` hold), so the sorted link
emission order depends on the iteration order. -/
theorem c5_counterexample :
    DAG.eq cexDagIterA cexDagIterB = true ∧
    linkSetEq (cexDagIterA.node "s").links (cexDagIterB.node "s").links = true ∧
    linkLt cexL1 cexL2 = true ∧ linkLt cexL2 cexL1 = true ∧
    cexDagIterA.serialize ≠ cexDagIterB.serialize := by
  refine ⟨by decide, by decide, by decide, by decide, by decide⟩

/-- C5 (amended): serialization is deterministic only as a function of
the in-memory representation — DAGs with identical node lists (same
insertion order, same link-list iteration orders) produce byte-identical
output.  Equal DAGs in general do not, as the counterexample shows. -/
theorem c5_serialize_deterministic (d1 d2 : DAG) (h : d1.nodes = d2.nodes) :
    d1.serialize = d2.serialize := by
  cases d1; cases d2; simp only at h; subst h; rfl

/-- Witness for `c5_serialize_deterministic`. -/
theorem c5_serialize_deterministic_witness :
    ({ nodes := cexDagIterA.nodes } : DAG).nodes = cexDagIterA.nodes ∧
    ({ nodes := cexDagIterA.nodes } : DAG).serialize = cexDagIterA.serialize :=
  ⟨rfl, c5_serialize_deterministic { nodes := cexDagIterA.nodes } cexDagIterA rfl⟩

/-- C6 counterexample: the pattern `*.txt` under `src` matches the
on-disk file `src/a.txt` and the declared output `"src/a.txt"`; the
`seen` set stores the former as a `Path` and the latter as a `str`,
which never compare equal, so the match is yielded twice — the claim
says each distinct match is yielded exactly once with duplicates
between the two lists suppressed. -/
theorem c6_counterexample :
    Globber.glob cexFsGlob ["src/a.txt"] [("src", "*.txt")] =
      [("src", "a.txt"), ("src", "a.txt")] := by
  decide

/-- C7 counterexample: `cexDupFirstRules` resolves to a stream whose
last descriptor is the self-loop `x ← x`, so its dependency graph would
contain a self-loop — but `to_dag` fails with the DuplicateOutput
`RuntimeError` (raised at the second `o` production, before the loop
rule is reached), not with `CycleDetected`. -/
theorem c7_counterexample :
    anySelfLoop (resolve noFsGlob cexDupFirstRules) = true ∧
    to_dag noFsGlob cexDupFirstRules = .error .duplicate ∧
    to_dag noFsGlob cexDupFirstRules ≠ .error .cycle := by
  refine ⟨by decide, by decide, by decide⟩

/-- C8 counterexample: `cexLoopFirstRules` resolves two descriptors
naming the same output `o` — but `to_dag` fails with the
`RecursionError` of the self-loop `x ← x` (raised while processing the
first descriptor, before the duplicate is reached), not with
DuplicateOutput. -/
theorem c8_counterexample :
    hasDupB ((resolve noFsGlob cexLoopFirstRules).map Desc.dest) = true ∧
    to_dag noFsGlob cexLoopFirstRules = .error .cycle ∧
    to_dag noFsGlob cexLoopFirstRules ≠ .error .duplicate := by
  refine ⟨by decide, by decide, by decide⟩

/-- C9 counterexample: a format record with the non-numeric version
`x` makes `int(rest)` raise `ValueError` — a hard error, where the
claim says every version other than 2 yields an empty DAG with a
diagnostic. -/
theorem c9_counterexample :
    DAG.deserialize "format x" = .error .valueError := by
  decide

theorem pyNatAcc_digits {n : Nat} :
    ∀ {l : List Char} {acc : Nat}, pyNatAcc acc l = some n →
      ∀ c ∈ l, isDigitChar c = true := by
  intro l
  induction l with
  | nil => intro acc _ c hc; cases hc
  | cons d ds ih =>
    intro acc h c hc
    by_cases hd : isDigitChar d = true
    · rcases List.mem_cons.mp hc with heq | hmem
      · subst heq; exact hd
      · exact ih (by simpa [pyNatAcc, hd] using h) c hmem
    · simp [pyNatAcc, hd] at h

theorem pyInt?_chars {s : String} {n : Int} (h : pyInt? s = some n) :
    ∀ c ∈ s.toList, isDigitChar c = true ∨ c = '-' := by
  intro c hc
  cases hl : s.toList with
  | nil => rw [hl] at hc; cases hc
  | cons d ds =>
    simp only [pyInt?.eq_def, hl] at h
    rw [hl] at hc
    rcases List.mem_cons.mp hc with rfl | hmem
    · by_cases hd : c = '-'
      · exact .inr hd
      · rw [if_neg hd] at h
        cases hacc : pyNatAcc 0 (c :: ds) with
        | none => rw [hacc] at h; simp at h
        | some k => exact .inl (pyNatAcc_digits hacc c (List.mem_cons_self c ds))
    · by_cases hd : d = '-'
      · subst hd
        rw [if_pos rfl] at h
        by_cases he : ds.isEmpty
        · rw [if_pos he] at h; simp at h
        · rw [if_neg he] at h
          cases hacc : pyNatAcc 0 ds with
          | none => rw [hacc] at h; simp at h
          | some k => exact .inl (pyNatAcc_digits hacc c hmem)
      · rw [if_neg hd] at h
        cases hacc : pyNatAcc 0 (d :: ds) with
        | none => rw [hacc] at h; simp at h
        | some k => exact .inl (pyNatAcc_digits hacc c (List.mem_cons_of_mem d hmem))

theorem digit_ne_nl {c : Char} (h : isDigitChar c = true ∨ c = '-') : c ≠ '\n' := by
  rintro rfl
  rcases h with h | h
  · exact absurd h (by decide)
  · exact absurd h (by decide)

theorem digit_ne_space {c : Char} (h : isDigitChar c = true ∨ c = '-') : c ≠ ' ' := by
  rintro rfl
  rcases h with h | h
  · exact absurd h (by decide)
  · exact absurd h (by decide)

theorem splitNl_append {l1 l2 : List Char} (h : '\n' ∉ l1) :
    splitNlChars (l1 ++ '\n' :: l2) = l1 :: splitNlChars l2 := by
  induction l1 with
  | nil => simp [splitNlChars]
  | cons c cs ih =>
    have hc : ¬ c = '\n' := fun hh => h (hh ▸ List.mem_cons_self c cs)
    have ih' := ih (fun hm => h (List.mem_cons_of_mem c hm))
    simp only [List.cons_append, splitNlChars, List.append_eq, ih', if_neg hc]

theorem splitSp1Chars_cons_ne {c : Char} (hc : c ≠ ' ') (acc l : List Char) :
    splitSp1Chars acc (c :: l) = splitSp1Chars (c :: acc) l := by
  rw [splitSp1Chars.eq_def]
  split
  · simp_all
  · rename_i heq
    injection heq with h1 h2
    exact absurd h1 hc
  · rename_i c' rest heq
    injection heq with h1 h2
    subst h1; subst h2; rfl

theorem splitSp1Chars_no_space {l1 : List Char} (h : ∀ c ∈ l1, c ≠ ' ') :
    ∀ (acc l2 : List Char),
      splitSp1Chars acc (l1 ++ ' ' :: l2) = (acc.reverse ++ l1, some l2) := by
  induction l1 with
  | nil => intro acc l2; simp [splitSp1Chars]
  | cons c cs ih =>
    intro acc l2
    rw [List.cons_append, splitSp1Chars_cons_ne (h c (List.mem_cons_self c cs))]
    rw [ih (fun d hd => h d (List.mem_cons_of_mem c hd))]
    simp

/-- C9 (amended): a format record whose version is a *parseable integer*
other than 2 makes `deserialize` return the empty DAG at once, whatever
follows; a non-numeric version, however, raises `ValueError` (see the
counterexample). -/
theorem c9_unknown_format_empty (s rest : String) (n : Int)
    (h : pyInt? s = some n) (h2 : n ≠ 2) :
    DAG.deserialize ("format " ++ s ++ "\n" ++ rest) = .ok {} := by
  have hchars := pyInt?_chars h
  have hnl : '\n' ∉ "format ".toList ++ s.toList := by
    intro hm
    rcases List.mem_append.mp hm with hm | hm
    · revert hm; decide
    · exact digit_ne_nl (hchars _ hm) rfl
  have htl : ("format " ++ s ++ "\n" ++ rest).toList
      = ("format ".toList ++ s.toList) ++ '\n' :: rest.toList := by
    simp only [String.toList, String.data_append, List.append_assoc]
    rfl
  have hlines : linesOf ("format " ++ s ++ "\n" ++ rest)
      = (⟨"format ".toList ++ s.toList⟩ : String) :: linesOf rest := by
    unfold linesOf
    rw [htl, splitNl_append hnl]
    rfl
  have hline : (⟨"format ".toList ++ s.toList⟩ : String) = "format " ++ s := rfl
  have hsplit : splitSp1 ("format " ++ s) = ["format", s] := by
    unfold splitSp1
    have : ("format " ++ s).toList = "format".toList ++ ' ' :: s.toList := rfl
    rw [this, splitSp1Chars_no_space (by decide)]
    rfl
  have hblank : isBlankLine ("format " ++ s) = false := by
    have : ("format " ++ s).toList = 'f' :: ("ormat ".toList ++ s.toList) := rfl
    simp [isBlankLine, this]
  have hhash : startsHash ("format " ++ s) = false := by
    have : ("format " ++ s).toList = 'f' :: ("ormat ".toList ++ s.toList) := rfl
    simp [startsHash, this]
  have hbeq : (n == 2) = false := beq_eq_false_iff_ne.mpr h2
  unfold DAG.deserialize
  rw [hlines, hline]
  unfold deserLoop
  rw [hblank, hhash]
  simp only [Bool.or_self, if_false]
  unfold deserLine
  rw [hsplit]
  simp only [h, hbeq]
  rfl

/-- Witness for `c9_unknown_format_empty`. -/
theorem c9_unknown_format_empty_witness :
    pyInt? "3" = some 3 ∧ (3 : Int) ≠ 2 ∧
    DAG.deserialize ("format " ++ "3" ++ "\n" ++ "node 0 x") = .ok {} :=
  ⟨by decide, by decide, c9_unknown_format_empty "3" "node 0 x" 3 (by decide) (by decide)⟩

/-- Emission of `Globber.glob`'s inner loop equals the seen-set
filtering followed by the rewrite. -/
theorem globEmit_fst (base : String) :
    ∀ (ms : List GlobMatch) (seen : List GlobMatch),
      (globEmit base ms seen).1 = (emitSpec seen ms).map (fun m => (base, relativeTo base m.str)) := by
  intro ms
  induction ms with
  | nil => intro seen; simp [globEmit, emitSpec]
  | cons m ms ih =>
    intro seen
    by_cases hm : m ∈ seen
    · simp [globEmit, emitSpec, hm, ih]
    · simp [globEmit, emitSpec, hm, ih]

theorem contains_fs_out (S : List String) (b : String) :
    (S.map GlobMatch.fsPath).contains (GlobMatch.outStr b) = false := by
  simp [List.mem_map]

theorem contains_map_out (T : List String) (S : List String) (b : String) :
    ((T.map GlobMatch.outStr ++ S.map GlobMatch.fsPath).contains (GlobMatch.outStr b))
      = T.contains b := by
  simp [List.mem_map, List.mem_append]

theorem contains_map_fs (S : List String) (a : String) :
    ((S.map GlobMatch.fsPath).contains (GlobMatch.fsPath a)) = S.contains a := by
  simp [List.mem_map]

theorem mem_out_append_iff (T S : List String) (b : String) :
    GlobMatch.outStr b ∈ (T.map GlobMatch.outStr ++ S.map GlobMatch.fsPath) ↔ b ∈ T := by
  simp [List.mem_append, List.mem_map]

theorem mem_fs_map_iff (S : List String) (a : String) :
    GlobMatch.fsPath a ∈ S.map GlobMatch.fsPath ↔ a ∈ S := by
  simp [List.mem_map]

theorem emitSpec_cons_mem {m : GlobMatch} {seen : List GlobMatch} (h : m ∈ seen)
    (ms : List GlobMatch) : emitSpec seen (m :: ms) = emitSpec seen ms := by
  simp [emitSpec, h]

theorem emitSpec_cons_not_mem {m : GlobMatch} {seen : List GlobMatch} (h : m ∉ seen)
    (ms : List GlobMatch) : emitSpec seen (m :: ms) = m :: emitSpec (m :: seen) ms := by
  simp [emitSpec, h]

theorem dedupRel_cons_mem [BEq α] [LawfulBEq α] {x : α} {seen : List α} (h : x ∈ seen)
    (xs : List α) : dedupRel seen (x :: xs) = dedupRel seen xs := by
  simp [dedupRel, h]

theorem dedupRel_cons_not_mem [BEq α] [LawfulBEq α] {x : α} {seen : List α} (h : x ∉ seen)
    (xs : List α) : dedupRel seen (x :: xs) = x :: dedupRel (x :: seen) xs := by
  simp [dedupRel, h]

theorem emitSpec_outs :
    ∀ (B T S : List String),
      emitSpec (T.map GlobMatch.outStr ++ S.map GlobMatch.fsPath) (B.map GlobMatch.outStr)
        = (dedupRel T B).map GlobMatch.outStr := by
  intro B
  induction B with
  | nil => intro T S; simp [emitSpec, dedupRel]
  | cons b bs ih =>
    intro T S
    by_cases hb : b ∈ T
    · rw [List.map_cons, emitSpec_cons_mem ((mem_out_append_iff T S b).mpr hb),
        dedupRel_cons_mem hb, ih]
    · rw [List.map_cons, emitSpec_cons_not_mem (fun hc => hb ((mem_out_append_iff T S b).mp hc)),
        dedupRel_cons_not_mem hb]
      have hrw : (GlobMatch.outStr b :: (T.map GlobMatch.outStr ++ S.map GlobMatch.fsPath))
          = ((b :: T).map GlobMatch.outStr ++ S.map GlobMatch.fsPath) := by simp
      rw [hrw, ih, List.map_cons]

theorem emitSpec_split :
    ∀ (A S B : List String),
      emitSpec (S.map GlobMatch.fsPath) (A.map GlobMatch.fsPath ++ B.map GlobMatch.outStr)
        = (dedupRel S A).map GlobMatch.fsPath ++ (dedupRel [] B).map GlobMatch.outStr := by
  intro A
  induction A with
  | nil =>
    intro S B
    have h := emitSpec_outs B [] S
    simpa using h
  | cons a as ih =>
    intro S B
    have hmem : GlobMatch.fsPath a ∈ S.map GlobMatch.fsPath ↔ a ∈ S := mem_fs_map_iff S a
    by_cases ha : a ∈ S
    · rw [List.map_cons, List.cons_append, emitSpec_cons_mem (hmem.mpr ha),
        dedupRel_cons_mem ha, ih]
    · rw [List.map_cons, List.cons_append, emitSpec_cons_not_mem (fun hc => ha (hmem.mp hc)),
        dedupRel_cons_not_mem ha]
      have hrw : (GlobMatch.fsPath a :: S.map GlobMatch.fsPath)
          = ((a :: S).map GlobMatch.fsPath) := by simp
      rw [hrw, ih, List.map_cons, List.cons_append]

/-- C6 (amended): for a single starred input pair, the yield is the
filesystem matches deduplicated *among themselves*, followed by the
declared-output matches deduplicated *among themselves*, each rewritten
relative to `base`; duplicates between the two lists are NOT suppressed
(a `Path` never equals a `str`, see the counterexample).  A wildcard-free
pair passes through unchanged. -/
theorem c6_glob_pair (fsGlob : String → String → List String) (outputs : List String)
    (base p : String) :
    Globber.glob fsGlob outputs [(base, p)] =
      if p.toList.contains '*' then
        (dedupF (fsGlob base p)).map (fun m => (base, relativeTo base m)) ++
        (dedupF (outputs.filter (fun o => fnmatchB o (pjoin base p)))).map
          (fun m => (base, relativeTo base m))
      else [(base, p)] := by
  by_cases hp : '*' ∈ p.toList
  · have hpb : p.toList.contains '*' = true := by simpa using hp
    simp only [Globber.glob, globber, hpb, Bool.not_true, Bool.false_eq_true, if_false, if_true]
    rw [globEmit_fst]
    have hcand : globCandidates fsGlob outputs base p
        = (fsGlob base p).map GlobMatch.fsPath ++
          (outputs.filter (fun o => fnmatchB o (pjoin base p))).map GlobMatch.outStr := rfl
    have hnilmap : ([] : List GlobMatch) = ([] : List String).map GlobMatch.fsPath := rfl
    rw [hcand, hnilmap, emitSpec_split, List.map_append, List.map_map, List.map_map,
      List.append_nil]
    rfl
  · have hd : '*' ∉ p.data := hp
    simp [Globber.glob, globber, hd]



theorem pick_some_path {d : DAG} {p : String} {n : Node} (h : d.pick p = some n) :
    n.path = p := by
  have := List.find?_some h
  simpa using this

theorem find?_map_path (g : Node → Node) (hg : ∀ n, (g n).path = n.path) (q : String) :
    ∀ ns : List Node,
      (ns.map g).find? (fun n => n.path == q) = (ns.find? (fun n => n.path == q)).map g := by
  intro ns
  induction ns with
  | nil => rfl
  | cons n ns ih =>
    cases hq : (n.path == q) with
    | true =>
      rw [List.map_cons, List.find?_cons_of_pos _ (by simpa [hg] using hq),
        show List.find? (fun n => n.path == q) (n :: ns) = some n from
          List.find?_cons_of_pos _ hq]
      rfl
    | false =>
      rw [List.map_cons, List.find?_cons_of_neg _ (by simpa [hg] using hq),
        show List.find? (fun n => n.path == q) (n :: ns) = List.find? (fun n => n.path == q) ns
          from List.find?_cons_of_neg _ (by simpa using hq), ih]

theorem pick_modify (f : Node → Node) (hf : ∀ n, (f n).path = n.path) (d : DAG)
    (p q : String) :
    (d.modify p f).pick q = (d.pick q).map (fun n => if n.path == p then f n else n) := by
  cases d with
  | mk ns =>
    exact find?_map_path _ (fun n => by by_cases h : n.path == p <;> simp [h, hf]) q ns

theorem hasProd_modify_pres (f : Node → Node) (hf : ∀ n, (f n).production = n.production)
    (hp : ∀ n, (f n).path = n.path) (d : DAG) (p q : String) :
    hasProd (d.modify p f) q = hasProd d q := by
  unfold hasProd
  rw [pick_modify f hp]
  cases d.pick q with
  | none => rfl
  | some n =>
    by_cases h : n.path = p <;> simp [h, hf]

theorem hasProd_addLinkRecord (d : DAG) (l : Link) (q : String) :
    hasProd (addLinkRecord d l) q = hasProd d q := by
  show hasProd ((d.modify l.src (fun n => { n with links := addLink l n.links })).modify
    l.dest (fun n => { n with rlinks := addLink l n.rlinks })) q = hasProd d q
  rw [hasProd_modify_pres (fun n => { n with rlinks := addLink l n.rlinks })
      (fun _ => rfl) (fun _ => rfl),
    hasProd_modify_pres (fun n => { n with links := addLink l n.links })
      (fun _ => rfl) (fun _ => rfl)]

theorem hasProd_addDlinkRecord (d : DAG) (l : Link) (q : String) :
    hasProd (addDlinkRecord d l) q = hasProd d q := by
  show hasProd ((d.modify l.src (fun n => { n with dlinks := addLink l n.dlinks })).modify
    l.dest (fun n => { n with drlinks := addLink l n.drlinks })) q = hasProd d q
  rw [hasProd_modify_pres (fun n => { n with drlinks := addLink l n.drlinks })
      (fun _ => rfl) (fun _ => rfl),
    hasProd_modify_pres (fun n => { n with dlinks := addLink l n.dlinks })
      (fun _ => rfl) (fun _ => rfl)]

theorem get_of_pick_some {d : DAG} {n m : Node} (h : d.pick n.path = some m) :
    d.get n = (d, m) := by
  simp [DAG.get, h]

theorem get_of_pick_none {d : DAG} {n : Node} (h : d.pick n.path = none) :
    d.get n = ({ nodes := d.nodes ++ [n] }, n) := by
  simp [DAG.get, h]

theorem pick_append (ns : List Node) (m : Node) (q : String) :
    (({ nodes := ns ++ [m] } : DAG)).pick q =
      match (({ nodes := ns } : DAG)).pick q with
      | some n => some n
      | none => if m.path == q then some m else none := by
  show (ns ++ [m]).find? _ = _
  induction ns with
  | nil =>
    show [m].find? _ = _
    by_cases h : m.path == q <;> simp [List.find?, h, DAG.pick]
  | cons n ns ih =>
    cases hq : (n.path == q) with
    | true =>
      rw [List.cons_append,
        show List.find? (fun nn => nn.path == q) (n :: (ns ++ [m])) = some n from
          List.find?_cons_of_pos _ hq,
        show (({ nodes := n :: ns } : DAG)).pick q = some n from
          List.find?_cons_of_pos _ hq]
    | false =>
      rw [List.cons_append,
        show List.find? (fun nn => nn.path == q) (n :: (ns ++ [m]))
            = List.find? (fun nn => nn.path == q) (ns ++ [m]) from
          List.find?_cons_of_neg _ (by simpa using hq)]
      rw [ih]
      rw [show (({ nodes := n :: ns } : DAG)).pick q = ({ nodes := ns } : DAG).pick q from
        List.find?_cons_of_neg _ (by simpa using hq)]

theorem hasProd_get_newNode (d : DAG) (x q : String) :
    hasProd ((d.get (newNode x)).1) q = hasProd d q := by
  cases h : d.pick x with
  | some m =>
    rw [show d.get (newNode x) = (d, m) from get_of_pick_some h]
  | none =>
    rw [show d.get (newNode x) = ({ nodes := d.nodes ++ [newNode x] }, newNode x) from
      get_of_pick_none h]
    show hasProd _ q = hasProd d q
    unfold hasProd
    rw [show ({ nodes := d.nodes ++ [newNode x] } : DAG).pick q = _ from
      pick_append d.nodes (newNode x) q]
    cases hp : d.pick q with
    | some n => rfl
    | none => by_cases hx : x = q <;> simp [hx, newNode]

theorem sourcesFold_ok (cmd : Cmd) (dest : String) :
    ∀ (pairs : List (String × String)) (dag : DAG),
      (∀ bs ∈ pairs, (pjoin bs.1 bs.2 == dest) = false) →
      ∃ dag', sourcesFold cmd dest pairs dag = .ok dag' ∧
        ∀ q, hasProd dag' q = hasProd dag q := by
  intro pairs
  induction pairs with
  | nil => intro dag _; exact ⟨dag, rfl, fun _ => rfl⟩
  | cons bs rest ih =>
    intro dag h
    have hb := h bs (List.mem_cons_self bs rest)
    obtain ⟨dag', hok, hpres⟩ := ih (addLinkRecord ((dag.get (newNode (pjoin bs.1 bs.2))).1)
      { cmd_name := cmd.name, cmd_hash := cmd.hash, src := pjoin bs.1 bs.2, dest := dest })
      (fun b hbm => h b (List.mem_cons_of_mem bs hbm))
    refine ⟨dag', ?_, ?_⟩
    · show (match mkLink cmd (pjoin bs.1 bs.2) dest with
        | Except.error e => Except.error e
        | Except.ok l => sourcesFold cmd dest rest
            (addLinkRecord ((dag.get (newNode (pjoin bs.1 bs.2))).1) l)) = Except.ok dag'
      rw [show mkLink cmd (pjoin bs.1 bs.2) dest = .ok
          { cmd_name := cmd.name, cmd_hash := cmd.hash, src := pjoin bs.1 bs.2, dest := dest }
        from by simp [mkLink, hb]]
      exact hok
    · intro q
      rw [hpres q, hasProd_addLinkRecord, hasProd_get_newNode]

theorem inputsFold_ok (cmd : Cmd) (dest : String) :
    ∀ (pairs : List (String × String)) (dag : DAG),
      (∀ bs ∈ pairs, (pjoin bs.1 bs.2 == dest) = false) →
      ∃ dag', inputsFold cmd dest pairs dag = .ok dag' ∧
        ∀ q, hasProd dag' q = hasProd dag q := by
  intro pairs
  induction pairs with
  | nil => intro dag _; exact ⟨dag, rfl, fun _ => rfl⟩
  | cons bs rest ih =>
    intro dag h
    have hb := h bs (List.mem_cons_self bs rest)
    obtain ⟨dag', hok, hpres⟩ := ih
      (addDlinkRecord (addLinkRecord ((dag.get (newNode (pjoin bs.1 bs.2))).1)
        { cmd_name := cmd.name, cmd_hash := cmd.hash, src := pjoin bs.1 bs.2, dest := dest })
        { cmd_name := cmd.name, cmd_hash := cmd.hash, src := pjoin bs.1 bs.2, dest := dest })
      (fun b hbm => h b (List.mem_cons_of_mem bs hbm))
    refine ⟨dag', ?_, ?_⟩
    · show (match mkLink cmd (pjoin bs.1 bs.2) dest with
        | Except.error e => Except.error e
        | Except.ok l => inputsFold cmd dest rest
            (addDlinkRecord (addLinkRecord ((dag.get (newNode (pjoin bs.1 bs.2))).1) l) l)) = Except.ok dag'
      rw [show mkLink cmd (pjoin bs.1 bs.2) dest = .ok
          { cmd_name := cmd.name, cmd_hash := cmd.hash, src := pjoin bs.1 bs.2, dest := dest }
        from by simp [mkLink, hb]]
      exact hok
    · intro q
      rw [hpres q, hasProd_addDlinkRecord, hasProd_addLinkRecord, hasProd_get_newNode]

theorem buildStep_dup {dag : DAG} {i : Nat} {d : Desc} (h : hasProd dag d.dest = true) :
    buildStep dag i d = .error .duplicate := by
  unfold hasProd at h
  cases hp : dag.pick d.dest with
  | none => rw [hp] at h; cases h
  | some m =>
    rw [hp] at h
    have h' : m.production.isSome = true := by simpa using h
    unfold buildStep
    rw [show dag.get (newNode d.dest) = (dag, m) from get_of_pick_some hp]
    simp [h']



theorem hasProd_set_prod {d : DAG} {p : String} (c : Cmd) (hpick : (d.pick p).isSome = true) :
    ∀ q, hasProd (d.modify p (fun n => { n with production := some c })) q = true ↔
      (q = p ∨ hasProd d q = true) := by
  intro q
  unfold hasProd
  rw [pick_modify (fun n => { n with production := some c }) (fun _ => rfl)]
  cases hq : d.pick q with
  | none =>
    simp only [Option.map_none']
    constructor
    · intro hh; cases hh
    · rintro (rfl | hh)
      · rw [hq] at hpick; cases hpick
      · cases hh
  | some n =>
    have hnp : n.path = q := pick_some_path hq
    by_cases hqp : q = p
    · subst hqp
      simp [hnp]
    · have hne : ¬ n.path = p := by rw [hnp]; exact hqp
      simp [hne, hqp]

theorem selfLoop_split {d : Desc} (h : d.selfLoop = false) :
    (∀ bs ∈ d.sources, (pjoin bs.1 bs.2 == d.dest) = false) ∧
    (∀ bs ∈ d.inputs, (pjoin bs.1 bs.2 == d.dest) = false) := by
  unfold Desc.selfLoop at h
  rw [List.any_eq_false] at h
  constructor
  · intro bs hbs
    have := h bs (List.mem_append.mpr (.inl hbs))
    simpa using this
  · intro bs hbs
    have := h bs (List.mem_append.mpr (.inr hbs))
    simpa using this

theorem buildStep_ok {dag : DAG} {i : Nat} {d : Desc}
    (hprod : hasProd dag d.dest = false) (hloop : d.selfLoop = false) :
    ∃ dag', buildStep dag i d = .ok dag' ∧
      ∀ q, hasProd dag' q = true ↔ (q = d.dest ∨ hasProd dag q = true) := by
  obtain ⟨hsrc, hinp⟩ := selfLoop_split hloop
  -- the interned destination node and the dag holding it
  have hgot : ∃ dag0 m, dag.get (newNode d.dest) = (dag0, m) ∧ m.production.isSome = false ∧
      (dag0.pick d.dest).isSome = true ∧ (∀ q, hasProd dag0 q = hasProd dag q) := by
    cases hp : dag.pick d.dest with
    | some m =>
      refine ⟨dag, m, get_of_pick_some hp, ?_, by simp [hp], fun q => rfl⟩
      unfold hasProd at hprod
      rw [hp] at hprod
      simpa using hprod
    | none =>
      refine ⟨{ nodes := dag.nodes ++ [newNode d.dest] }, newNode d.dest,
        get_of_pick_none hp, rfl, ?_, ?_⟩
      · rw [show ({ nodes := dag.nodes ++ [newNode d.dest] } : DAG).pick d.dest = _ from
          pick_append dag.nodes (newNode d.dest) d.dest]
        rw [hp]
        simp [newNode]
      · intro q
        have := hasProd_get_newNode dag d.dest q
        rw [show (dag.get (newNode d.dest)).1 = { nodes := dag.nodes ++ [newNode d.dest] } from
          by rw [get_of_pick_none hp]] at this
        exact this
  obtain ⟨dag0, m, hget, hm, hpick0, hpres0⟩ := hgot
  set dag1 := dag0.modify d.dest (fun n => { n with production := some d.cmd }) with hdag1
  have hchar1 : ∀ q, hasProd dag1 q = true ↔ (q = d.dest ∨ hasProd dag q = true) := by
    intro q
    rw [hdag1]
    rw [hasProd_set_prod d.cmd hpick0]
    constructor
    · rintro (rfl | hh)
      · exact .inl rfl
      · exact .inr (by rw [← hpres0 q]; exact hh)
    · rintro (rfl | hh)
      · exact .inl rfl
      · exact .inr (by rw [hpres0 q]; exact hh)
  obtain ⟨dag2, hs2, hpres2⟩ := sourcesFold_ok d.cmd d.dest d.sources dag1 hsrc
  obtain ⟨dag3, hs3, hpres3⟩ := inputsFold_ok d.cmd d.dest d.inputs dag2 hinp
  refine ⟨dag3.modify d.dest (fun n => { n with index := i }), ?_, ?_⟩
  · unfold buildStep
    rw [hget]
    simp only [hm, Bool.false_eq_true, if_false, hs2, hs3]
  · intro q
    rw [hasProd_modify_pres (fun n => { n with index := i }) (fun _ => rfl) (fun _ => rfl),
      hpres3, hpres2]
    exact hchar1 q

theorem buildDag_ok :
    ∀ (descs : List Desc) (dag : DAG) (i : Nat),
      anySelfLoop descs = false →
      (∀ de ∈ descs, hasProd dag de.dest = false) →
      hasDupB (descs.map Desc.dest) = false →
      ∃ dag', buildDag descs dag i = .ok dag' := by
  intro descs
  induction descs with
  | nil => intro dag i _ _ _; exact ⟨dag, rfl⟩
  | cons d ds ih =>
    intro dag i hloops hfresh hdup
    have hloop : d.selfLoop = false := by
      have := hloops
      unfold anySelfLoop at this
      rw [List.any_eq_false] at this
      simpa using this d (List.mem_cons_self d ds)
    have hloops' : anySelfLoop ds = false := by
      unfold anySelfLoop at hloops ⊢
      rw [List.any_eq_false] at hloops ⊢
      intro x hx
      exact hloops x (List.mem_cons_of_mem d hx)
    have hcontains : (ds.map Desc.dest).contains d.dest = false := by
      have : hasDupB ((d :: ds).map Desc.dest) = false := hdup
      rw [List.map_cons] at this
      unfold hasDupB at this
      exact (Bool.or_eq_false_iff.mp this).1
    have hdup' : hasDupB (ds.map Desc.dest) = false := by
      have : hasDupB ((d :: ds).map Desc.dest) = false := hdup
      rw [List.map_cons] at this
      unfold hasDupB at this
      exact (Bool.or_eq_false_iff.mp this).2
    obtain ⟨dag1, hbs, hchar⟩ := buildStep_ok (hfresh d (List.mem_cons_self d ds)) hloop
    have hfresh' : ∀ de ∈ ds, hasProd dag1 de.dest = false := by
      intro de hde
      have hne : de.dest ≠ d.dest := by
        intro heq
        have hmem : d.dest ∈ ds.map Desc.dest := by
          rw [← heq]
          exact List.mem_map_of_mem Desc.dest hde
        have : (ds.map Desc.dest).contains d.dest = true := by
          exact List.elem_eq_true_of_mem hmem
        rw [this] at hcontains
        cases hcontains
      have hold : hasProd dag de.dest = false := hfresh de (List.mem_cons_of_mem d hde)
      cases hv : hasProd dag1 de.dest with
      | false => rfl
      | true =>
        rcases (hchar de.dest).mp hv with heq | hh
        · exact absurd heq hne
        · rw [hold] at hh; cases hh
    obtain ⟨dag', hres⟩ := ih dag1 (i + 1) hloops' hfresh' hdup'
    refine ⟨dag', ?_⟩
    unfold buildDag
    rw [hbs]
    exact hres

theorem buildDag_dup :
    ∀ (descs : List Desc) (dag : DAG) (i : Nat),
      anySelfLoop descs = false →
      (hasDupB (descs.map Desc.dest) = true ∨ ∃ de ∈ descs, hasProd dag de.dest = true) →
      buildDag descs dag i = .error .duplicate := by
  intro descs
  induction descs with
  | nil =>
    intro dag i _ hcond
    rcases hcond with h | ⟨de, hde, _⟩
    · cases h
    · cases hde
  | cons d ds ih =>
    intro dag i hloops hcond
    have hloop : d.selfLoop = false := by
      unfold anySelfLoop at hloops
      rw [List.any_eq_false] at hloops
      simpa using hloops d (List.mem_cons_self d ds)
    have hloops' : anySelfLoop ds = false := by
      unfold anySelfLoop at hloops ⊢
      rw [List.any_eq_false] at hloops ⊢
      intro x hx
      exact hloops x (List.mem_cons_of_mem d hx)
    cases hp : hasProd dag d.dest with
    | true =>
      unfold buildDag
      rw [buildStep_dup hp]
    | false =>
      obtain ⟨dag1, hbs, hchar⟩ := buildStep_ok hp hloop
      have hcond' : hasDupB (ds.map Desc.dest) = true ∨ ∃ de ∈ ds, hasProd dag1 de.dest = true := by
        rcases hcond with hdup | ⟨de, hde, hprod⟩
        · rw [List.map_cons] at hdup
          unfold hasDupB at hdup
          rcases Bool.or_eq_true_iff.mp hdup with hc | hd
          · have hmem : d.dest ∈ ds.map Desc.dest := List.mem_of_elem_eq_true hc
            obtain ⟨de, hde, heq⟩ := List.mem_map.mp hmem
            exact .inr ⟨de, hde, (hchar de.dest).mpr (.inl heq)⟩
          · exact .inl hd
        · rcases List.mem_cons.mp hde with rfl | hde'
          · rw [hprod] at hp; cases hp
          · refine .inr ⟨de, hde', ?_⟩
            exact (hchar de.dest).mpr (.inr hprod) |> fun h => h
      have := ih dag1 (i + 1) hloops' hcond'
      unfold buildDag
      rw [hbs]
      exact this



/-- C8 (amended): in the absence of self-loops among the resolved
descriptors, `to_dag` fails with the DuplicateOutput `RuntimeError` iff
some resolved output path occurs twice; in particular rule sets with
pairwise-distinct resolved output paths are never rejected on this
ground (each node acquires at most one production).  A self-loop raised
earlier in descriptor order preempts the duplicate error (see the
counterexample). -/
theorem c8_duplicate_iff (fsGlob : String → String → List String) (rules : List Rule)
    (h : anySelfLoop (resolve fsGlob rules) = false) :
    (to_dag fsGlob rules = .error .duplicate ↔
      hasDupB ((resolve fsGlob rules).map Desc.dest) = true) := by
  constructor
  · intro hd
    by_cases hdup : hasDupB ((resolve fsGlob rules).map Desc.dest) = true
    · exact hdup
    · exfalso
      have hdup2 : hasDupB ((resolve fsGlob rules).map Desc.dest) = false :=
        Bool.eq_false_iff.mpr hdup
      obtain ⟨dag2, hok⟩ := buildDag_ok (resolve fsGlob rules) {} 0 h (fun de _ => rfl) hdup2
      unfold to_dag at hd
      rw [hok] at hd
      simp only [] at hd
      by_cases hc : dag2.hasCycles = true
      · rw [if_pos hc] at hd
        cases hd
      · rw [if_neg hc] at hd
        cases hd
  · intro hdup
    have hbd := buildDag_dup (resolve fsGlob rules) {} 0 h (.inl hdup)
    unfold to_dag
    rw [hbd]

/-- Witness for `c8_duplicate_iff`: Scenario C (`test_dag_no_overwrite`). -/
theorem c8_duplicate_iff_witness :
    anySelfLoop (resolve noFsGlob [
      { cmd := catCmd "output", inputs := [("", "a")] },
      { cmd := catCmd "output", inputs := [("", "b")] }]) = false ∧
    (to_dag noFsGlob [
      { cmd := catCmd "output", inputs := [("", "a")] },
      { cmd := catCmd "output", inputs := [("", "b")] }] = .error .duplicate ↔
     hasDupB ((resolve noFsGlob [
      { cmd := catCmd "output", inputs := [("", "a")] },
      { cmd := catCmd "output", inputs := [("", "b")] }]).map Desc.dest) = true) :=
  ⟨by decide, c8_duplicate_iff noFsGlob _ (by decide)⟩




theorem node_path (d : DAG) (p : String) : (d.node p).path = p := by
  unfold DAG.node
  cases h : d.pick p with
  | some n => simpa using pick_some_path h
  | none => rfl

theorem visitFold_spec
    (v : List String → String → List (String × Node) × List String)
    (hv : ∀ p seen,
      (((v seen p).1.map (fun e => e.2.path)).Nodup ∧
       (∀ q ∈ (v seen p).1.map (fun e => e.2.path), q ∉ seen ∧ q ∈ (v seen p).2)) ∧
      (∀ x ∈ seen, x ∈ (v seen p).2)) :
    ∀ (cs : List String) (seen : List String),
      (((visitFold v cs seen).1.map (fun e => e.2.path)).Nodup ∧
       (∀ q ∈ (visitFold v cs seen).1.map (fun e => e.2.path),
         q ∉ seen ∧ q ∈ (visitFold v cs seen).2)) ∧
      (∀ x ∈ seen, x ∈ (visitFold v cs seen).2) := by
  intro cs
  induction cs with
  | nil =>
    intro seen
    exact ⟨⟨List.nodup_nil, by intro q hq; cases hq⟩, fun x hx => hx⟩
  | cons c cs ih =>
    intro seen
    obtain ⟨⟨hn1, hq1⟩, hm1⟩ := hv c seen
    obtain ⟨⟨hn2, hq2⟩, hm2⟩ := ih ((v seen c).2)
    have hout : visitFold v (c :: cs) seen =
        ((v seen c).1 ++ (visitFold v cs ((v seen c).2)).1,
         (visitFold v cs ((v seen c).2)).2) := by
      show (let (o1, seen1) := v seen c
            let (o2, seen2) := visitFold v cs seen1
            (o1 ++ o2, seen2)) = _
      rfl
    rw [hout]
    simp only [List.map_append]
    refine ⟨⟨?_, ?_⟩, ?_⟩
    · rw [List.nodup_append]
      refine ⟨hn1, hn2, ?_⟩
      intro a ha hb
      exact (hq2 a hb).1 ((hq1 a ha).2)
    · intro q hq
      rcases List.mem_append.mp hq with hq | hq
      · exact ⟨(hq1 q hq).1, hm2 _ ((hq1 q hq).2)⟩
      · exact ⟨fun hc => (hq2 q hq).1 (hm1 q hc), (hq2 q hq).2⟩
    · intro x hx
      exact hm2 x (hm1 x hx)

theorem visitV_spec (cdag : DAG) :
    ∀ (fuel : Nat) (p : String) (seen : List String),
      (((visitV cdag fuel seen p).1.map (fun e => e.2.path)).Nodup ∧
       (∀ q ∈ (visitV cdag fuel seen p).1.map (fun e => e.2.path),
         q ∉ seen ∧ q ∈ (visitV cdag fuel seen p).2)) ∧
      (∀ x ∈ seen, x ∈ (visitV cdag fuel seen p).2) := by
  intro fuel
  induction fuel with
  | zero =>
    intro p seen
    exact ⟨⟨List.nodup_nil, by intro q hq; cases hq⟩, fun x hx => hx⟩
  | succ fuel ih =>
    intro p seen
    have hfold := visitFold_spec (visitV cdag fuel) (fun p seen => ih p seen)
      (sortBy strLe ((cdag.node p).links.map Link.dest)) (p :: seen)
    obtain ⟨⟨hn2, hq2⟩, hm2⟩ := hfold
    by_cases hp : p ∈ seen
    · have hout : visitV cdag (fuel + 1) seen p =
          ((visitFold (visitV cdag fuel) (sortBy strLe ((cdag.node p).links.map Link.dest))
            (p :: seen)).1,
           (visitFold (visitV cdag fuel) (sortBy strLe ((cdag.node p).links.map Link.dest))
            (p :: seen)).2) := by
        show (let n := cdag.node p
              let out0 : List (String × Node) := if seen.contains p then [] else [("w", n)]
              let seen := p :: seen
              let children := sortBy strLe (n.links.map Link.dest)
              let (out1, seen') := visitFold (visitV cdag fuel) children seen
              (out0 ++ out1, seen')) = _
        simp [hp]
      rw [hout]
      refine ⟨⟨hn2, ?_⟩, ?_⟩
      · intro q hq
        refine ⟨fun hc => (hq2 q hq).1 (List.mem_cons_of_mem p hc), (hq2 q hq).2⟩
      · intro x hx
        exact hm2 x (List.mem_cons_of_mem p hx)
    · have hout : visitV cdag (fuel + 1) seen p =
          (("w", cdag.node p) ::
            (visitFold (visitV cdag fuel) (sortBy strLe ((cdag.node p).links.map Link.dest))
              (p :: seen)).1,
           (visitFold (visitV cdag fuel) (sortBy strLe ((cdag.node p).links.map Link.dest))
            (p :: seen)).2) := by
        show (let n := cdag.node p
              let out0 : List (String × Node) := if seen.contains p then [] else [("w", n)]
              let seen := p :: seen
              let children := sortBy strLe (n.links.map Link.dest)
              let (out1, seen') := visitFold (visitV cdag fuel) children seen
              (out0 ++ out1, seen')) = _
        simp [hp]
      rw [hout]
      refine ⟨⟨?_, ?_⟩, ?_⟩
      · rw [List.map_cons, List.nodup_cons]
        refine ⟨?_, hn2⟩
        intro hc
        rw [node_path] at hc
        exact (hq2 p hc).1 (List.mem_cons_self p seen)
      · intro q hq
        rw [List.map_cons, node_path] at hq
        rcases List.mem_cons.mp hq with rfl | hq
        · exact ⟨hp, hm2 q (List.mem_cons_self q seen)⟩
        · exact ⟨fun hc => (hq2 q hq).1 (List.mem_cons_of_mem p hc), (hq2 q hq).2⟩
      · intro x hx
        exact hm2 x (List.mem_cons_of_mem p hx)



theorem spec_append_step
    {o1 : List (String × Node)} {seen0 seen1 : List String}
    {o2 : List (String × Node)} {seen2 : List String}
    (h1n : (o1.map (fun e => e.2.path)).Nodup)
    (h1q : ∀ q ∈ o1.map (fun e => e.2.path), q ∉ seen0 ∧ q ∈ seen1)
    (h1m : ∀ x ∈ seen0, x ∈ seen1)
    (h2n : (o2.map (fun e => e.2.path)).Nodup)
    (h2q : ∀ q ∈ o2.map (fun e => e.2.path), q ∉ seen1 ∧ q ∈ seen2)
    (h2m : ∀ x ∈ seen1, x ∈ seen2) :
    (((o1 ++ o2).map (fun e => e.2.path)).Nodup ∧
     (∀ q ∈ (o1 ++ o2).map (fun e => e.2.path), q ∉ seen0 ∧ q ∈ seen2)) ∧
    (∀ x ∈ seen0, x ∈ seen2) := by
  refine ⟨⟨?_, ?_⟩, fun x hx => h2m x (h1m x hx)⟩
  · rw [List.map_append, List.nodup_append]
    refine ⟨h1n, h2n, ?_⟩
    intro a ha hb
    exact (h2q a hb).1 ((h1q a ha).2)
  · intro q hq
    rw [List.map_append] at hq
    rcases List.mem_append.mp hq with hq | hq
    · exact ⟨(h1q q hq).1, h2m _ ((h1q q hq).2)⟩
    · exact ⟨fun hc => (h2q q hq).1 (h1m q hc), (h2q q hq).2⟩

theorem searchKids_spec
    (visit : List String → String → List (String × Node) × List String)
    (srch : String → AState → Except ApplyErr (List (String × Node) × AState))
    (cdag pdag : DAG) (oracle : String → Int) (p : String)
    (hv : ∀ p seen,
      (((visit seen p).1.map (fun e => e.2.path)).Nodup ∧
       (∀ q ∈ (visit seen p).1.map (fun e => e.2.path), q ∉ seen ∧ q ∈ (visit seen p).2)) ∧
      (∀ x ∈ seen, x ∈ (visit seen p).2))
    (hs : ∀ p st o st', srch p st = .ok (o, st') →
      ((o.map (fun e => e.2.path)).Nodup ∧
       (∀ q ∈ o.map (fun e => e.2.path), q ∉ st.seen ∧ q ∈ st'.seen)) ∧
      (∀ x ∈ st.seen, x ∈ st'.seen)) :
    ∀ (cs : List String) (st : AState) (o : List (String × Node)) (st' : AState),
      searchKids visit srch cdag pdag oracle p cs st = .ok (o, st') →
      ((o.map (fun e => e.2.path)).Nodup ∧
       (∀ q ∈ o.map (fun e => e.2.path), q ∉ st.seen ∧ q ∈ st'.seen)) ∧
      (∀ x ∈ st.seen, x ∈ st'.seen) := by
  intro cs
  induction cs with
  | nil =>
    intro st o st' h
    unfold searchKids at h
    injection h with h
    injection h with h1 h2
    subst h1; subst h2
    exact ⟨⟨List.nodup_nil, by intro q hq; cases hq⟩, fun x hx => hx⟩
  | cons dest rest ih =>
    intro st o st' h
    unfold searchKids at h
    cases hpk : pdag.pick dest with
    | some pn =>
      rw [hpk] at h
      simp only [] at h
      by_cases h1 : st.seen.contains pn.path = true
      · rw [if_pos h1] at h
        exact ih st o st' h
      · rw [if_neg h1] at h
        by_cases h2 : (!(linkSetEq (cdag.node dest).links pn.links) ||
            !(linkSetEq (cdag.node dest).rlinks pn.rlinks)) = true
        · rw [if_pos h2] at h
          cases hrec : searchKids visit srch cdag pdag oracle p rest
              { st with seen := (visit st.seen dest).2 } with
          | error e => rw [hrec] at h; cases h
          | ok r =>
            rw [hrec] at h
            injection h with h
            injection h with ho hst
            subst ho; subst hst
            obtain ⟨⟨h1n, h1q⟩, h1m⟩ := hv dest st.seen
            obtain ⟨⟨h2n, h2q⟩, h2m⟩ := ih { st with seen := (visit st.seen dest).2 } r.1 r.2
              (by rw [hrec])
            exact spec_append_step h1n h1q h1m h2n h2q h2m
        · rw [if_neg h2] at h
          by_cases h3 : ((getmtime oracle st.mt p).1 < 0 : Prop)
          · rw [if_pos (by simpa using h3)] at h
            cases h
          · rw [if_neg (by simpa using h3)] at h
            by_cases h4 : (((getmtime oracle (getmtime oracle st.mt p).2 dest).1 < 0 : Bool) ||
                ((getmtime oracle st.mt p).1 >
                  (getmtime oracle (getmtime oracle st.mt p).2 dest).1 : Bool)) = true
            · rw [if_pos h4] at h
              cases hrec : searchKids visit srch cdag pdag oracle p rest
                  { mt := (dest, (getmtime oracle st.mt p).1) ::
                      (getmtime oracle (getmtime oracle st.mt p).2 dest).2,
                    seen := (visit st.seen dest).2 } with
              | error e => rw [hrec] at h; cases h
              | ok r =>
                rw [hrec] at h
                injection h with h
                injection h with ho hst
                subst ho; subst hst
                obtain ⟨⟨h1n, h1q⟩, h1m⟩ := hv dest st.seen
                obtain ⟨⟨h2n, h2q⟩, h2m⟩ := ih _ r.1 r.2 (by rw [hrec])
                exact spec_append_step h1n h1q h1m h2n h2q h2m
            · rw [if_neg h4] at h
              cases hsr : srch dest { st with
                  mt := (getmtime oracle (getmtime oracle st.mt p).2 dest).2 } with
              | error e => rw [hsr] at h; cases h
              | ok r =>
                rw [hsr] at h
                simp only [] at h
                cases hrec : searchKids visit srch cdag pdag oracle p rest r.2 with
                | error e => rw [hrec] at h; cases h
                | ok r2 =>
                  rw [hrec] at h
                  injection h with h
                  injection h with ho hst
                  subst ho; subst hst
                  obtain ⟨⟨h1n, h1q⟩, h1m⟩ := hs dest _ r.1 r.2 (by rw [hsr])
                  obtain ⟨⟨h2n, h2q⟩, h2m⟩ := ih r.2 r2.1 r2.2 (by rw [hrec])
                  exact spec_append_step h1n h1q h1m h2n h2q h2m
    | none =>
      rw [hpk] at h
      simp only [] at h
      cases hrec : searchKids visit srch cdag pdag oracle p rest
          { st with seen := (visit st.seen dest).2 } with
      | error e => rw [hrec] at h; cases h
      | ok r =>
        rw [hrec] at h
        injection h with h
        injection h with ho hst
        subst ho; subst hst
        obtain ⟨⟨h1n, h1q⟩, h1m⟩ := hv dest st.seen
        obtain ⟨⟨h2n, h2q⟩, h2m⟩ := ih _ r.1 r.2 (by rw [hrec])
        exact spec_append_step h1n h1q h1m h2n h2q h2m



theorem searchS_spec (cdag pdag : DAG) (oracle : String → Int) :
    ∀ (fuel : Nat) (p : String) (st : AState) (o : List (String × Node)) (st' : AState),
      searchS cdag pdag oracle fuel p st = .ok (o, st') →
      ((o.map (fun e => e.2.path)).Nodup ∧
       (∀ q ∈ o.map (fun e => e.2.path), q ∉ st.seen ∧ q ∈ st'.seen)) ∧
      (∀ x ∈ st.seen, x ∈ st'.seen) := by
  intro fuel
  induction fuel with
  | zero =>
    intro p st o st' h
    unfold searchS at h
    injection h with h
    injection h with h1 h2
    subst h1; subst h2
    exact ⟨⟨List.nodup_nil, by intro q hq; cases hq⟩, fun x hx => hx⟩
  | succ fuel ih =>
    intro p st o st' h
    unfold searchS at h
    exact searchKids_spec (visitV cdag fuel) (searchS cdag pdag oracle fuel) cdag pdag oracle p
      (fun p seen => visitV_spec cdag fuel p seen)
      (fun p st o st' hh => ih p st o st' hh) _ st o st' h

theorem searchSources_spec (cdag pdag : DAG) (oracle : String → Int) (fuel : Nat) :
    ∀ (ns : List Node) (st : AState) (out : List (String × Node)),
      searchSources cdag pdag oracle fuel ns st = .ok out →
      (out.map (fun e => e.2.path)).Nodup ∧
      (∀ q ∈ out.map (fun e => e.2.path), q ∉ st.seen) := by
  intro ns
  induction ns with
  | nil =>
    intro st out h
    unfold searchSources at h
    injection h with h
    subst h
    exact ⟨List.nodup_nil, by intro q hq; cases hq⟩
  | cons n ns ih =>
    intro st out h
    unfold searchSources at h
    cases hsr : searchS cdag pdag oracle fuel n.path st with
    | error e => rw [hsr] at h; cases h
    | ok r =>
      rw [hsr] at h
      simp only [] at h
      cases hrec : searchSources cdag pdag oracle fuel ns r.2 with
      | error e => rw [hrec] at h; cases h
      | ok rest =>
        rw [hrec] at h
        injection h with h
        subst h
        obtain ⟨⟨h1n, h1q⟩, h1m⟩ := searchS_spec cdag pdag oracle fuel n.path st r.1 r.2
          (by rw [hsr])
        obtain ⟨h2n, h2q⟩ := ih r.2 rest (by rw [hrec])
        constructor
        · rw [List.map_append, List.nodup_append]
          refine ⟨h1n, h2n, ?_⟩
          intro a ha hb
          exact h2q a hb ((h1q a ha).2)
        · intro q hq
          rw [List.map_append] at hq
          rcases List.mem_append.mp hq with hq | hq
          · exact (h1q q hq).1
          · exact fun hc => h2q q hq (h1m q hc)

theorem mem_paths_pick_isSome {d : DAG} {p : String}
    (h : p ∈ d.nodes.map Node.path) : (d.pick p).isSome = true := by
  obtain ⟨n, hn, hp⟩ := List.mem_map.mp h
  show (d.nodes.find? (fun n => n.path == p)).isSome = true
  rw [List.find?_isSome]
  exact ⟨n, hn, by simp [hp]⟩

theorem pick_none_not_mem {d : DAG} {p : String} (h : d.pick p = none) :
    p ∉ d.nodes.map Node.path := by
  intro hm
  have := mem_paths_pick_isSome hm
  rw [h] at this
  cases this

theorem pick_mem_nodes {d : DAG} {p : String} {n : Node} (h : d.pick p = some n) :
    n ∈ d.nodes :=
  List.mem_of_find?_eq_some h

theorem node_links_closed {cdag : DAG}
    (hcl : ∀ n ∈ cdag.nodes, ∀ l ∈ n.links, l.dest ∈ cdag.nodes.map Node.path)
    {p : String} (hp : p ∈ cdag.nodes.map Node.path) :
    ∀ l ∈ (cdag.node p).links, l.dest ∈ cdag.nodes.map Node.path := by
  intro l hl
  cases hpick : cdag.pick p with
  | none => exact absurd hp (pick_none_not_mem hpick)
  | some m =>
    have hm : m ∈ cdag.nodes := pick_mem_nodes hpick
    have : (cdag.node p) = m := by unfold DAG.node; rw [hpick]; rfl
    rw [this] at hl
    exact hcl m hm l hl

theorem mem_sortBy {le : α → α → Bool} {l : List α} {a : α} :
    a ∈ sortBy le l ↔ a ∈ l :=
  (sortBy_perm le l).mem_iff

theorem visitFold_mem {cdag : DAG}
    (v : List String → String → List (String × Node) × List String)
    (hvm : ∀ p seen, p ∈ cdag.nodes.map Node.path →
      ∀ e ∈ (v seen p).1, e.2.path ∈ cdag.nodes.map Node.path) :
    ∀ (cs : List String) (seen : List String),
      (∀ c ∈ cs, c ∈ cdag.nodes.map Node.path) →
      ∀ e ∈ (visitFold v cs seen).1, e.2.path ∈ cdag.nodes.map Node.path := by
  intro cs
  induction cs with
  | nil => intro seen _ e he; cases he
  | cons c cs ih =>
    intro seen hcs e he
    have hout : visitFold v (c :: cs) seen =
        ((v seen c).1 ++ (visitFold v cs ((v seen c).2)).1,
         (visitFold v cs ((v seen c).2)).2) := rfl
    rw [hout] at he
    rcases List.mem_append.mp he with he | he
    · exact hvm c seen (hcs c (List.mem_cons_self c cs)) e he
    · exact ih ((v seen c).2) (fun x hx => hcs x (List.mem_cons_of_mem c hx)) e he

theorem visitV_mem {cdag : DAG}
    (hcl : ∀ n ∈ cdag.nodes, ∀ l ∈ n.links, l.dest ∈ cdag.nodes.map Node.path) :
    ∀ (fuel : Nat) (p : String) (seen : List String),
      p ∈ cdag.nodes.map Node.path →
      ∀ e ∈ (visitV cdag fuel seen p).1, e.2.path ∈ cdag.nodes.map Node.path := by
  intro fuel
  induction fuel with
  | zero => intro p seen _ e he; cases he
  | succ fuel ih =>
    intro p seen hp e he
    have hkids : ∀ c ∈ sortBy strLe ((cdag.node p).links.map Link.dest),
        c ∈ cdag.nodes.map Node.path := by
      intro c hc
      obtain ⟨l, hl, hld⟩ := List.mem_map.mp (mem_sortBy.mp hc)
      exact hld ▸ node_links_closed hcl hp l hl
    by_cases hps : p ∈ seen
    · have hout : (visitV cdag (fuel + 1) seen p).1 =
          (visitFold (visitV cdag fuel)
            (sortBy strLe ((cdag.node p).links.map Link.dest)) (p :: seen)).1 := by
        show ((let n := cdag.node p
              let out0 : List (String × Node) := if seen.contains p then [] else [("w", n)]
              let seen := p :: seen
              let children := sortBy strLe (n.links.map Link.dest)
              let (out1, seen') := visitFold (visitV cdag fuel) children seen
              (out0 ++ out1, seen')).1) = _
        simp [hps]
      rw [hout] at he
      exact visitFold_mem (visitV cdag fuel) (fun p seen hp => ih p seen hp) _ (p :: seen)
        hkids e he
    · have hout : (visitV cdag (fuel + 1) seen p).1 =
          ("w", cdag.node p) ::
            (visitFold (visitV cdag fuel)
              (sortBy strLe ((cdag.node p).links.map Link.dest)) (p :: seen)).1 := by
        show ((let n := cdag.node p
              let out0 : List (String × Node) := if seen.contains p then [] else [("w", n)]
              let seen := p :: seen
              let children := sortBy strLe (n.links.map Link.dest)
              let (out1, seen') := visitFold (visitV cdag fuel) children seen
              (out0 ++ out1, seen')).1) = _
        simp [hps]
      rw [hout] at he
      rcases List.mem_cons.mp he with rfl | he
      · simpa [node_path] using hp
      · exact visitFold_mem (visitV cdag fuel) (fun p seen hp => ih p seen hp) _ (p :: seen)
          hkids e he



theorem searchKids_mem {cdag pdag : DAG} {oracle : String → Int} {p : String}
    (visit : List String → String → List (String × Node) × List String)
    (srch : String → AState → Except ApplyErr (List (String × Node) × AState))
    (hvm : ∀ q seen, q ∈ cdag.nodes.map Node.path →
      ∀ e ∈ (visit seen q).1, e.2.path ∈ cdag.nodes.map Node.path)
    (hsm : ∀ q st o st', q ∈ cdag.nodes.map Node.path → srch q st = .ok (o, st') →
      ∀ e ∈ o, e.2.path ∈ cdag.nodes.map Node.path) :
    ∀ (cs : List String) (st : AState) (o : List (String × Node)) (st' : AState),
      (∀ c ∈ cs, c ∈ cdag.nodes.map Node.path) →
      searchKids visit srch cdag pdag oracle p cs st = .ok (o, st') →
      ∀ e ∈ o, e.2.path ∈ cdag.nodes.map Node.path := by
  intro cs
  induction cs with
  | nil =>
    intro st o st' _ h e he
    unfold searchKids at h
    injection h with h
    injection h with h1 h2
    subst h1
    cases he
  | cons dest rest ih =>
    intro st o st' hcs h e he
    have hdest : dest ∈ cdag.nodes.map Node.path := hcs dest (List.mem_cons_self dest rest)
    have hrest : ∀ c ∈ rest, c ∈ cdag.nodes.map Node.path :=
      fun c hc => hcs c (List.mem_cons_of_mem dest hc)
    unfold searchKids at h
    cases hpk : pdag.pick dest with
    | some pn =>
      rw [hpk] at h
      simp only [] at h
      by_cases h1 : st.seen.contains pn.path = true
      · rw [if_pos h1] at h
        exact ih st o st' hrest h e he
      · rw [if_neg h1] at h
        by_cases h2 : (!(linkSetEq (cdag.node dest).links pn.links) ||
            !(linkSetEq (cdag.node dest).rlinks pn.rlinks)) = true
        · rw [if_pos h2] at h
          cases hrec : searchKids visit srch cdag pdag oracle p rest
              { st with seen := (visit st.seen dest).2 } with
          | error e2 => rw [hrec] at h; cases h
          | ok r =>
            rw [hrec] at h
            injection h with h
            injection h with ho hst
            subst ho
            rcases List.mem_append.mp he with he | he
            · exact hvm dest st.seen hdest e he
            · exact ih _ r.1 r.2 hrest (by rw [hrec]) e he
        · rw [if_neg h2] at h
          by_cases h3 : ((getmtime oracle st.mt p).1 < 0 : Prop)
          · rw [if_pos (by simpa using h3)] at h
            cases h
          · rw [if_neg (by simpa using h3)] at h
            by_cases h4 : (((getmtime oracle (getmtime oracle st.mt p).2 dest).1 < 0 : Bool) ||
                ((getmtime oracle st.mt p).1 >
                  (getmtime oracle (getmtime oracle st.mt p).2 dest).1 : Bool)) = true
            · rw [if_pos h4] at h
              cases hrec : searchKids visit srch cdag pdag oracle p rest
                  { mt := (dest, (getmtime oracle st.mt p).1) ::
                      (getmtime oracle (getmtime oracle st.mt p).2 dest).2,
                    seen := (visit st.seen dest).2 } with
              | error e2 => rw [hrec] at h; cases h
              | ok r =>
                rw [hrec] at h
                injection h with h
                injection h with ho hst
                subst ho
                rcases List.mem_append.mp he with he | he
                · exact hvm dest st.seen hdest e he
                · exact ih _ r.1 r.2 hrest (by rw [hrec]) e he
            · rw [if_neg h4] at h
              cases hsr : srch dest { st with
                  mt := (getmtime oracle (getmtime oracle st.mt p).2 dest).2 } with
              | error e2 => rw [hsr] at h; cases h
              | ok r =>
                rw [hsr] at h
                simp only [] at h
                cases hrec : searchKids visit srch cdag pdag oracle p rest r.2 with
                | error e2 => rw [hrec] at h; cases h
                | ok r2 =>
                  rw [hrec] at h
                  injection h with h
                  injection h with ho hst
                  subst ho
                  rcases List.mem_append.mp he with he | he
                  · exact hsm dest _ r.1 r.2 hdest (by rw [hsr]) e he
                  · exact ih r.2 r2.1 r2.2 hrest (by rw [hrec]) e he
    | none =>
      rw [hpk] at h
      simp only [] at h
      cases hrec : searchKids visit srch cdag pdag oracle p rest
          { st with seen := (visit st.seen dest).2 } with
      | error e2 => rw [hrec] at h; cases h
      | ok r =>
        rw [hrec] at h
        injection h with h
        injection h with ho hst
        subst ho
        rcases List.mem_append.mp he with he | he
        · exact hvm dest st.seen hdest e he
        · exact ih _ r.1 r.2 hrest (by rw [hrec]) e he

theorem searchS_mem {cdag pdag : DAG} {oracle : String → Int}
    (hcl : ∀ n ∈ cdag.nodes, ∀ l ∈ n.links, l.dest ∈ cdag.nodes.map Node.path) :
    ∀ (fuel : Nat) (p : String) (st : AState) (o : List (String × Node)) (st' : AState),
      p ∈ cdag.nodes.map Node.path →
      searchS cdag pdag oracle fuel p st = .ok (o, st') →
      ∀ e ∈ o, e.2.path ∈ cdag.nodes.map Node.path := by
  intro fuel
  induction fuel with
  | zero =>
    intro p st o st' _ h e he
    unfold searchS at h
    injection h with h
    injection h with h1 h2
    subst h1
    cases he
  | succ fuel ih =>
    intro p st o st' hp h e he
    unfold searchS at h
    have hkids : ∀ c ∈ sortBy strLe ((cdag.node p).links.map Link.dest),
        c ∈ cdag.nodes.map Node.path := by
      intro c hc
      obtain ⟨l, hl, hld⟩ := List.mem_map.mp (mem_sortBy.mp hc)
      exact hld ▸ node_links_closed hcl hp l hl
    exact searchKids_mem (visitV cdag fuel) (searchS cdag pdag oracle fuel)
      (fun q seen hq => visitV_mem hcl fuel q seen hq)
      (fun q st o st' hq hh => ih q st o st' hq hh)
      _ st o st' hkids h e he

theorem searchSources_mem {cdag pdag : DAG} {oracle : String → Int} {fuel : Nat}
    (hcl : ∀ n ∈ cdag.nodes, ∀ l ∈ n.links, l.dest ∈ cdag.nodes.map Node.path) :
    ∀ (ns : List Node) (st : AState) (out : List (String × Node)),
      (∀ n ∈ ns, n ∈ cdag.nodes) →
      searchSources cdag pdag oracle fuel ns st = .ok out →
      ∀ e ∈ out, e.2.path ∈ cdag.nodes.map Node.path := by
  intro ns
  induction ns with
  | nil =>
    intro st out _ h e he
    unfold searchSources at h
    injection h with h
    subst h
    cases he
  | cons n ns ih =>
    intro st out hns h e he
    unfold searchSources at h
    cases hsr : searchS cdag pdag oracle fuel n.path st with
    | error e2 => rw [hsr] at h; cases h
    | ok r =>
      rw [hsr] at h
      simp only [] at h
      cases hrec : searchSources cdag pdag oracle fuel ns r.2 with
      | error e2 => rw [hrec] at h; cases h
      | ok rest =>
        rw [hrec] at h
        injection h with h
        subst h
        rcases List.mem_append.mp he with he | he
        · exact searchS_mem hcl fuel n.path st r.1 r.2
            (List.mem_map_of_mem Node.path (hns n (List.mem_cons_self n ns))) (by rw [hsr]) e he
        · exact ih r.2 rest (fun x hx => hns x (List.mem_cons_of_mem n hx)) (by rw [hrec]) e he

theorem deletionPass_fst (cdag : DAG) :
    ∀ (ns : List Node) (dels0 : List (String × Node)) (mt0 : List (String × Int)),
      (deletionPass cdag ns (dels0, mt0)).1 = dels0 ++
        (ns.filter (fun n => !n.rlinks.isEmpty && !(cdag.pick n.path).isSome)).map
          (fun n => ("d", n)) := by
  intro ns
  induction ns with
  | nil => intro dels0 mt0; simp [deletionPass]
  | cons n ns ih =>
    intro dels0 mt0
    by_cases h1 : n.rlinks.isEmpty = true
    · simp [deletionPass, h1, List.filter_cons, ih]
    · by_cases h2 : (cdag.pick n.path).isSome = true
      · have hne : ¬ cdag.pick n.path = none := by
          intro hn0; rw [hn0] at h2; cases h2
        simp [deletionPass, Bool.eq_false_iff.mpr h1, h2, List.filter_cons, ih, hne]
      · rw [show deletionPass cdag (n :: ns) (dels0, mt0)
            = deletionPass cdag ns (dels0 ++ [("d", n)], (n.path, -1) :: mt0) from by
          simp [deletionPass, Bool.eq_false_iff.mpr h1, Bool.eq_false_iff.mpr h2]]
        rw [ih]
        rw [List.filter_cons]
        simp [Bool.eq_false_iff.mpr h1, Bool.eq_false_iff.mpr h2]




/-- C10: in every plan returned by `DAG.apply`, each node path occurs at
most once: the `seen` set makes write paths distinct, deletion paths are
the distinct previous-dag paths, and the two are disjoint because every
write path is a current-dag path (links are interned, giving the closure
hypothesis) while deletions are exactly the previous-dag non-source
nodes whose path is absent from the current dag.  The dict invariant of
the previous dag (distinct stored paths) is the other hypothesis. -/
theorem c10_plan_paths_nodup (cdag pdag : DAG) (oracle : String → Int)
    (mt0 : List (String × Int)) (plan : List (String × Node))
    (hcl : ∀ n ∈ cdag.nodes, ∀ l ∈ n.links, l.dest ∈ cdag.nodes.map Node.path)
    (hnd : (pdag.nodes.map Node.path).Nodup)
    (h : DAG.apply cdag pdag oracle mt0 = .ok plan) :
    (plan.map (fun e => e.2.path)).Nodup := by
  unfold DAG.apply at h
  cases ha : DAG.applyAux cdag pdag oracle mt0 (cdag.nodes.length + pdag.nodes.length + 1) with
  | error e => rw [ha] at h; cases h
  | ok plan0 =>
    rw [ha] at h
    have hplan : plan = sortBy (fun a b => decide (a.2.index ≤ b.2.index)) plan0 := by
      rw [show Except.map (sortBy (fun (a : String × Node) (b : String × Node) =>
          decide (a.2.index ≤ b.2.index)))
          (Except.ok plan0 : Except ApplyErr (List (String × Node)))
          = Except.ok (sortBy (fun a b => decide (a.2.index ≤ b.2.index)) plan0) from rfl] at h
      injection h with h2
      exact h2.symm
    suffices hnodup0 : (plan0.map (fun e => e.2.path)).Nodup by
      rw [hplan]
      have hperm := (sortBy_perm (fun (a : String × Node) (b : String × Node) =>
        decide (a.2.index ≤ b.2.index)) plan0).map (fun e => e.2.path)
      exact (List.Perm.nodup_iff hperm).mpr hnodup0
    unfold DAG.applyAux at ha
    cases hss : searchSources cdag pdag oracle (cdag.nodes.length + pdag.nodes.length + 1)
        cdag.sourceNodes
        { mt := (deletionPass cdag pdag.sortedNodes ([], mt0)).2, seen := [] } with
    | error e => rw [hss] at ha; cases ha
    | ok writes =>
      rw [hss] at ha
      injection ha with ha
      rw [← ha]
      rw [deletionPass_fst cdag pdag.sortedNodes [] mt0, List.nil_append]
      have hsortperm : List.Perm pdag.sortedNodes pdag.nodes := by
        unfold DAG.sortedNodes
        exact sortBy_perm _ _
      have hndsorted : (pdag.sortedNodes.map Node.path).Nodup :=
        (List.Perm.nodup_iff (hsortperm.map Node.path)).mpr hnd
    -- deletions: a sublist of the sorted previous nodes
      have hfilter := @List.filter_sublist Node
        (fun n => !n.rlinks.isEmpty && !(cdag.pick n.path).isSome) pdag.sortedNodes
      have hnodup_dels :
          ((pdag.sortedNodes.filter
            (fun n => !n.rlinks.isEmpty && !(cdag.pick n.path).isSome)).map Node.path).Nodup :=
        (hfilter.map Node.path).nodup hndsorted
      have hdel_not : ∀ n ∈ pdag.sortedNodes.filter
            (fun n => !n.rlinks.isEmpty && !(cdag.pick n.path).isSome),
          n.path ∉ cdag.nodes.map Node.path := by
        intro n hn
        have hcond := (List.mem_filter.mp hn).2
        have : (cdag.pick n.path).isSome = false := by
          rcases Bool.and_eq_true_iff.mp hcond with ⟨-, h2⟩
          simpa using h2
        cases hp : cdag.pick n.path with
        | some m => rw [hp] at this; cases this
        | none => exact pick_none_not_mem hp
      obtain ⟨hwn, -⟩ := searchSources_spec cdag pdag oracle
        (cdag.nodes.length + pdag.nodes.length + 1) cdag.sourceNodes _ writes (by rw [hss])
      have hwmem := searchSources_mem hcl cdag.sourceNodes _ writes
        (fun n hn => List.mem_of_mem_filter hn) (by rw [hss])
      rw [List.map_append, List.nodup_append]
      refine ⟨?_, hwn, ?_⟩
      · rw [List.map_map]
        exact hnodup_dels
      · intro a ha2 hb
        rw [List.map_map] at ha2
        obtain ⟨n, hn, hna⟩ := List.mem_map.mp ha2
        obtain ⟨e, he, hea⟩ := List.mem_map.mp hb
        have hmem := hwmem e he
        rw [hea] at hmem
        rw [← hna] at hmem
        exact hdel_not n hn hmem

/-- Witness for `c10_plan_paths_nodup`: Scenario D. -/
theorem c10_plan_paths_nodup_witness :
    (∀ n ∈ scenarioD_dag.nodes, ∀ l ∈ n.links, l.dest ∈ scenarioD_dag.nodes.map Node.path) ∧
    (scenarioD_dag.nodes.map Node.path).Nodup ∧
    (scenarioD_plan.map (fun e => e.2.path)).Nodup :=
  ⟨by decide, by decide,
    c10_plan_paths_nodup scenarioD_dag scenarioD_dag (fun _ => -1) scenarioD_mtimes
      scenarioD_plan (by decide) (by decide) (by rfl)⟩



/-! ### C7: soundness of the three-colour DFS and of the build loop -/

theorem getColor_setColor (cs : Colors) (p : String) (c : Nat) (q : String) :
    getColor (setColor cs p c) q = if p = q then c else getColor cs q := by
  show getColor ((p, c) :: cs) q = _
  unfold getColor
  by_cases h : p = q
  · subst h
    rw [show List.find? (fun e => e.1 == p) ((p, c) :: cs) = some (p, c) from
      List.find?_cons_of_pos _ (by simp)]
    simp
  · rw [show List.find? (fun e => e.1 == q) ((p, c) :: cs)
        = List.find? (fun e => e.1 == q) cs from
      List.find?_cons_of_neg _ (by simp [h])]
    simp [h]

theorem getColor_zeros (ns : List Node) (q : String) :
    getColor (ns.map (fun n => (n.path, 0))) q = 0 := by
  induction ns with
  | nil => rfl
  | cons n ns ih =>
    unfold getColor
    rw [List.map_cons]
    by_cases h : n.path = q
    · rw [show List.find? (fun e => e.1 == q) ((n.path, 0) :: ns.map (fun n => (n.path, 0)))
          = some (n.path, 0) from List.find?_cons_of_pos _ (by simp [h])]
    · rw [show List.find? (fun e => e.1 == q) ((n.path, 0) :: ns.map (fun n => (n.path, 0)))
          = List.find? (fun e => e.1 == q) (ns.map (fun n => (n.path, 0))) from
        List.find?_cons_of_neg _ (by simp [h])]
      unfold getColor at ih
      exact ih

theorem edge_node {d : DAG} {p q : String} :
    Edge d p q ↔ ∃ l ∈ (d.node p).links, l.dest = q := by
  unfold Edge DAG.node
  cases h : d.pick p with
  | none => simp [newNode]
  | some n => simp

theorem black_reach {d : DAG} {cs : Colors} (hbc : BlackClosed d cs) {p q : String}
    (hp : getColor cs p = 2) (h : Relation.ReflTransGen (Edge d) p q) :
    getColor cs q = 2 := by
  induction h with
  | refl => exact hp
  | tail h1 h2 ih =>
    obtain ⟨l, hl, hd⟩ := edge_node.mp h2
    have := hbc _ ih l hl
    rwa [hd] at this

theorem goLinks_spec (d : DAG) (v : Colors → String → Bool × Colors)
    (hv : ∀ (cs : Colors) (p : String) (cs' : Colors),
        getColor cs p = 0 → BlackClosed d cs → NoBlackCycle d cs →
        ColorsBounded cs → v cs p = (false, cs') →
        getColor cs' p = 2 ∧
        (∀ q, q ≠ p → getColor cs q ≠ 0 → getColor cs' q = getColor cs q) ∧
        (∀ q, getColor cs q = 0 → getColor cs' q = 0 ∨ getColor cs' q = 2) ∧
        BlackClosed d cs' ∧ NoBlackCycle d cs' ∧ ColorsBounded cs') :
    ∀ (ls : List Link) (cs cs'' : Colors), BlackClosed d cs → NoBlackCycle d cs →
      ColorsBounded cs → goLinks v ls cs = (false, cs'') →
      (∀ l ∈ ls, getColor cs'' l.dest = 2) ∧
      (∀ q, getColor cs q ≠ 0 → getColor cs'' q = getColor cs q) ∧
      (∀ q, getColor cs q = 0 → getColor cs'' q = 0 ∨ getColor cs'' q = 2) ∧
      BlackClosed d cs'' ∧ NoBlackCycle d cs'' ∧ ColorsBounded cs'' := by
  intro ls
  induction ls with
  | nil =>
    intro cs cs'' hbc hnbc hcb h
    have h' : ((false, cs) : Bool × Colors) = (false, cs'') := h
    injection h' with _ h2
    subst h2
    exact ⟨fun l hl => absurd hl (List.not_mem_nil l), fun q _ => rfl,
      fun q hq => .inl hq, hbc, hnbc, hcb⟩
  | cons l ls ih =>
    intro cs cs'' hbc hnbc hcb h
    rcases hc : getColor cs l.dest with _ | _ | c2
    · -- white target: the recursive visit runs
      simp only [goLinks, hc] at h
      rcases hvr : v cs l.dest with ⟨b, cs1⟩
      rw [hvr] at h
      cases b with
      | true =>
        have h' : ((true, cs1) : Bool × Colors) = (false, cs'') := h
        injection h' with hb _
        exact Bool.noConfusion hb
      | false =>
        have h2 : goLinks v ls cs1 = (false, cs'') := h
        obtain ⟨hD, hU, hW, hbc1, hnbc1, hcb1⟩ := hv cs l.dest cs1 hc hbc hnbc hcb hvr
        obtain ⟨g1, g2, g3, g4, g5, g6⟩ := ih cs1 cs'' hbc1 hnbc1 hcb1 h2
        refine ⟨?_, ?_, ?_, g4, g5, g6⟩
        · intro x hx
          rcases List.mem_cons.mp hx with rfl | hx'
          · rw [g2 x.dest (by rw [hD]; decide)]
            exact hD
          · exact g1 x hx'
        · intro q hq
          have hqne : q ≠ l.dest := fun he => hq (by rw [he]; exact hc)
          have hu1 : getColor cs1 q = getColor cs q := hU q hqne hq
          have hne1 : getColor cs1 q ≠ 0 := by rw [hu1]; exact hq
          rw [g2 q hne1, hu1]
        · intro q hq0
          rcases hW q hq0 with hw0 | hw2
          · exact g3 q hw0
          · refine .inr ?_
            rw [g2 q (by rw [hw2]; decide)]
            exact hw2
    · -- grey target: a back edge, contradiction with the false return
      simp only [goLinks, hc] at h
      have h' : ((true, cs) : Bool × Colors) = (false, cs'') := h
      injection h' with hb _
      exact Bool.noConfusion hb
    · -- finished target (bounded colours force 2): skip
      simp only [goLinks, hc] at h
      have hc2 : getColor cs l.dest = 2 := by
        rcases hcb l.dest with h0 | h1 | h2 <;> omega
      obtain ⟨g1, g2, g3, g4, g5, g6⟩ := ih cs cs'' hbc hnbc hcb h
      refine ⟨?_, g2, g3, g4, g5, g6⟩
      intro x hx
      rcases List.mem_cons.mp hx with rfl | hx'
      · rw [g2 x.dest (by rw [hc2]; decide)]
        exact hc2
      · exact g1 x hx'

theorem visitC_spec (d : DAG) :
    ∀ (fuel : Nat) (cs : Colors) (p : String) (cs' : Colors),
      getColor cs p = 0 → BlackClosed d cs → NoBlackCycle d cs →
      ColorsBounded cs → visitC d fuel cs p = (false, cs') →
      getColor cs' p = 2 ∧
      (∀ q, q ≠ p → getColor cs q ≠ 0 → getColor cs' q = getColor cs q) ∧
      (∀ q, getColor cs q = 0 → getColor cs' q = 0 ∨ getColor cs' q = 2) ∧
      BlackClosed d cs' ∧ NoBlackCycle d cs' ∧ ColorsBounded cs' := by
  intro fuel
  induction fuel with
  | zero =>
    intro cs p cs' _ _ _ _ h
    simp [visitC] at h
  | succ fuel ih =>
    intro cs p cs' hwhite hbc hnbc hcb h
    have hbc1 : BlackClosed d (setColor cs p 1) := by
      intro r hr x hx
      rw [getColor_setColor] at hr
      by_cases hrp : p = r
      · rw [if_pos hrp] at hr; exact absurd hr (by decide)
      · rw [if_neg hrp] at hr
        have hx2 := hbc r hr x hx
        rw [getColor_setColor]
        by_cases hdp : p = x.dest
        · exfalso; rw [hdp] at hwhite; omega
        · rw [if_neg hdp]; exact hx2
    have hnbc1 : NoBlackCycle d (setColor cs p 1) := by
      intro r hr
      rw [getColor_setColor] at hr
      by_cases hrp : p = r
      · rw [if_pos hrp] at hr; exact absurd hr (by decide)
      · rw [if_neg hrp] at hr; exact hnbc r hr
    have hcb1 : ColorsBounded (setColor cs p 1) := by
      intro q
      rw [getColor_setColor]
      by_cases hq : p = q
      · rw [if_pos hq]; exact .inr (.inl rfl)
      · rw [if_neg hq]; exact hcb q
    simp only [visitC] at h
    rcases hg : goLinks (visitC d fuel) (d.node p).links (setColor cs p 1) with ⟨b, cs2⟩
    rw [hg] at h
    cases b with
    | true =>
      have h' : ((true, cs2) : Bool × Colors) = (false, cs') := h
      injection h' with hb _
      exact Bool.noConfusion hb
    | false =>
      have h' : ((false, setColor cs2 p 2) : Bool × Colors) = (false, cs') := h
      injection h' with _ h2
      subst h2
      obtain ⟨g1, g2, g3, g4, g5, g6⟩ :=
        goLinks_spec d (visitC d fuel) ih (d.node p).links (setColor cs p 1) cs2
          hbc1 hnbc1 hcb1 hg
      have hp1 : getColor (setColor cs p 1) p = 1 := by rw [getColor_setColor, if_pos rfl]
      have hp2 : getColor cs2 p = 1 := by
        rw [g2 p (by rw [hp1]; decide)]
        exact hp1
      refine ⟨?_, ?_, ?_, ?_, ?_, ?_⟩
      · rw [getColor_setColor, if_pos rfl]
      · intro q hqp hq0
        have e1 : getColor (setColor cs p 1) q = getColor cs q := by
          rw [getColor_setColor, if_neg (fun he => hqp he.symm)]
        have e2 : getColor cs2 q = getColor cs q := by
          rw [g2 q (by rw [e1]; exact hq0), e1]
        rw [getColor_setColor, if_neg (fun he => hqp he.symm), e2]
      · intro q hq0
        by_cases hqp : q = p
        · subst hqp
          exact .inr (by rw [getColor_setColor, if_pos rfl])
        · have e1 : getColor (setColor cs p 1) q = getColor cs q := by
            rw [getColor_setColor, if_neg (fun he => hqp he.symm)]
          have e0 : getColor (setColor cs p 1) q = 0 := by rw [e1]; exact hq0
          have hcs' : getColor (setColor cs2 p 2) q = getColor cs2 q := by
            rw [getColor_setColor, if_neg (fun he => hqp he.symm)]
          rcases g3 q e0 with gw | gb
          · exact .inl (by rw [hcs']; exact gw)
          · exact .inr (by rw [hcs']; exact gb)
      · intro r hr x hx
        rw [getColor_setColor] at hr
        rw [getColor_setColor]
        by_cases hpr : p = r
        · subst hpr
          have hxd : getColor cs2 x.dest = 2 := g1 x hx
          by_cases hpd : p = x.dest
          · rw [if_pos hpd]
          · rw [if_neg hpd]; exact hxd
        · rw [if_neg hpr] at hr
          have hsucc := g4 r hr x hx
          by_cases hpd : p = x.dest
          · rw [if_pos hpd]
          · rw [if_neg hpd]; exact hsucc
      · intro r hr hcy
        rw [getColor_setColor] at hr
        by_cases hpr : p = r
        · subst hpr
          rcases Relation.TransGen.head'_iff.mp hcy with ⟨c, hpc, hcp⟩
          obtain ⟨x, hx, hxd⟩ := edge_node.mp hpc
          have hcblack : getColor cs2 c = 2 := by rw [← hxd]; exact g1 x hx
          have : getColor cs2 p = 2 := black_reach g4 hcblack hcp
          omega
        · rw [if_neg hpr] at hr
          exact g5 r hr hcy
      · intro q
        rw [getColor_setColor]
        by_cases hq : p = q
        · rw [if_pos hq]; exact .inr (.inr rfl)
        · rw [if_neg hq]; exact g6 q

theorem cycleScan_spec (d : DAG) (fuel : Nat) :
    ∀ (ns : List Node) (cs : Colors),
      BlackClosed d cs → NoBlackCycle d cs → ColorsBounded cs →
      (∀ q, getColor cs q ≠ 1) →
      cycleScan d fuel ns cs = false →
      ∀ n ∈ ns, ¬ Relation.TransGen (Edge d) n.path n.path := by
  intro ns
  induction ns with
  | nil => intro cs _ _ _ _ _ n hn; exact absurd hn (List.not_mem_nil n)
  | cons n ns ih =>
    intro cs hbc hnbc hcb hng h m hm
    unfold cycleScan at h
    by_cases hw : getColor cs n.path = 0
    · rw [if_pos (by rw [hw]; rfl)] at h
      rcases hv : visitC d fuel cs n.path with ⟨b, cs1⟩
      rw [hv] at h
      cases b with
      | true => exact Bool.noConfusion h
      | false =>
        have h2 : cycleScan d fuel ns cs1 = false := h
        obtain ⟨v1, v2, v3, v4, v5, v6⟩ := visitC_spec d fuel cs n.path cs1 hw hbc hnbc hcb hv
        have hng1 : ∀ q, getColor cs1 q ≠ 1 := by
          intro q h1
          by_cases hq0 : getColor cs q = 0
          · rcases v3 q hq0 with h0 | hb2 <;> omega
          · by_cases hqp : q = n.path
            · subst hqp; omega
            · rw [v2 q hqp hq0] at h1; exact hng q h1
        rcases List.mem_cons.mp hm with rfl | hm'
        · exact v5 m.path v1
        · exact ih cs1 v4 v5 v6 hng1 h2 m hm'
    · have hb2 : getColor cs n.path = 2 := by
        rcases hcb n.path with h0 | h1 | h2
        · exact absurd h0 hw
        · exact absurd h1 (hng n.path)
        · exact h2
      rw [if_neg (by rw [hb2]; decide)] at h
      rcases List.mem_cons.mp hm with rfl | hm'
      · exact hnbc m.path hb2
      · exact ih cs hbc hnbc hcb hng h m hm'

theorem hasCycles_false_acyclic {d : DAG} (h : d.hasCycles = false) : Acyclic d := by
  unfold DAG.hasCycles at h
  have hz : ∀ q, getColor (d.nodes.map (fun n => (n.path, 0))) q = 0 :=
    fun q => getColor_zeros d.nodes q
  have hA := cycleScan_spec d (d.nodes.length + 1) d.nodes
    (d.nodes.map (fun n => (n.path, 0)))
    (by intro r hr x hx; rw [hz r] at hr; exact absurd hr (by decide))
    (by intro r hr; rw [hz r] at hr; exact absurd hr (by decide))
    (by intro q; exact .inl (hz q))
    (by intro q; rw [hz q]; decide)
    h
  intro p hcy
  rcases Relation.TransGen.head'_iff.mp hcy with ⟨c, hpc, _⟩
  obtain ⟨n, hpick, _⟩ := hpc
  have hnp : n.path = p := pick_some_path hpick
  have hmem : n ∈ d.nodes := pick_mem_nodes hpick
  have := hA n hmem
  rw [hnp] at this
  exact this hcy

theorem sourcesFold_loop (cmd : Cmd) (dest : String) :
    ∀ (pairs : List (String × String)) (dag : DAG),
      (∃ bs ∈ pairs, (pjoin bs.1 bs.2 == dest) = true) →
      sourcesFold cmd dest pairs dag = .error .cycle := by
  intro pairs
  induction pairs with
  | nil =>
    intro dag h
    obtain ⟨bs, hm, _⟩ := h
    exact absurd hm (List.not_mem_nil bs)
  | cons bs rest ih =>
    intro dag h
    show (match mkLink cmd (pjoin bs.1 bs.2) dest with
      | Except.error e => Except.error e
      | Except.ok l => sourcesFold cmd dest rest
          (addLinkRecord ((dag.get (newNode (pjoin bs.1 bs.2))).1) l)) = Except.error BuildErr.cycle
    by_cases hb : (pjoin bs.1 bs.2 == dest) = true
    · rw [show mkLink cmd (pjoin bs.1 bs.2) dest = .error .cycle from by simp [mkLink, hb]]
    · have hb' : (pjoin bs.1 bs.2 == dest) = false := Bool.eq_false_iff.mpr hb
      rw [show mkLink cmd (pjoin bs.1 bs.2) dest = .ok
          { cmd_name := cmd.name, cmd_hash := cmd.hash, src := pjoin bs.1 bs.2, dest := dest }
        from by simp [mkLink, hb']]
      apply ih
      obtain ⟨cs, hm, hcs⟩ := h
      rcases List.mem_cons.mp hm with rfl | hm'
      · exact absurd hcs hb
      · exact ⟨cs, hm', hcs⟩

theorem inputsFold_loop (cmd : Cmd) (dest : String) :
    ∀ (pairs : List (String × String)) (dag : DAG),
      (∃ bs ∈ pairs, (pjoin bs.1 bs.2 == dest) = true) →
      inputsFold cmd dest pairs dag = .error .cycle := by
  intro pairs
  induction pairs with
  | nil =>
    intro dag h
    obtain ⟨bs, hm, _⟩ := h
    exact absurd hm (List.not_mem_nil bs)
  | cons bs rest ih =>
    intro dag h
    show (match mkLink cmd (pjoin bs.1 bs.2) dest with
      | Except.error e => Except.error e
      | Except.ok l => inputsFold cmd dest rest
          (addDlinkRecord (addLinkRecord ((dag.get (newNode (pjoin bs.1 bs.2))).1) l) l))
        = Except.error BuildErr.cycle
    by_cases hb : (pjoin bs.1 bs.2 == dest) = true
    · rw [show mkLink cmd (pjoin bs.1 bs.2) dest = .error .cycle from by simp [mkLink, hb]]
    · have hb' : (pjoin bs.1 bs.2 == dest) = false := Bool.eq_false_iff.mpr hb
      rw [show mkLink cmd (pjoin bs.1 bs.2) dest = .ok
          { cmd_name := cmd.name, cmd_hash := cmd.hash, src := pjoin bs.1 bs.2, dest := dest }
        from by simp [mkLink, hb']]
      apply ih
      obtain ⟨cs, hm, hcs⟩ := h
      rcases List.mem_cons.mp hm with rfl | hm'
      · exact absurd hcs hb
      · exact ⟨cs, hm', hcs⟩

theorem buildStep_loop {dag : DAG} {i : Nat} {d : Desc}
    (hprod : hasProd dag d.dest = false) (hloop : d.selfLoop = true) :
    buildStep dag i d = .error .cycle := by
  have hgot : ∃ dag0 m, dag.get (newNode d.dest) = (dag0, m) ∧ m.production.isSome = false := by
    cases hp : dag.pick d.dest with
    | some m =>
      refine ⟨dag, m, get_of_pick_some hp, ?_⟩
      unfold hasProd at hprod
      rw [hp] at hprod
      simpa using hprod
    | none => exact ⟨_, _, get_of_pick_none hp, rfl⟩
  obtain ⟨dag0, m, hget, hm⟩ := hgot
  unfold buildStep
  rw [hget]
  simp only [hm, Bool.false_eq_true, if_false]
  unfold Desc.selfLoop at hloop
  rw [List.any_eq_true] at hloop
  by_cases hs : ∃ bs ∈ d.sources, (pjoin bs.1 bs.2 == d.dest) = true
  · rw [sourcesFold_loop d.cmd d.dest d.sources _ hs]
  · have hsrc : ∀ bs ∈ d.sources, (pjoin bs.1 bs.2 == d.dest) = false := by
      intro bs hbs
      by_cases hx : (pjoin bs.1 bs.2 == d.dest) = true
      · exact absurd ⟨bs, hbs, hx⟩ hs
      · exact Bool.eq_false_iff.mpr hx
    obtain ⟨dag2, hs2, _⟩ := sourcesFold_ok d.cmd d.dest d.sources _ hsrc
    rw [hs2]
    simp only []
    have hinp : ∃ bs ∈ d.inputs, (pjoin bs.1 bs.2 == d.dest) = true := by
      obtain ⟨bs, hbs, hx⟩ := hloop
      rcases List.mem_append.mp hbs with h1 | h2
      · exact absurd ⟨bs, h1, by simpa using hx⟩ hs
      · exact ⟨bs, h2, by simpa using hx⟩
    rw [inputsFold_loop d.cmd d.dest d.inputs dag2 hinp]

theorem buildDag_loop :
    ∀ (descs : List Desc) (dag : DAG) (i : Nat),
      (∀ de ∈ descs, hasProd dag de.dest = false) →
      hasDupB (descs.map Desc.dest) = false →
      anySelfLoop descs = true →
      buildDag descs dag i = .error .cycle := by
  intro descs
  induction descs with
  | nil =>
    intro dag i _ _ hsl
    exact Bool.noConfusion hsl
  | cons d ds ih =>
    intro dag i hfresh hdup hsl
    cases hd : d.selfLoop with
    | true =>
      have hstep := @buildStep_loop dag i d (hfresh d (List.mem_cons_self d ds)) hd
      unfold buildDag
      rw [hstep]
    | false =>
      have hsl' : anySelfLoop ds = true := by
        unfold anySelfLoop at hsl ⊢
        rw [List.any_cons] at hsl
        rcases Bool.or_eq_true_iff.mp hsl with h1 | h2
        · rw [hd] at h1; exact Bool.noConfusion h1
        · exact h2
      have hcontains : (ds.map Desc.dest).contains d.dest = false := by
        have h0 : hasDupB ((d :: ds).map Desc.dest) = false := hdup
        rw [List.map_cons] at h0
        unfold hasDupB at h0
        exact (Bool.or_eq_false_iff.mp h0).1
      have hdup' : hasDupB (ds.map Desc.dest) = false := by
        have h0 : hasDupB ((d :: ds).map Desc.dest) = false := hdup
        rw [List.map_cons] at h0
        unfold hasDupB at h0
        exact (Bool.or_eq_false_iff.mp h0).2
      obtain ⟨dag1, hbs, hchar⟩ := buildStep_ok (hfresh d (List.mem_cons_self d ds)) hd
      have hfresh' : ∀ de ∈ ds, hasProd dag1 de.dest = false := by
        intro de hde
        have hne : de.dest ≠ d.dest := by
          intro heq
          have hmem : d.dest ∈ ds.map Desc.dest := by
            rw [← heq]
            exact List.mem_map_of_mem Desc.dest hde
          have : (ds.map Desc.dest).contains d.dest = true :=
            List.elem_eq_true_of_mem hmem
          rw [this] at hcontains
          cases hcontains
        have hold : hasProd dag de.dest = false := hfresh de (List.mem_cons_of_mem d hde)
        cases hv : hasProd dag1 de.dest with
        | false => rfl
        | true =>
          rcases (hchar de.dest).mp hv with heq | hh
          · exact absurd heq hne
          · rw [hold] at hh; cases hh
      unfold buildDag
      rw [hbs]
      exact ih dag1 (i + 1) hfresh' hdup' hsl'

theorem mem_addLink_of_mem {x l : Link} {ls : List Link} (h : x ∈ ls) : x ∈ addLink l ls := by
  unfold addLink
  split
  · exact h
  · exact List.mem_append.mpr (.inl h)

theorem mem_addLink_dest (l : Link) (ls : List Link) :
    ∃ x ∈ addLink l ls, x.dest = l.dest := by
  unfold addLink
  split
  · next ha =>
    obtain ⟨x, hx, hbeq⟩ := List.any_eq_true.mp ha
    unfold linkBEq at hbeq
    simp only [Bool.and_eq_true, beq_iff_eq] at hbeq
    exact ⟨x, hx, hbeq.2.symm⟩
  · exact ⟨l, by simp, rfl⟩

theorem edge_modify {d : DAG} {p q : String} (y : String) (f : Node → Node)
    (hf : ∀ n, (f n).path = n.path) (hl : ∀ n x, x ∈ n.links → x ∈ (f n).links)
    (h : Edge d p q) : Edge (d.modify y f) p q := by
  obtain ⟨n, hpick, x, hx, hxd⟩ := h
  show ∃ m, (d.modify y f).pick p = some m ∧ ∃ z ∈ m.links, z.dest = q
  rw [pick_modify f hf, hpick]
  simp only [Option.map_some']
  by_cases hny : n.path = y
  · exact ⟨f n, by simp [hny], x, hl n x hx, hxd⟩
  · exact ⟨n, by simp [hny], x, hx, hxd⟩

theorem edge_get {d : DAG} {p q : String} (m : Node) (h : Edge d p q) :
    Edge ((d.get m).1) p q := by
  obtain ⟨n, hpick, x, hx, hxd⟩ := h
  cases hp : d.pick m.path with
  | some k => rw [get_of_pick_some hp]; exact ⟨n, hpick, x, hx, hxd⟩
  | none =>
    rw [get_of_pick_none hp]
    show Edge { nodes := d.nodes ++ [m] } p q
    refine ⟨n, ?_, x, hx, hxd⟩
    rw [show ({ nodes := d.nodes ++ [m] } : DAG).pick p = _ from pick_append d.nodes m p]
    have hd : ({ nodes := d.nodes } : DAG).pick p = some n := hpick
    rw [hd]

theorem edge_addLinkRecord {d : DAG} {p q : String} (l : Link) (h : Edge d p q) :
    Edge (addLinkRecord d l) p q := by
  show Edge ((d.modify l.src (fun n => { n with links := addLink l n.links })).modify
    l.dest (fun n => { n with rlinks := addLink l n.rlinks })) p q
  apply edge_modify l.dest (fun n => { n with rlinks := addLink l n.rlinks })
    (fun _ => rfl) (fun n x hx => hx)
  exact edge_modify l.src _ (fun _ => rfl) (fun n x hx => mem_addLink_of_mem hx) h

theorem edge_addDlinkRecord {d : DAG} {p q : String} (l : Link) (h : Edge d p q) :
    Edge (addDlinkRecord d l) p q := by
  show Edge ((d.modify l.src (fun n => { n with dlinks := addLink l n.dlinks })).modify
    l.dest (fun n => { n with drlinks := addLink l n.drlinks })) p q
  apply edge_modify l.dest (fun n => { n with drlinks := addLink l n.drlinks })
    (fun _ => rfl) (fun n x hx => hx)
  exact edge_modify l.src (fun n => { n with dlinks := addLink l n.dlinks })
    (fun _ => rfl) (fun n x hx => hx) h

theorem pick_addLinkRecord_src {d : DAG} {l : Link} {n : Node} (hp : d.pick l.src = some n) :
    ∃ m, (addLinkRecord d l).pick l.src = some m ∧ m.links = addLink l n.links := by
  show ∃ m, ((d.modify l.src (fun k => { k with links := addLink l k.links })).modify
    l.dest (fun k => { k with rlinks := addLink l k.rlinks })).pick l.src = some m ∧
      m.links = addLink l n.links
  rw [pick_modify (fun k => { k with rlinks := addLink l k.rlinks }) (fun _ => rfl),
    pick_modify (fun k => { k with links := addLink l k.links }) (fun _ => rfl), hp]
  simp only [Option.map_some']
  have hnp : n.path = l.src := pick_some_path hp
  rw [show (if n.path == l.src then ({ n with links := addLink l n.links } : Node) else n)
      = { n with links := addLink l n.links } from by simp [hnp]]
  by_cases hsd : n.path = l.dest
  · exact ⟨{ n with links := addLink l n.links, rlinks := addLink l n.rlinks },
      by simp [hsd], rfl⟩
  · exact ⟨{ n with links := addLink l n.links }, by simp [hsd], rfl⟩

theorem edge_new_addLinkRecord {d : DAG} {l : Link} {n : Node}
    (hp : d.pick l.src = some n) :
    Edge (addLinkRecord d l) l.src l.dest := by
  obtain ⟨m, hpick, hml⟩ := pick_addLinkRecord_src hp
  obtain ⟨x, hx, hxd⟩ := mem_addLink_dest l n.links
  exact ⟨m, hpick, x, by rw [hml]; exact hx, hxd⟩

theorem pick_get_self (d : DAG) (x : String) :
    ∃ n, ((d.get (newNode x)).1).pick x = some n := by
  cases hp : d.pick x with
  | some m =>
    refine ⟨m, ?_⟩
    rw [show d.get (newNode x) = (d, m) from get_of_pick_some hp]
    exact hp
  | none =>
    refine ⟨newNode x, ?_⟩
    rw [show d.get (newNode x) = ({ nodes := d.nodes ++ [newNode x] }, newNode x) from
      get_of_pick_none hp]
    show ({ nodes := d.nodes ++ [newNode x] } : DAG).pick x = some (newNode x)
    rw [show ({ nodes := d.nodes ++ [newNode x] } : DAG).pick x = _ from
      pick_append d.nodes (newNode x) x]
    have hd : ({ nodes := d.nodes } : DAG).pick x = none := hp
    rw [hd]
    simp [newNode]

theorem sourcesFold_edges (cmd : Cmd) (dest : String) :
    ∀ (pairs : List (String × String)) (dag dag' : DAG),
      sourcesFold cmd dest pairs dag = .ok dag' →
      (∀ p q, Edge dag p q → Edge dag' p q) ∧
      (∀ bs ∈ pairs, Edge dag' (pjoin bs.1 bs.2) dest) := by
  intro pairs
  induction pairs with
  | nil =>
    intro dag dag' h
    have h' : (Except.ok dag : Except BuildErr DAG) = .ok dag' := h
    injection h' with he
    subst he
    exact ⟨fun p q hh => hh, fun bs hbs => absurd hbs (List.not_mem_nil bs)⟩
  | cons bs rest ih =>
    intro dag dag' h
    have h' : (match mkLink cmd (pjoin bs.1 bs.2) dest with
      | Except.error e => Except.error e
      | Except.ok l => sourcesFold cmd dest rest
          (addLinkRecord ((dag.get (newNode (pjoin bs.1 bs.2))).1) l)) = Except.ok dag' := h
    by_cases hb : (pjoin bs.1 bs.2 == dest) = true
    · rw [show mkLink cmd (pjoin bs.1 bs.2) dest = .error .cycle from by simp [mkLink, hb]] at h'
      exact Except.noConfusion h'
    · have hb' : (pjoin bs.1 bs.2 == dest) = false := Bool.eq_false_iff.mpr hb
      rw [show mkLink cmd (pjoin bs.1 bs.2) dest = .ok
          { cmd_name := cmd.name, cmd_hash := cmd.hash, src := pjoin bs.1 bs.2, dest := dest }
        from by simp [mkLink, hb']] at h'
      have h2 : sourcesFold cmd dest rest
          (addLinkRecord ((dag.get (newNode (pjoin bs.1 bs.2))).1)
            { cmd_name := cmd.name, cmd_hash := cmd.hash, src := pjoin bs.1 bs.2, dest := dest })
          = .ok dag' := h'
      obtain ⟨mono, hrest⟩ := ih _ dag' h2
      obtain ⟨n0, hn0⟩ := pick_get_self dag (pjoin bs.1 bs.2)
      have hedge := mono _ _ (edge_new_addLinkRecord hn0)
      refine ⟨?_, ?_⟩
      · intro p q hpq
        exact mono p q (edge_addLinkRecord _ (edge_get _ hpq))
      · intro cs hcs
        rcases List.mem_cons.mp hcs with rfl | hcs'
        · exact hedge
        · exact hrest cs hcs'

theorem inputsFold_edges (cmd : Cmd) (dest : String) :
    ∀ (pairs : List (String × String)) (dag dag' : DAG),
      inputsFold cmd dest pairs dag = .ok dag' →
      (∀ p q, Edge dag p q → Edge dag' p q) ∧
      (∀ bs ∈ pairs, Edge dag' (pjoin bs.1 bs.2) dest) := by
  intro pairs
  induction pairs with
  | nil =>
    intro dag dag' h
    have h' : (Except.ok dag : Except BuildErr DAG) = .ok dag' := h
    injection h' with he
    subst he
    exact ⟨fun p q hh => hh, fun bs hbs => absurd hbs (List.not_mem_nil bs)⟩
  | cons bs rest ih =>
    intro dag dag' h
    have h' : (match mkLink cmd (pjoin bs.1 bs.2) dest with
      | Except.error e => Except.error e
      | Except.ok l => inputsFold cmd dest rest
          (addDlinkRecord (addLinkRecord ((dag.get (newNode (pjoin bs.1 bs.2))).1) l) l))
        = Except.ok dag' := h
    by_cases hb : (pjoin bs.1 bs.2 == dest) = true
    · rw [show mkLink cmd (pjoin bs.1 bs.2) dest = .error .cycle from by simp [mkLink, hb]] at h'
      exact Except.noConfusion h'
    · have hb' : (pjoin bs.1 bs.2 == dest) = false := Bool.eq_false_iff.mpr hb
      rw [show mkLink cmd (pjoin bs.1 bs.2) dest = .ok
          { cmd_name := cmd.name, cmd_hash := cmd.hash, src := pjoin bs.1 bs.2, dest := dest }
        from by simp [mkLink, hb']] at h'
      have h2 : inputsFold cmd dest rest
          (addDlinkRecord (addLinkRecord ((dag.get (newNode (pjoin bs.1 bs.2))).1)
              { cmd_name := cmd.name, cmd_hash := cmd.hash, src := pjoin bs.1 bs.2, dest := dest })
            { cmd_name := cmd.name, cmd_hash := cmd.hash, src := pjoin bs.1 bs.2, dest := dest })
          = .ok dag' := h'
      obtain ⟨mono, hrest⟩ := ih _ dag' h2
      obtain ⟨n0, hn0⟩ := pick_get_self dag (pjoin bs.1 bs.2)
      have hedge := mono _ _ (edge_addDlinkRecord _ (edge_new_addLinkRecord hn0))
      refine ⟨?_, ?_⟩
      · intro p q hpq
        exact mono p q (edge_addDlinkRecord _ (edge_addLinkRecord _ (edge_get _ hpq)))
      · intro cs hcs
        rcases List.mem_cons.mp hcs with rfl | hcs'
        · exact hedge
        · exact hrest cs hcs'

theorem buildStep_edges {dag : DAG} {i : Nat} {de : Desc} {dag' : DAG}
    (h : buildStep dag i de = .ok dag') :
    (∀ p q, Edge dag p q → Edge dag' p q) ∧
    (∀ bs ∈ de.sources ++ de.inputs, Edge dag' (pjoin bs.1 bs.2) de.dest) := by
  rcases hget : dag.get (newNode de.dest) with ⟨dag0, m⟩
  have hdag0 : (dag.get (newNode de.dest)).1 = dag0 := by rw [hget]
  unfold buildStep at h
  rw [hget] at h
  cases hm : m.production.isSome with
  | true => simp [hm] at h
  | false =>
    simp only [hm, Bool.false_eq_true, if_false] at h
    rcases hs2 : sourcesFold de.cmd de.dest de.sources
        (dag0.modify de.dest (fun n => { n with production := some de.cmd })) with e | dag2
    · rw [hs2] at h; exact Except.noConfusion h
    · rw [hs2] at h
      simp only [] at h
      rcases hs3 : inputsFold de.cmd de.dest de.inputs dag2 with e | dag3
      · rw [hs3] at h; exact Except.noConfusion h
      · rw [hs3] at h
        simp only [] at h
        injection h with he
        subst he
        obtain ⟨mono2, hsrc⟩ := sourcesFold_edges de.cmd de.dest de.sources _ dag2 hs2
        obtain ⟨mono3, hinp⟩ := inputsFold_edges de.cmd de.dest de.inputs dag2 dag3 hs3
        constructor
        · intro p q hpq
          apply edge_modify de.dest (fun n => { n with index := i }) (fun _ => rfl)
            (fun n x hx => hx)
          apply mono3
          apply mono2
          apply edge_modify de.dest (fun n => { n with production := some de.cmd })
            (fun _ => rfl) (fun n x hx => hx)
          rw [← hdag0]
          exact edge_get (newNode de.dest) hpq
        · intro bs hbs
          apply edge_modify de.dest (fun n => { n with index := i }) (fun _ => rfl)
            (fun n x hx => hx)
          rcases List.mem_append.mp hbs with h1 | h2
          · exact mono3 _ _ (hsrc bs h1)
          · exact hinp bs h2

theorem buildDag_edges :
    ∀ (descs : List Desc) (dag : DAG) (i : Nat) (dag' : DAG),
      buildDag descs dag i = .ok dag' →
      (∀ p q, Edge dag p q → Edge dag' p q) ∧
      (∀ de ∈ descs, ∀ bs ∈ de.sources ++ de.inputs, Edge dag' (pjoin bs.1 bs.2) de.dest) := by
  intro descs
  induction descs with
  | nil =>
    intro dag i dag' h
    have h' : (Except.ok dag : Except BuildErr DAG) = .ok dag' := h
    injection h' with he
    subst he
    exact ⟨fun p q hh => hh, fun de hde => absurd hde (List.not_mem_nil de)⟩
  | cons de ds ih =>
    intro dag i dag' h
    have h' : (match buildStep dag i de with
      | Except.error e => Except.error e
      | Except.ok dag1 => buildDag ds dag1 (i + 1)) = Except.ok dag' := h
    rcases hbs : buildStep dag i de with e | dag1
    · rw [hbs] at h'; exact Except.noConfusion h'
    · rw [hbs] at h'
      have h2 : buildDag ds dag1 (i + 1) = .ok dag' := h'
      obtain ⟨mono1, hnew⟩ := buildStep_edges hbs
      obtain ⟨mono2, hrest⟩ := ih dag1 (i + 1) dag' h2
      refine ⟨fun p q hpq => mono2 p q (mono1 p q hpq), ?_⟩
      intro dd hdd bs hbs'
      rcases List.mem_cons.mp hdd with rfl | hdd'
      · exact mono2 _ _ (hnew bs hbs')
      · exact hrest dd hdd' bs hbs'

/-- C7 (amended): provided no two resolved descriptors share an output
path (otherwise the descriptor-ordered DuplicateOutput error can preempt
the cycle error), `to_dag` (a) never returns a DAG containing a directed
cycle, and (b) fails with the CycleDetected error whenever the resolved
rule set has a self-loop or the resolved dependency graph a directed
cycle. -/
theorem c7_cycle_rejection (fsGlob : String → String → List String) (rules : List Rule)
    (hnodup : hasDupB ((resolve fsGlob rules).map Desc.dest) = false) :
    (∀ d, to_dag fsGlob rules = .ok d → Acyclic d) ∧
    ((anySelfLoop (resolve fsGlob rules) = true ∨
        ∃ p, Relation.TransGen (EdgeRes (resolve fsGlob rules)) p p) →
      to_dag fsGlob rules = .error .cycle) := by
  constructor
  · intro d hok
    unfold to_dag at hok
    rcases hbd : buildDag (resolve fsGlob rules) {} 0 with e | dag
    · rw [hbd] at hok; exact Except.noConfusion hok
    · rw [hbd] at hok
      simp only [] at hok
      by_cases hc : dag.hasCycles = true
      · rw [if_pos hc] at hok; exact Except.noConfusion hok
      · rw [if_neg hc] at hok
        injection hok with he
        subst he
        exact hasCycles_false_acyclic (Bool.eq_false_iff.mpr hc)
  · intro hcyc
    by_cases hsl : anySelfLoop (resolve fsGlob rules) = true
    · have hbd := buildDag_loop (resolve fsGlob rules) {} 0 (fun de _ => rfl) hnodup hsl
      unfold to_dag
      rw [hbd]
    · have hsl' : anySelfLoop (resolve fsGlob rules) = false := Bool.eq_false_iff.mpr hsl
      rcases hcyc with h1 | ⟨p, hcy⟩
      · exact absurd h1 hsl
      · obtain ⟨dag, hok⟩ := buildDag_ok (resolve fsGlob rules) {} 0 hsl'
          (fun de _ => rfl) hnodup
        obtain ⟨_, hedges⟩ := buildDag_edges (resolve fsGlob rules) {} 0 dag hok
        have hcyE : Relation.TransGen (Edge dag) p p := by
          refine Relation.TransGen.mono ?_ hcy
          intro a b hab
          obtain ⟨de, hde, rfl, bs, hbs, rfl⟩ := hab
          exact hedges de hde bs hbs
        have hc : dag.hasCycles = true := by
          cases hcv : dag.hasCycles with
          | true => rfl
          | false => exact absurd hcyE (hasCycles_false_acyclic hcv p)
        unfold to_dag
        rw [hok]
        simp [hc]

/-- Witness for `c7_cycle_rejection`: the Scenario A rule set
(`test_dag_self_loop`), a single `cat` rule that reads its own output. -/
theorem c7_cycle_rejection_witness :
    hasDupB ((resolve noFsGlob [{ cmd := catCmd "a", inputs := [("", "a")] }]).map Desc.dest)
        = false ∧
    anySelfLoop (resolve noFsGlob [{ cmd := catCmd "a", inputs := [("", "a")] }]) = true ∧
    to_dag noFsGlob [{ cmd := catCmd "a", inputs := [("", "a")] }] = .error .cycle :=
  ⟨by decide, by decide,
    (c7_cycle_rejection noFsGlob [{ cmd := catCmd "a", inputs := [("", "a")] }]
      (by decide)).2 (.inl (by decide))⟩


/-! ### C4: the serialization round trip -/

theorem hasDupB_eq_false {l : List String} (h : hasDupB l = false) : l.Nodup := by
  induction l with
  | nil => exact List.nodup_nil
  | cons x xs ih =>
    unfold hasDupB at h
    rcases Bool.or_eq_false_iff.mp h with ⟨h1, h2⟩
    refine List.nodup_cons.mpr ⟨?_, ih h2⟩
    intro hm
    have hc : xs.contains x = true := List.elem_eq_true_of_mem hm
    rw [hc] at h1
    cases h1

theorem splitNl_nf {l : List Char} (h : '\n' ∉ l) : splitNlChars l = [l] := by
  induction l with
  | nil => rfl
  | cons c cs ih =>
    have hc : ¬ c = '\n' := fun hh => h (hh ▸ List.mem_cons_self c cs)
    have ih' := ih (fun hm => h (List.mem_cons_of_mem c hm))
    simp only [splitNlChars, ih', if_neg hc]

theorem splitNl_join :
    ∀ (ls : List (List Char)), (∀ l ∈ ls, '\n' ∉ l) → ls ≠ [] →
      splitNlChars (joinNlChars ls) = ls := by
  intro ls
  induction ls with
  | nil => intro _ hne; exact absurd rfl hne
  | cons l ls ih =>
    intro h _
    cases ls with
    | nil => exact splitNl_nf (h l (List.mem_cons_self l []))
    | cons l2 t =>
      show splitNlChars (l ++ '\n' :: joinNlChars (l2 :: t)) = l :: l2 :: t
      rw [splitNl_append (h l (List.mem_cons_self l (l2 :: t)))]
      rw [ih (fun x hx => h x (List.mem_cons_of_mem l hx)) (by simp)]

theorem linesOf_join (ls : List String) (h : ∀ s ∈ ls, '\n' ∉ s.toList) (hne : ls ≠ []) :
    linesOf ⟨joinNlChars (ls.map String.toList)⟩ = ls := by
  unfold linesOf
  have : (⟨joinNlChars (ls.map String.toList)⟩ : String).toList
      = joinNlChars (ls.map String.toList) := rfl
  rw [this, splitNl_join (ls.map String.toList)
    (by intro x hx; obtain ⟨s, hs, rfl⟩ := List.mem_map.mp hx; exact h s hs)
    (by intro hh; exact hne (List.map_eq_nil_iff.mp hh))]
  rw [List.map_map]
  exact List.map_id'' (fun _ => rfl) ls

theorem digitChar_spec {k : Nat} (h : k < 10) :
    isDigitChar (Nat.digitChar k) = true ∧ (Nat.digitChar k).toNat = 48 + k := by
  rcases k with _|_|_|_|_|_|_|_|_|_|k
  all_goals first
  | exact ⟨by decide, by decide⟩
  | omega

theorem digitChar_ne_ws (k : Nat) : Nat.digitChar k ≠ ' ' ∧ Nat.digitChar k ≠ '\n' := by
  by_cases hk : k < 16
  · rcases k with _|_|_|_|_|_|_|_|_|_|_|_|_|_|_|_|k
    all_goals first
    | exact ⟨by decide, by decide⟩
    | omega
  · have hstar : Nat.digitChar k = '*' := by
      unfold Nat.digitChar
      repeat rw [if_neg (by omega)]
    rw [hstar]
    exact ⟨by decide, by decide⟩

theorem natDigitsAux_all :
    ∀ (fuel n : Nat), ∀ c ∈ natDigitsAux fuel n, isDigitChar c = true := by
  intro fuel
  induction fuel with
  | zero => intro n c hc; cases hc
  | succ fuel ih =>
    intro n c hc
    unfold natDigitsAux at hc
    by_cases hn : n < 10
    · rw [if_pos hn] at hc
      rcases List.mem_cons.mp hc with rfl | hc'
      · exact (digitChar_spec hn).1
      · cases hc'
    · rw [if_neg hn] at hc
      rcases List.mem_append.mp hc with h1 | h2
      · exact ih (n / 10) c h1
      · rcases List.mem_cons.mp h2 with rfl | hc'
        · exact (digitChar_spec (Nat.mod_lt n (by omega))).1
        · cases hc'

theorem natDigitsAux_ne_nil {fuel n : Nat} (h : n < fuel) : natDigitsAux fuel n ≠ [] := by
  cases fuel with
  | zero => omega
  | succ fuel =>
    unfold natDigitsAux
    by_cases hn : n < 10
    · rw [if_pos hn]; simp
    · rw [if_neg hn]; simp

theorem pyNatAcc_append :
    ∀ (l1 l2 : List Char) (acc : Nat),
      pyNatAcc acc (l1 ++ l2) = (pyNatAcc acc l1).bind (fun m => pyNatAcc m l2) := by
  intro l1
  induction l1 with
  | nil => intro l2 acc; rfl
  | cons c cs ih =>
    intro l2 acc
    have ecomp : ∀ (t : List Char) (a : Nat), pyNatAcc a (c :: t)
        = if isDigitChar c = true then pyNatAcc (a * 10 + (c.toNat - 48)) t else none :=
      fun t a => rfl
    rw [List.cons_append, ecomp, ecomp]
    by_cases hc : isDigitChar c = true
    · rw [if_pos hc, if_pos hc]
      exact ih l2 _
    · rw [if_neg hc, if_neg hc]
      rfl

theorem pyNatAcc_digitsAux :
    ∀ (fuel n : Nat), n < fuel → pyNatAcc 0 (natDigitsAux fuel n) = some n := by
  intro fuel
  induction fuel with
  | zero => intro n h; omega
  | succ fuel ih =>
    intro n h
    unfold natDigitsAux
    by_cases hn : n < 10
    · rw [if_pos hn]
      show pyNatAcc 0 [Nat.digitChar n] = some n
      unfold pyNatAcc
      rw [if_pos (digitChar_spec hn).1]
      show pyNatAcc (0 * 10 + ((Nat.digitChar n).toNat - 48)) [] = some n
      rw [(digitChar_spec hn).2]
      show some (0 * 10 + (48 + n - 48)) = some n
      congr 1
      omega
    · rw [if_neg hn]
      rw [pyNatAcc_append]
      have hdiv : n / 10 < fuel := by
        have h1 : n / 10 < n := Nat.div_lt_self (by omega) (by omega)
        omega
      rw [ih (n / 10) hdiv]
      have hmod : n % 10 < 10 := Nat.mod_lt n (by omega)
      show pyNatAcc (n / 10) [Nat.digitChar (n % 10)] = some n
      unfold pyNatAcc
      rw [if_pos (digitChar_spec hmod).1]
      show pyNatAcc (n / 10 * 10 + ((Nat.digitChar (n % 10)).toNat - 48)) [] = some n
      rw [(digitChar_spec hmod).2]
      show some (n / 10 * 10 + (48 + n % 10 - 48)) = some n
      congr 1
      omega

theorem digit_ne_dash {c : Char} (h : isDigitChar c = true) : c ≠ '-' := by
  rintro rfl
  exact absurd h (by decide)

theorem pyInt?_natToString (n : Nat) : pyInt? (natToString n) = some (Int.ofNat n) := by
  unfold pyInt? natToString
  have htl : (⟨natDigitsAux (n + 1) n⟩ : String).toList = natDigitsAux (n + 1) n := rfl
  rw [htl]
  cases hL : natDigitsAux (n + 1) n with
  | nil => exact absurd hL (natDigitsAux_ne_nil (by omega))
  | cons c cs =>
    have hcd : isDigitChar c = true :=
      natDigitsAux_all (n + 1) n c (by rw [hL]; exact List.mem_cons_self c cs)
    simp only []
    rw [if_neg (digit_ne_dash hcd)]
    rw [← hL, pyNatAcc_digitsAux (n + 1) n (by omega)]
    rfl

theorem natToString_digits : ∀ c ∈ (natToString n).toList, isDigitChar c = true := by
  intro c hc
  exact natDigitsAux_all (n + 1) n c hc

theorem encodeChar_ws (c : Char) : ∀ x ∈ encodeChar c, x ≠ ' ' ∧ x ≠ '\n' := by
  intro x hx
  unfold encodeChar at hx
  by_cases h : c = ' ' ∨ c = '\n' ∨ c = '\\'
  · rw [if_pos h] at hx
    rcases List.mem_cons.mp hx with rfl | hx'
    · exact ⟨by decide, by decide⟩
    rcases List.mem_cons.mp hx' with rfl | hx''
    · exact ⟨by decide, by decide⟩
    rcases List.mem_cons.mp hx'' with rfl | hx3
    · exact digitChar_ne_ws _
    rcases List.mem_cons.mp hx3 with rfl | hx4
    · exact digitChar_ne_ws _
    · cases hx4
  · rw [if_neg h] at hx
    rcases List.mem_cons.mp hx with rfl | hx'
    · push_neg at h
      exact ⟨h.1, h.2.1⟩
    · cases hx'

theorem strEncodeChars_ws : ∀ (l : List Char), ∀ x ∈ strEncodeChars l, x ≠ ' ' ∧ x ≠ '\n' := by
  intro l
  induction l with
  | nil => intro x hx; cases hx
  | cons c cs ih =>
    intro x hx
    unfold strEncodeChars at hx
    rcases List.mem_append.mp hx with h1 | h2
    · exact encodeChar_ws c x h1
    · exact ih x h2

theorem strDecode_strEncode : ∀ (l : List Char), strDecodeChars (strEncodeChars l) = l := by
  intro l
  induction l with
  | nil => rfl
  | cons c cs ih =>
    show strDecodeChars (encodeChar c ++ strEncodeChars cs) = c :: cs
    by_cases h : c = ' ' ∨ c = '\n' ∨ c = '\\'
    · rw [show encodeChar c = ['\\', 'x', Nat.digitChar (c.toNat / 16),
          Nat.digitChar (c.toNat % 16)] from by unfold encodeChar; rw [if_pos h]]
      rcases h with rfl | rfl | rfl
      · show strDecodeChars ('\\' :: 'x' :: '2' :: '0' :: strEncodeChars cs) = ' ' :: cs
        have hstep : strDecodeChars ('\\' :: 'x' :: '2' :: '0' :: strEncodeChars cs)
            = Char.ofNat (16 * hexVal '2' + hexVal '0') :: strDecodeChars (strEncodeChars cs) := rfl
        rw [hstep, ih]
        rfl
      · show strDecodeChars ('\\' :: 'x' :: '0' :: 'a' :: strEncodeChars cs) = '\n' :: cs
        have hstep : strDecodeChars ('\\' :: 'x' :: '0' :: 'a' :: strEncodeChars cs)
            = Char.ofNat (16 * hexVal '0' + hexVal 'a') :: strDecodeChars (strEncodeChars cs) := rfl
        rw [hstep, ih]
        rfl
      · show strDecodeChars ('\\' :: 'x' :: '5' :: 'c' :: strEncodeChars cs) = '\\' :: cs
        have hstep : strDecodeChars ('\\' :: 'x' :: '5' :: 'c' :: strEncodeChars cs)
            = Char.ofNat (16 * hexVal '5' + hexVal 'c') :: strDecodeChars (strEncodeChars cs) := rfl
        rw [hstep, ih]
        rfl
    · rw [show encodeChar c = [c] from by unfold encodeChar; rw [if_neg h]]
      have hbs : ¬ c = '\\' := fun hh => h (.inr (.inr hh))
      show strDecodeChars (c :: strEncodeChars cs) = c :: cs
      rw [strDecodeChars.eq_def]
      simp only []
      rw [if_neg hbs]
      rw [ih]

theorem str_decode_encode (s : String) : str_decode (str_encode s) = s := by
  unfold str_decode str_encode
  have h1 : (⟨strEncodeChars s.toList⟩ : String).toList = strEncodeChars s.toList := rfl
  rw [h1, strDecode_strEncode]
  rfl

theorem idxOf_get? [BEq α] [LawfulBEq α] {x : α} :
    ∀ (l : List α), x ∈ l → l.get? (idxOf x l) = some x := by
  intro l
  induction l with
  | nil => intro h; cases h
  | cons y ys ih =>
    intro h
    unfold idxOf
    by_cases hy : (y == x) = true
    · rw [if_pos hy]
      have : y = x := by simpa using hy
      rw [this]
      rfl
    · rw [if_neg hy]
      have hx : x ∈ ys := by
        rcases List.mem_cons.mp h with rfl | hm
        · exact absurd (by simp) hy
        · exact hm
      show ys.get? (idxOf x ys) = some x
      exact ih hx

theorem ltChars_asymm : ∀ (a b : List Char), ltChars a b = true → ltChars b a = false := by
  intro a
  induction a with
  | nil =>
    intro b h
    cases b with
    | nil => cases h
    | cons c cs => rfl
  | cons x xs ih =>
    intro b h
    cases b with
    | nil => cases h
    | cons y ys =>
      unfold ltChars at h ⊢
      rcases Bool.or_eq_true_iff.mp h with h1 | h2
      · rw [Nat.blt_eq] at h1
        rw [Bool.or_eq_false_iff]
        constructor
        · cases hb : Nat.blt y.toNat x.toNat with
          | false => rfl
          | true => rw [Nat.blt_eq] at hb; omega
        · rw [Bool.and_eq_false_iff]
          left
          have : ¬ y.toNat = x.toNat := by omega
          simpa using this
      · rw [Bool.and_eq_true] at h2
        obtain ⟨he, hr⟩ := h2
        have hxy : x.toNat = y.toNat := by simpa using he
        rw [Bool.or_eq_false_iff]
        constructor
        · cases hb : Nat.blt y.toNat x.toNat with
          | false => rfl
          | true => rw [Nat.blt_eq] at hb; omega
        · rw [Bool.and_eq_false_iff]
          right
          exact ih ys hr

theorem strLe_total (a b : String) : strLe a b = true ∨ strLe b a = true := by
  unfold strLe strLt
  cases h : ltChars b.toList a.toList with
  | false => left; rfl
  | true =>
    right
    rw [ltChars_asymm _ _ h]
    rfl

theorem insertBy_chain {le : α → α → Bool}
    (total : ∀ a b, le a b = true ∨ le b a = true) (x : α) :
    ∀ (l : List α), List.Chain' (fun a b => le a b = true) l →
      List.Chain' (fun a b => le a b = true) (insertBy le x l) := by
  intro l
  induction l with
  | nil => intro _; simp [insertBy]
  | cons y ys ih =>
    intro h
    unfold insertBy
    by_cases hxy : le x y = true
    · rw [if_pos hxy]
      exact List.Chain'.cons hxy h
    · rw [if_neg hxy]
      have hyx : le y x = true := by
        rcases total x y with h1 | h2
        · exact absurd h1 hxy
        · exact h2
      have hys : List.Chain' (fun a b => le a b = true) ys := h.tail
      refine List.chain'_cons'.mpr ⟨?_, ih hys⟩
      intro z hz
      cases ys with
      | nil =>
        have hxz : x = z := by simpa [insertBy] using hz
        rw [← hxz]
        exact hyx
      | cons w ws =>
        unfold insertBy at hz
        by_cases hxw : le x w = true
        · rw [if_pos hxw] at hz
          have hxz : x = z := by simpa using hz
          rw [← hxz]
          exact hyx
        · rw [if_neg hxw] at hz
          have hwz : w = z := by simpa using hz
          rw [← hwz]
          exact (List.chain'_cons.mp h).1

theorem sortBy_chain {le : α → α → Bool}
    (total : ∀ a b, le a b = true ∨ le b a = true) :
    ∀ (l : List α), List.Chain' (fun a b => le a b = true) (sortBy le l) := by
  intro l
  induction l with
  | nil => simp [sortBy]
  | cons x xs ih => exact insertBy_chain total x _ ih

theorem sortBy_of_chain {le : α → α → Bool} :
    ∀ (l : List α), List.Chain' (fun a b => le a b = true) l → sortBy le l = l := by
  intro l
  induction l with
  | nil => intro _; rfl
  | cons x xs ih =>
    intro h
    show insertBy le x (sortBy le xs) = x :: xs
    rw [ih h.tail]
    cases xs with
    | nil => rfl
    | cons y ys =>
      show insertBy le x (y :: ys) = x :: y :: ys
      unfold insertBy
      rw [if_pos (List.chain'_cons.mp h).1]

theorem sortBy_idem {le : α → α → Bool}
    (total : ∀ a b, le a b = true ∨ le b a = true) (l : List α) :
    sortBy le (sortBy le l) = sortBy le l :=
  sortBy_of_chain _ (sortBy_chain total l)

theorem insertBy_map_path (n : Node) :
    ∀ (ns : List Node),
      (insertBy (fun a b => strLe a.path b.path) n ns).map Node.path
        = insertBy strLe n.path (ns.map Node.path) := by
  intro ns
  induction ns with
  | nil => rfl
  | cons y ys ih =>
    show (if strLe n.path y.path then n :: y :: ys
        else y :: insertBy (fun a b => strLe a.path b.path) n ys).map Node.path
      = if strLe n.path y.path then n.path :: y.path :: ys.map Node.path
        else y.path :: insertBy strLe n.path (ys.map Node.path)
    by_cases h : strLe n.path y.path = true
    · rw [if_pos h, if_pos h]
      rfl
    · rw [if_neg h, if_neg h, List.map_cons, ih]

theorem sortBy_map_path :
    ∀ (ns : List Node),
      (sortBy (fun a b => strLe a.path b.path) ns).map Node.path
        = sortBy strLe (ns.map Node.path) := by
  intro ns
  induction ns with
  | nil => rfl
  | cons n ns ih =>
    show (insertBy (fun a b => strLe a.path b.path) n
        (sortBy (fun a b => strLe a.path b.path) ns)).map Node.path = _
    rw [insertBy_map_path, ih]
    rfl

theorem addFirst_mem_of_mem [BEq α] {x y : α} {acc : List α} (h : x ∈ acc) :
    x ∈ addFirst acc y := by
  unfold addFirst
  split
  · exact h
  · exact List.mem_append.mpr (.inl h)

theorem addFirst_mem_self [BEq α] [LawfulBEq α] (y : α) (acc : List α) :
    y ∈ addFirst acc y := by
  unfold addFirst
  split
  · next hc => exact List.mem_of_elem_eq_true hc
  · exact List.mem_append.mpr (.inr (List.mem_cons_self y []))

theorem foldlAdd_mono {x : String × String} :
    ∀ (ls : List Link) (acc : List (String × String)), x ∈ acc →
      x ∈ List.foldl (fun acc l => addFirst acc (l.cmd_name, l.cmd_hash)) acc ls := by
  intro ls
  induction ls with
  | nil => intro acc h; exact h
  | cons l ls ih => intro acc h; exact ih _ (addFirst_mem_of_mem h)

theorem foldlAdd_mem {l : Link} :
    ∀ (ls : List Link) (acc : List (String × String)), l ∈ ls →
      (l.cmd_name, l.cmd_hash) ∈
        List.foldl (fun acc x => addFirst acc (x.cmd_name, x.cmd_hash)) acc ls := by
  intro ls
  induction ls with
  | nil => intro acc h; cases h
  | cons y ys ih =>
    intro acc h
    rcases List.mem_cons.mp h with rfl | h'
    · exact foldlAdd_mono ys _ (addFirst_mem_self _ _)
    · exact ih _ h'

theorem collectCmds_fold_mono {x : String × String} :
    ∀ (ns : List Node) (acc : List (String × String)), x ∈ acc →
      x ∈ ns.foldl (fun acc n =>
        (pySortLinks n.links).foldl (fun acc l => addFirst acc (l.cmd_name, l.cmd_hash)) acc)
        acc := by
  intro ns
  induction ns with
  | nil => intro acc h; exact h
  | cons n ns ih => intro acc h; exact ih _ (foldlAdd_mono _ _ h)

theorem collect_fold_mem {n : Node} {l : Link} (hl : l ∈ n.links) :
    ∀ (ns : List Node) (acc : List (String × String)), n ∈ ns →
      (l.cmd_name, l.cmd_hash) ∈ ns.foldl (fun acc n =>
        (pySortLinks n.links).foldl (fun acc l => addFirst acc (l.cmd_name, l.cmd_hash)) acc)
        acc := by
  intro ns
  induction ns with
  | nil => intro acc hn; cases hn
  | cons m ms ih =>
    intro acc hn
    rcases List.mem_cons.mp hn with rfl | hn'
    · exact collectCmds_fold_mono ms _
        (foldlAdd_mem _ _ (mem_sortBy.mpr hl))
    · exact ih _ hn'

theorem collectCmds_mem {ns : List Node} {n : Node} {l : Link}
    (hn : n ∈ ns) (hl : l ∈ n.links) :
    (l.cmd_name, l.cmd_hash) ∈ collectCmds ns :=
  collect_fold_mem hl ns [] hn

theorem dagPaths_modify (f : Node → Node) (hf : ∀ n, (f n).path = n.path) (d : DAG)
    (p : String) :
    (d.modify p f).nodes.map Node.path = d.nodes.map Node.path := by
  show (d.nodes.map (fun n => if n.path == p then f n else n)).map Node.path = _
  rw [List.map_map]
  apply List.map_congr_left
  intro n _
  by_cases h : n.path = p
  · simp [h, hf]
  · simp [h]

theorem dagPaths_addLinkRecord (d : DAG) (l : Link) :
    (addLinkRecord d l).nodes.map Node.path = d.nodes.map Node.path := by
  show ((d.modify l.src (fun n => { n with links := addLink l n.links })).modify
    l.dest (fun n => { n with rlinks := addLink l n.rlinks })).nodes.map Node.path = _
  rw [dagPaths_modify (fun n => { n with rlinks := addLink l n.rlinks }) (fun _ => rfl),
    dagPaths_modify (fun n => { n with links := addLink l n.links }) (fun _ => rfl)]

theorem dagPaths_addDlinkRecord (d : DAG) (l : Link) :
    (addDlinkRecord d l).nodes.map Node.path = d.nodes.map Node.path := by
  show ((d.modify l.src (fun n => { n with dlinks := addLink l n.dlinks })).modify
    l.dest (fun n => { n with drlinks := addLink l n.drlinks })).nodes.map Node.path = _
  rw [dagPaths_modify (fun n => { n with drlinks := addLink l n.drlinks }) (fun _ => rfl),
    dagPaths_modify (fun n => { n with dlinks := addLink l n.dlinks }) (fun _ => rfl)]

theorem splitSp1Chars_all_ne {l : List Char} (h : ∀ c ∈ l, c ≠ ' ') :
    ∀ (acc : List Char), splitSp1Chars acc l = (acc.reverse ++ l, none) := by
  induction l with
  | nil => intro acc; simp [splitSp1Chars]
  | cons c cs ih =>
    intro acc
    rw [splitSp1Chars_cons_ne (h c (List.mem_cons_self c cs))]
    rw [ih (fun d hd => h d (List.mem_cons_of_mem c hd))]
    simp

theorem natToString_no_space {k : Nat} : ∀ c ∈ (natToString k).toList, c ≠ ' ' :=
  fun c hc => digit_ne_space (.inl (natToString_digits c hc))

theorem natToString_no_nl {k : Nat} : ∀ c ∈ (natToString k).toList, c ≠ '\n' :=
  fun c hc => digit_ne_nl (.inl (natToString_digits c hc))

theorem str_encode_no_space (s : String) : ∀ c ∈ (str_encode s).toList, c ≠ ' ' :=
  fun c hc => (strEncodeChars_ws s.toList c hc).1

theorem str_encode_no_nl (s : String) : ∀ c ∈ (str_encode s).toList, c ≠ '\n' :=
  fun c hc => (strEncodeChars_ws s.toList c hc).2

theorem splitSp2_two {A B : String} (hA : ∀ c ∈ A.toList, c ≠ ' ')
    (hB : ∀ c ∈ B.toList, c ≠ ' ') :
    splitSp2 (⟨A.toList ++ ' ' :: B.toList⟩ : String) = [A, B] := by
  unfold splitSp2
  have htl : (⟨A.toList ++ ' ' :: B.toList⟩ : String).toList = A.toList ++ ' ' :: B.toList := rfl
  rw [htl, splitSp1Chars_no_space hA]
  simp only []
  rw [splitSp1Chars_all_ne hB]
  rfl

theorem splitSp2_three {A B C : String} (hA : ∀ c ∈ A.toList, c ≠ ' ')
    (hB : ∀ c ∈ B.toList, c ≠ ' ') :
    splitSp2 (⟨A.toList ++ ' ' :: (B.toList ++ ' ' :: C.toList)⟩ : String) = [A, B, C] := by
  unfold splitSp2
  have htl : (⟨A.toList ++ ' ' :: (B.toList ++ ' ' :: C.toList)⟩ : String).toList
      = A.toList ++ ' ' :: (B.toList ++ ' ' :: C.toList) := rfl
  rw [htl, splitSp1Chars_no_space hA]
  simp only []
  rw [splitSp1Chars_no_space hB]
  rfl

theorem deserLine_node (st : DState) (j : Nat) (n : Node) :
    deserLine st j ("node " ++ natToString n.links.length ++ " " ++ str_encode n.path)
      = .ok (.cont { st with dag := (st.dag.get (newNode n.path)).1,
                             paths := st.paths ++ [n.path] }) := by
  have htl : ("node " ++ natToString n.links.length ++ " " ++ str_encode n.path).toList
      = "node".toList ++ ' ' :: ((natToString n.links.length).toList
          ++ ' ' :: (str_encode n.path).toList) := by
    simp only [String.toList, String.data_append, List.append_assoc]
    rfl
  have hsplit1 : splitSp1 ("node " ++ natToString n.links.length ++ " " ++ str_encode n.path)
      = ["node", ⟨(natToString n.links.length).toList ++ ' ' :: (str_encode n.path).toList⟩] := by
    unfold splitSp1
    rw [htl, splitSp1Chars_no_space (by decide)]
    rfl
  have hsplit2 : splitSp2 (⟨(natToString n.links.length).toList
        ++ ' ' :: (str_encode n.path).toList⟩ : String)
      = [natToString n.links.length, str_encode n.path] :=
    splitSp2_two (@natToString_no_space n.links.length) (str_encode_no_space n.path)
  unfold deserLine
  rw [hsplit1]
  simp only [hsplit2]
  rw [str_decode_encode]
  rfl

theorem deserLine_func (st : DState) (j : Nat) (name hash : String)
    (hn : ∀ c ∈ name.toList, c ≠ ' ') (hh : ∀ c ∈ hash.toList, c ≠ ' ') :
    deserLine st j ("func " ++ name ++ " " ++ hash)
      = .ok (.cont { st with commands := st.commands ++ [(name, hash)] }) := by
  have htl : ("func " ++ name ++ " " ++ hash).toList
      = "func".toList ++ ' ' :: (name.toList ++ ' ' :: hash.toList) := by
    simp only [String.toList, String.data_append, List.append_assoc]
    rfl
  have hsplit1 : splitSp1 ("func " ++ name ++ " " ++ hash)
      = ["func", ⟨name.toList ++ ' ' :: hash.toList⟩] := by
    unfold splitSp1
    rw [htl, splitSp1Chars_no_space (by decide)]
    rfl
  have hsplit2 : splitSp2 (⟨name.toList ++ ' ' :: hash.toList⟩ : String) = [name, hash] :=
    splitSp2_two hn hh
  unfold deserLine
  rw [hsplit1]
  simp only [hsplit2]
  rfl

theorem parseLinkFields_eval (st : DState) (a b c : Nat) {srcPath destPath : String}
    {cmdPair : String × String}
    (h1 : pyGet? st.paths (Int.ofNat a) = some srcPath)
    (h2 : pyGet? st.paths (Int.ofNat b) = some destPath)
    (h3 : pyGet? st.commands (Int.ofNat c) = some cmdPair)
    (hne : (srcPath == destPath) = false) :
    parseLinkFields st (natToString a ++ " " ++ natToString b ++ " " ++ natToString c)
      = .ok { cmd_name := cmdPair.1, cmd_hash := cmdPair.2, src := srcPath, dest := destPath } := by
  have htl : (natToString a ++ " " ++ natToString b ++ " " ++ natToString c).toList
      = (natToString a).toList ++ ' ' :: ((natToString b).toList ++ ' ' :: (natToString c).toList) := by
    simp only [String.toList, String.data_append, List.append_assoc]
    rfl
  have hsplit2 : splitSp2 (natToString a ++ " " ++ natToString b ++ " " ++ natToString c)
      = [natToString a, natToString b, natToString c] := by
    have hs3 := @splitSp2_three (natToString a) (natToString b) (natToString c)
      (@natToString_no_space a) (@natToString_no_space b)
    have hstr : (⟨(natToString a).toList ++ ' ' :: ((natToString b).toList
        ++ ' ' :: (natToString c).toList)⟩ : String)
        = natToString a ++ " " ++ natToString b ++ " " ++ natToString c :=
      String.ext htl.symm
    rw [hstr] at hs3
    exact hs3
  unfold parseLinkFields
  rw [hsplit2]
  simp only [pyInt?_natToString, Bind.bind, Except.bind, Pure.pure, Except.pure, h1, h2, h3]
  simp only [mkLink, hne, Bool.false_eq_true, if_false]

theorem deserLine_link (st : DState) (j : Nat) (a b c : Nat) {srcPath destPath : String}
    {cmdPair : String × String}
    (h1 : pyGet? st.paths (Int.ofNat a) = some srcPath)
    (h2 : pyGet? st.paths (Int.ofNat b) = some destPath)
    (h3 : pyGet? st.commands (Int.ofNat c) = some cmdPair)
    (hne : (srcPath == destPath) = false) :
    deserLine st j ("link " ++ natToString a ++ " " ++ natToString b ++ " " ++ natToString c)
      = .ok (.cont { st with dag := addLinkRecord st.dag ({ cmd_name := cmdPair.1, cmd_hash := cmdPair.2, src := srcPath, dest := destPath }) }) := by
  have htl : ("link " ++ natToString a ++ " " ++ natToString b ++ " " ++ natToString c).toList
      = "link".toList
        ++ ' ' :: (natToString a ++ " " ++ natToString b ++ " " ++ natToString c).toList := by
    simp only [String.toList, String.data_append, List.append_assoc]
    rfl
  have hsplit1 : splitSp1
        ("link " ++ natToString a ++ " " ++ natToString b ++ " " ++ natToString c)
      = ["link", natToString a ++ " " ++ natToString b ++ " " ++ natToString c] := by
    unfold splitSp1
    rw [htl, splitSp1Chars_no_space (by decide)]
    rfl
  unfold deserLine
  rw [hsplit1]
  simp only [parseLinkFields_eval st a b c h1 h2 h3 hne, Bind.bind, Except.bind]
  rfl

theorem deserLine_dlink (st : DState) (j : Nat) (a b c : Nat) {srcPath destPath : String}
    {cmdPair : String × String}
    (h1 : pyGet? st.paths (Int.ofNat a) = some srcPath)
    (h2 : pyGet? st.paths (Int.ofNat b) = some destPath)
    (h3 : pyGet? st.commands (Int.ofNat c) = some cmdPair)
    (hne : (srcPath == destPath) = false) :
    deserLine st j ("dlink " ++ natToString a ++ " " ++ natToString b ++ " " ++ natToString c)
      = .ok (.cont { st with dag := addDlinkRecord (addLinkRecord st.dag ({ cmd_name := cmdPair.1, cmd_hash := cmdPair.2, src := srcPath, dest := destPath })) ({ cmd_name := cmdPair.1, cmd_hash := cmdPair.2, src := srcPath, dest := destPath }) }) := by
  have htl : ("dlink " ++ natToString a ++ " " ++ natToString b ++ " " ++ natToString c).toList
      = "dlink".toList
        ++ ' ' :: (natToString a ++ " " ++ natToString b ++ " " ++ natToString c).toList := by
    simp only [String.toList, String.data_append, List.append_assoc]
    rfl
  have hsplit1 : splitSp1
        ("dlink " ++ natToString a ++ " " ++ natToString b ++ " " ++ natToString c)
      = ["dlink", natToString a ++ " " ++ natToString b ++ " " ++ natToString c] := by
    unfold splitSp1
    rw [htl, splitSp1Chars_no_space (by decide)]
    rfl
  unfold deserLine
  rw [hsplit1]
  simp only [parseLinkFields_eval st a b c h1 h2 h3 hne, Bind.bind, Except.bind]
  rfl

theorem get?_eq_head_drop : ∀ (l : List α) (i : Nat), l.get? i = (l.drop i).head? := by
  intro l
  induction l with
  | nil => intro i; cases i <;> rfl
  | cons x xs ih =>
    intro i
    cases i with
    | zero => rfl
    | succ i => exact ih i

theorem addFirst_src [BEq α] {x y : α} {acc : List α} (h : x ∈ addFirst acc y) :
    x ∈ acc ∨ x = y := by
  unfold addFirst at h
  split at h
  · exact .inl h
  · rcases List.mem_append.mp h with h1 | h2
    · exact .inl h1
    · rcases List.mem_cons.mp h2 with rfl | h3
      · exact .inr rfl
      · cases h3

theorem foldlAdd_src {x : String × String} :
    ∀ (ls : List Link) (acc : List (String × String)),
      x ∈ List.foldl (fun acc l => addFirst acc (l.cmd_name, l.cmd_hash)) acc ls →
      x ∈ acc ∨ ∃ l ∈ ls, x = (l.cmd_name, l.cmd_hash) := by
  intro ls
  induction ls with
  | nil => intro acc h; exact .inl h
  | cons l ls ih =>
    intro acc h
    rcases ih _ h with h1 | ⟨l', hl', he⟩
    · rcases addFirst_src h1 with h2 | h3
      · exact .inl h2
      · exact .inr ⟨l, List.mem_cons_self l ls, h3⟩
    · exact .inr ⟨l', List.mem_cons_of_mem l hl', he⟩

theorem collectCmds_src {x : String × String} :
    ∀ (ns : List Node) (acc : List (String × String)),
      x ∈ ns.foldl (fun acc n =>
        (pySortLinks n.links).foldl (fun acc l => addFirst acc (l.cmd_name, l.cmd_hash)) acc)
        acc →
      x ∈ acc ∨ ∃ n ∈ ns, ∃ l ∈ n.links, x = (l.cmd_name, l.cmd_hash) := by
  intro ns
  induction ns with
  | nil => intro acc h; exact .inl h
  | cons n ns ih =>
    intro acc h
    rcases ih _ h with h1 | ⟨n', hn', l', hl', he⟩
    · rcases foldlAdd_src _ _ h1 with h2 | ⟨l, hl, he⟩
      · exact .inl h2
      · exact .inr ⟨n, List.mem_cons_self n ns, l, mem_sortBy.mp hl, he⟩
    · exact .inr ⟨n', List.mem_cons_of_mem n hn', l', hl', he⟩

theorem collectCmds_mem_src {x : String × String} {ns : List Node}
    (h : x ∈ collectCmds ns) :
    ∃ n ∈ ns, ∃ l ∈ n.links, x = (l.cmd_name, l.cmd_hash) := by
  rcases collectCmds_src ns [] h with h1 | h2
  · cases h1
  · exact h2

theorem nodePhase :
    ∀ (ns : List Node) (rest : List String) (i : Nat) (st : DState),
      (∀ n ∈ ns, st.dag.pick n.path = none) →
      (ns.map Node.path).Nodup →
      ∃ st', deserLoop ((ns.map (fun n =>
            "node " ++ natToString n.links.length ++ " " ++ str_encode n.path)) ++ rest) i st
          = deserLoop rest (i + ns.length) st' ∧
        st'.dag.nodes = st.dag.nodes ++ ns.map (fun n => newNode n.path) ∧
        st'.paths = st.paths ++ ns.map Node.path ∧
        st'.commands = st.commands := by
  intro ns
  induction ns with
  | nil =>
    intro rest i st _ _
    exact ⟨st, rfl, by simp, by simp, rfl⟩
  | cons n ns ih =>
    intro rest i st hf hnd
    have hfresh_n : st.dag.pick n.path = none := hf n (List.mem_cons_self n ns)
    have hget : st.dag.get (newNode n.path)
        = ({ nodes := st.dag.nodes ++ [newNode n.path] }, newNode n.path) :=
      get_of_pick_none hfresh_n
    have hf' : ∀ m ∈ ns, ((st.dag.get (newNode n.path)).1).pick m.path = none := by
      intro m hm
      rw [hget]
      show ({ nodes := st.dag.nodes ++ [newNode n.path] } : DAG).pick m.path = none
      rw [show ({ nodes := st.dag.nodes ++ [newNode n.path] } : DAG).pick m.path = _ from
        pick_append st.dag.nodes (newNode n.path) m.path]
      have hold : ({ nodes := st.dag.nodes } : DAG).pick m.path = none :=
        hf m (List.mem_cons_of_mem n hm)
      rw [hold]
      have hne : ¬ n.path = m.path := by
        intro he
        have : n.path ∈ ns.map Node.path := by
          rw [he]
          exact List.mem_map_of_mem Node.path hm
        exact (List.nodup_cons.mp hnd).1 this
      simp [newNode, hne]
    obtain ⟨st', hrun, hnodes, hpaths, hcmds⟩ := ih rest (i + 1)
      ⟨(st.dag.get (newNode n.path)).1, st.paths ++ [n.path], st.commands⟩
      hf' (List.nodup_cons.mp hnd).2
    refine ⟨st', ?_, ?_, ?_, hcmds⟩
    · have hstep : deserLoop (((n :: ns).map (fun n =>
            "node " ++ natToString n.links.length ++ " " ++ str_encode n.path)) ++ rest) i st
          = match deserLine st i ("node " ++ natToString n.links.length ++ " " ++ str_encode n.path) with
            | .error e => .error e
            | .ok (.cont st2) => deserLoop ((ns.map (fun n =>
                "node " ++ natToString n.links.length ++ " " ++ str_encode n.path)) ++ rest) (i + 1) st2
            | .ok (.earlyReturn d) => .ok d := rfl
      rw [hstep, deserLine_node st i n]
      show deserLoop ((ns.map (fun n =>
          "node " ++ natToString n.links.length ++ " " ++ str_encode n.path)) ++ rest) (i + 1)
          ⟨(st.dag.get (newNode n.path)).1, st.paths ++ [n.path], st.commands⟩
        = deserLoop rest (i + (n :: ns).length) st'
      rw [show i + (n :: ns).length = (i + 1) + ns.length from by simp; omega]
      exact hrun
    · rw [hnodes]
      show ((st.dag.get (newNode n.path)).1).nodes ++ _ = _
      rw [hget]
      show (st.dag.nodes ++ [newNode n.path]) ++ ns.map (fun n => newNode n.path)
        = st.dag.nodes ++ (n :: ns).map (fun n => newNode n.path)
      simp
    · rw [hpaths]
      show (st.paths ++ [n.path]) ++ ns.map Node.path = st.paths ++ (n :: ns).map Node.path
      simp

theorem funcPhase :
    ∀ (cs : List (String × String)) (rest : List String) (i : Nat) (st : DState),
      (∀ c ∈ cs, (∀ ch ∈ c.1.toList, ch ≠ ' ') ∧ (∀ ch ∈ c.2.toList, ch ≠ ' ')) →
      ∃ st', deserLoop ((cs.map (fun c => "func " ++ c.1 ++ " " ++ toHex c.2)) ++ rest) i st
          = deserLoop rest (i + cs.length) st' ∧
        st'.dag = st.dag ∧ st'.paths = st.paths ∧ st'.commands = st.commands ++ cs := by
  intro cs
  induction cs with
  | nil =>
    intro rest i st _
    exact ⟨st, rfl, rfl, rfl, by simp⟩
  | cons c cs ih =>
    intro rest i st hws
    have hc := hws c (List.mem_cons_self c cs)
    obtain ⟨st', hrun, hdag, hpaths, hcmds⟩ := ih rest (i + 1)
      ⟨st.dag, st.paths, st.commands ++ [(c.1, c.2)]⟩
      (fun x hx => hws x (List.mem_cons_of_mem c hx))
    refine ⟨st', ?_, hdag, hpaths, ?_⟩
    · have hstep : deserLoop (((c :: cs).map (fun c => "func " ++ c.1 ++ " " ++ toHex c.2)) ++ rest) i st
          = match deserLine st i ("func " ++ c.1 ++ " " ++ toHex c.2) with
            | .error e => .error e
            | .ok (.cont st2) => deserLoop ((cs.map (fun c =>
                "func " ++ c.1 ++ " " ++ toHex c.2)) ++ rest) (i + 1) st2
            | .ok (.earlyReturn d) => .ok d := rfl
      rw [hstep]
      rw [show ("func " ++ c.1 ++ " " ++ toHex c.2) = ("func " ++ c.1 ++ " " ++ c.2) from rfl]
      rw [deserLine_func st i c.1 c.2 hc.1 hc.2]
      show deserLoop ((cs.map (fun c => "func " ++ c.1 ++ " " ++ toHex c.2)) ++ rest) (i + 1)
          ⟨st.dag, st.paths, st.commands ++ [(c.1, c.2)]⟩
        = deserLoop rest (i + (c :: cs).length) st'
      rw [show i + (c :: cs).length = (i + 1) + cs.length from by simp; omega]
      exact hrun
    · rw [hcmds]
      show (st.commands ++ [(c.1, c.2)]) ++ cs = st.commands ++ (c :: cs)
      rw [show ((c.1, c.2) : String × String) = c from rfl]
      simp

theorem linkLinesInner (keys : List String) (cmds : List (String × String))
    (P : Link → Bool) (i : Nat) (srcPath : String) :
    ∀ (ls : List Link) (rest : List String) (j : Nat) (st : DState),
      st.paths = keys → st.commands = cmds →
      keys.get? i = some srcPath →
      (∀ l ∈ ls, (srcPath == l.dest) = false ∧
        keys.get? (idxOf l.dest keys) = some l.dest ∧
        cmds.get? (idxOf (l.cmd_name, l.cmd_hash) cmds) = some (l.cmd_name, l.cmd_hash)) →
      ∃ st', deserLoop ((ls.map (fun l => (if P l then "dlink " else "link ")
            ++ natToString i ++ " " ++ natToString (idxOf l.dest keys) ++ " "
            ++ natToString (idxOf (l.cmd_name, l.cmd_hash) cmds))) ++ rest) j st
          = deserLoop rest (j + ls.length) st' ∧
        st'.paths = st.paths ∧ st'.commands = st.commands ∧
        st'.dag.nodes.map Node.path = st.dag.nodes.map Node.path := by
  intro ls
  induction ls with
  | nil =>
    intro rest j st _ _ _ _
    exact ⟨st, rfl, rfl, rfl, rfl⟩
  | cons l ls ih =>
    intro rest j st hp hc hsrc hl
    obtain ⟨hne, hdest, hcmd⟩ := hl l (List.mem_cons_self l ls)
    have h1 : pyGet? st.paths (Int.ofNat i) = some srcPath := by
      rw [hp]; exact hsrc
    have h2 : pyGet? st.paths (Int.ofNat (idxOf l.dest keys)) = some l.dest := by
      rw [hp]; exact hdest
    have h3 : pyGet? st.commands (Int.ofNat (idxOf (l.cmd_name, l.cmd_hash) cmds))
        = some (l.cmd_name, l.cmd_hash) := by
      rw [hc]; exact hcmd
    have hmap : ((l :: ls).map (fun l => (if P l then "dlink " else "link ")
          ++ natToString i ++ " " ++ natToString (idxOf l.dest keys) ++ " "
          ++ natToString (idxOf (l.cmd_name, l.cmd_hash) cmds))) ++ rest
        = ((if P l then "dlink " else "link ")
            ++ natToString i ++ " " ++ natToString (idxOf l.dest keys) ++ " "
            ++ natToString (idxOf (l.cmd_name, l.cmd_hash) cmds))
          :: (((ls.map (fun l => (if P l then "dlink " else "link ")
            ++ natToString i ++ " " ++ natToString (idxOf l.dest keys) ++ " "
            ++ natToString (idxOf (l.cmd_name, l.cmd_hash) cmds))) ++ rest)) := rfl
    cases hP : P l with
    | true =>
      obtain ⟨st', hrun, hp1, hc1, hd1⟩ := ih rest (j + 1)
        ⟨addDlinkRecord (addLinkRecord st.dag ({ cmd_name := (l.cmd_name, l.cmd_hash).1, cmd_hash := (l.cmd_name, l.cmd_hash).2, src := srcPath, dest := l.dest })) ({ cmd_name := (l.cmd_name, l.cmd_hash).1, cmd_hash := (l.cmd_name, l.cmd_hash).2, src := srcPath, dest := l.dest }), st.paths, st.commands⟩
        hp hc hsrc (fun x hx => hl x (List.mem_cons_of_mem l hx))
      refine ⟨st', ?_, hp1, hc1, ?_⟩
      · rw [hmap, if_pos hP]
        have hstep : deserLoop (("dlink "
              ++ natToString i ++ " " ++ natToString (idxOf l.dest keys) ++ " "
              ++ natToString (idxOf (l.cmd_name, l.cmd_hash) cmds))
            :: (((ls.map (fun l => (if P l then "dlink " else "link ")
              ++ natToString i ++ " " ++ natToString (idxOf l.dest keys) ++ " "
              ++ natToString (idxOf (l.cmd_name, l.cmd_hash) cmds))) ++ rest))) j st
            = match deserLine st j ("dlink "
                ++ natToString i ++ " " ++ natToString (idxOf l.dest keys) ++ " "
                ++ natToString (idxOf (l.cmd_name, l.cmd_hash) cmds)) with
              | .error e => .error e
              | .ok (.cont st2) => deserLoop (((ls.map (fun l => (if P l then "dlink " else "link ")
                  ++ natToString i ++ " " ++ natToString (idxOf l.dest keys) ++ " "
                  ++ natToString (idxOf (l.cmd_name, l.cmd_hash) cmds))) ++ rest)) (j + 1) st2
              | .ok (.earlyReturn d) => .ok d := rfl
        rw [hstep, deserLine_dlink st j i (idxOf l.dest keys)
          (idxOf (l.cmd_name, l.cmd_hash) cmds) h1 h2 h3 hne]
        rw [show j + (l :: ls).length = (j + 1) + ls.length from by simp; omega]
        exact hrun
      · rw [hd1]
        show (addDlinkRecord (addLinkRecord st.dag _) _).nodes.map Node.path = _
        rw [dagPaths_addDlinkRecord, dagPaths_addLinkRecord]
    | false =>
      obtain ⟨st', hrun, hp1, hc1, hd1⟩ := ih rest (j + 1)
        ⟨addLinkRecord st.dag ({ cmd_name := (l.cmd_name, l.cmd_hash).1, cmd_hash := (l.cmd_name, l.cmd_hash).2, src := srcPath, dest := l.dest }), st.paths, st.commands⟩
        hp hc hsrc (fun x hx => hl x (List.mem_cons_of_mem l hx))
      refine ⟨st', ?_, hp1, hc1, ?_⟩
      · rw [hmap, if_neg (by rw [hP]; exact Bool.false_ne_true)]
        have hstep : deserLoop (("link "
              ++ natToString i ++ " " ++ natToString (idxOf l.dest keys) ++ " "
              ++ natToString (idxOf (l.cmd_name, l.cmd_hash) cmds))
            :: (((ls.map (fun l => (if P l then "dlink " else "link ")
              ++ natToString i ++ " " ++ natToString (idxOf l.dest keys) ++ " "
              ++ natToString (idxOf (l.cmd_name, l.cmd_hash) cmds))) ++ rest))) j st
            = match deserLine st j ("link "
                ++ natToString i ++ " " ++ natToString (idxOf l.dest keys) ++ " "
                ++ natToString (idxOf (l.cmd_name, l.cmd_hash) cmds)) with
              | .error e => .error e
              | .ok (.cont st2) => deserLoop (((ls.map (fun l => (if P l then "dlink " else "link ")
                  ++ natToString i ++ " " ++ natToString (idxOf l.dest keys) ++ " "
                  ++ natToString (idxOf (l.cmd_name, l.cmd_hash) cmds))) ++ rest)) (j + 1) st2
              | .ok (.earlyReturn d) => .ok d := rfl
        rw [hstep, deserLine_link st j i (idxOf l.dest keys)
          (idxOf (l.cmd_name, l.cmd_hash) cmds) h1 h2 h3 hne]
        rw [show j + (l :: ls).length = (j + 1) + ls.length from by simp; omega]
        exact hrun
      · rw [hd1]
        show (addLinkRecord st.dag _).nodes.map Node.path = _
        rw [dagPaths_addLinkRecord]

theorem linkPhase (keys : List String) (cmds : List (String × String)) :
    ∀ (ns : List Node) (i : Nat) (j : Nat) (st : DState),
      st.paths = keys → st.commands = cmds →
      keys.drop i = ns.map Node.path →
      (∀ n ∈ ns, ∀ l ∈ n.links, (n.path == l.dest) = false ∧
        keys.get? (idxOf l.dest keys) = some l.dest ∧
        cmds.get? (idxOf (l.cmd_name, l.cmd_hash) cmds) = some (l.cmd_name, l.cmd_hash)) →
      ∃ dag', deserLoop (linkLines keys cmds i ns) j st = .ok dag' ∧
        dag'.nodes.map Node.path = st.dag.nodes.map Node.path := by
  intro ns
  induction ns with
  | nil =>
    intro i j st _ _ _ _
    exact ⟨st.dag, rfl, rfl⟩
  | cons n ns ih =>
    intro i j st hp hc hdrop hlinks
    have hsrc : keys.get? i = some n.path := by
      rw [get?_eq_head_drop, hdrop]
      rfl
    obtain ⟨st1, hrun1, hp1, hc1, hd1⟩ := linkLinesInner keys cmds
      (fun l => n.dlinks.any (linkBEq l)) i n.path (pySortLinks n.links)
      (linkLines keys cmds (i + 1) ns) j st hp hc hsrc
      (fun l hl => hlinks n (List.mem_cons_self n ns) l (mem_sortBy.mp hl))
    have hdrop' : keys.drop (i + 1) = ns.map Node.path := by
      rw [← List.tail_drop, hdrop]
      rfl
    obtain ⟨dag', hrun2, hd2⟩ := ih (i + 1) (j + (pySortLinks n.links).length) st1
      (hp1.trans hp) (hc1.trans hc) hdrop'
      (fun m hm l hl => hlinks m (List.mem_cons_of_mem n hm) l hl)
    refine ⟨dag', ?_, hd2.trans hd1⟩
    show deserLoop ((pySortLinks n.links).map (fun l =>
        (if n.dlinks.any (linkBEq l) then "dlink " else "link ")
        ++ natToString i ++ " " ++ natToString (idxOf l.dest keys) ++ " "
        ++ natToString (idxOf (l.cmd_name, l.cmd_hash) cmds))
      ++ linkLines keys cmds (i + 1) ns) j st = .ok dag'
    rw [hrun1]
    exact hrun2

theorem wfSer_spec {d : DAG} (h : wfSer d = true) :
    (d.nodes.map Node.path).Nodup ∧
    ∀ n ∈ d.nodes, ∀ l ∈ n.links,
      (n.path == l.dest) = false ∧ l.dest ∈ d.nodes.map Node.path ∧
      (∀ c ∈ l.cmd_name.toList, c ≠ ' ' ∧ c ≠ '\n') ∧
      (∀ c ∈ l.cmd_hash.toList, c ≠ ' ' ∧ c ≠ '\n') := by
  unfold wfSer at h
  rw [Bool.and_eq_true] at h
  obtain ⟨h1, h2⟩ := h
  constructor
  · apply hasDupB_eq_false
    cases hv : hasDupB (d.nodes.map Node.path) with
    | false => rfl
    | true => rw [hv] at h1; cases h1
  · intro n hn l hl
    rw [List.all_eq_true] at h2
    have h3 := h2 n hn
    rw [List.all_eq_true] at h3
    have h4 := h3 l hl
    simp only [Bool.and_eq_true] at h4
    obtain ⟨⟨⟨hne, hmem⟩, hname⟩, hhash⟩ := h4
    refine ⟨?_, ?_, ?_, ?_⟩
    · cases hv : (n.path == l.dest) with
      | false => rfl
      | true => rw [hv] at hne; cases hne
    · exact List.mem_of_elem_eq_true hmem
    · intro c hc
      rw [List.all_eq_true] at hname
      have := hname c hc
      rw [Bool.and_eq_true] at this
      constructor
      · intro he
        rw [he] at this
        exact absurd this.1 (by decide)
      · intro he
        rw [he] at this
        exact absurd this.2 (by decide)
    · intro c hc
      rw [List.all_eq_true] at hhash
      have := hhash c hc
      rw [Bool.and_eq_true] at this
      constructor
      · intro he
        rw [he] at this
        exact absurd this.1 (by decide)
      · intro he
        rw [he] at this
        exact absurd this.2 (by decide)

theorem nl_notin_4 {pre A B : String} (hpre : '\n' ∉ pre.toList)
    (hA : ∀ c ∈ A.toList, c ≠ '\n') (hB : ∀ c ∈ B.toList, c ≠ '\n') :
    '\n' ∉ (pre ++ A ++ " " ++ B).toList := by
  intro hm
  have htl : (pre ++ A ++ " " ++ B).toList
      = pre.toList ++ (A.toList ++ (' ' :: B.toList)) := by
    simp only [String.toList, String.data_append, List.append_assoc]
    rfl
  rw [htl] at hm
  rcases List.mem_append.mp hm with h1 | h2
  · exact hpre h1
  rcases List.mem_append.mp h2 with h3 | h4
  · exact hA _ h3 rfl
  rcases List.mem_cons.mp h4 with h5 | h6
  · cases h5
  · exact hB _ h6 rfl

theorem nl_notin_6 {pre A B C : String} (hpre : '\n' ∉ pre.toList)
    (hA : ∀ c ∈ A.toList, c ≠ '\n') (hB : ∀ c ∈ B.toList, c ≠ '\n')
    (hC : ∀ c ∈ C.toList, c ≠ '\n') :
    '\n' ∉ (pre ++ A ++ " " ++ B ++ " " ++ C).toList := by
  intro hm
  have htl : (pre ++ A ++ " " ++ B ++ " " ++ C).toList
      = pre.toList ++ (A.toList ++ (' ' :: (B.toList ++ (' ' :: C.toList)))) := by
    simp only [String.toList, String.data_append, List.append_assoc]
    rfl
  rw [htl] at hm
  rcases List.mem_append.mp hm with h1 | h2
  · exact hpre h1
  rcases List.mem_append.mp h2 with h3 | h4
  · exact hA _ h3 rfl
  rcases List.mem_cons.mp h4 with h5 | h6
  · cases h5
  rcases List.mem_append.mp h6 with h7 | h8
  · exact hB _ h7 rfl
  rcases List.mem_cons.mp h8 with h9 | h10
  · cases h9
  · exact hC _ h10 rfl

theorem linkLines_shape (keys : List String) (cmds : List (String × String)) :
    ∀ (ns : List Node) (i : Nat) (s : String), s ∈ linkLines keys cmds i ns →
      ∃ (pre : String) (a b c : Nat), (pre = "link " ∨ pre = "dlink ") ∧
        s = pre ++ natToString a ++ " " ++ natToString b ++ " " ++ natToString c := by
  intro ns
  induction ns with
  | nil => intro i s hs; cases hs
  | cons n ns ih =>
    intro i s hs
    rcases List.mem_append.mp hs with h1 | h2
    · obtain ⟨l, _, rfl⟩ := List.mem_map.mp h1
      cases hP : n.dlinks.any (linkBEq l) with
      | true =>
        exact ⟨"dlink ", i, idxOf l.dest keys, idxOf (l.cmd_name, l.cmd_hash) cmds, .inr rfl, rfl⟩
      | false =>
        exact ⟨"link ", i, idxOf l.dest keys, idxOf (l.cmd_name, l.cmd_hash) cmds, .inl rfl, rfl⟩
    · exact ih (i + 1) s h2

theorem serializeLines_nl (d : DAG)
    (hcmd : ∀ c ∈ collectCmds d.sortedNodes,
      (∀ ch ∈ c.1.toList, ch ≠ '\n') ∧ (∀ ch ∈ c.2.toList, ch ≠ '\n')) :
    ∀ s ∈ d.serializeLines, '\n' ∉ s.toList := by
  intro s hs
  have hsl : d.serializeLines
      = ["# DAG serialised by Pyrrhic",
         "# See https://github.com/tawesoft/pyrrhic",
         "# See https://www.tawesoft.co.uk/products/open-source-software",
         "format 2",
         "", "# node num_links path"] ++
        (d.sortedNodes.map (fun n =>
          "node " ++ natToString n.links.length ++ " " ++ str_encode n.path)) ++
        ["", "# func name hash"] ++
        ((collectCmds d.sortedNodes).map (fun c => "func " ++ c.1 ++ " " ++ toHex c.2)) ++
        ["", "# (d)link source_node_index dest_node_index function_index",
         "# dlink means the input is direct, link means indirect"] ++
        linkLines (d.sortedNodes.map Node.path) (collectCmds d.sortedNodes) 0 d.sortedNodes := rfl
  rw [hsl] at hs
  simp only [List.append_assoc, List.mem_append, List.mem_cons, List.not_mem_nil, or_false] at hs
  rcases hs with (h | h | h | h | h | h) | h | (h | h) | h | (h | h | h) | h
  · rw [h]; decide
  · rw [h]; decide
  · rw [h]; decide
  · rw [h]; decide
  · rw [h]; decide
  · rw [h]; decide
  · obtain ⟨n, _, rfl⟩ := List.mem_map.mp h
    exact nl_notin_4 (by decide) (@natToString_no_nl n.links.length) (str_encode_no_nl n.path)
  · rw [h]; decide
  · rw [h]; decide
  · obtain ⟨c, hc, rfl⟩ := List.mem_map.mp h
    exact nl_notin_4 (by decide) (hcmd c hc).1 (hcmd c hc).2
  · rw [h]; decide
  · rw [h]; decide
  · rw [h]; decide
  · obtain ⟨pre, a, b, c, hpre, rfl⟩ := linkLines_shape _ _ d.sortedNodes 0 s h
    rcases hpre with rfl | rfl
    · exact nl_notin_6 (by decide) (@natToString_no_nl a) (@natToString_no_nl b)
        (@natToString_no_nl c)
    · exact nl_notin_6 (by decide) (@natToString_no_nl a) (@natToString_no_nl b)
        (@natToString_no_nl c)

theorem linesOf_serialize (d : DAG) (h : ∀ s ∈ d.serializeLines, '\n' ∉ s.toList) :
    linesOf (d.serialize) = d.serializeLines := by
  unfold DAG.serialize
  apply linesOf_join _ h
  intro he
  have hlen : d.serializeLines.length = 0 := by rw [he]; rfl
  have hsl : d.serializeLines
      = ["# DAG serialised by Pyrrhic",
         "# See https://github.com/tawesoft/pyrrhic",
         "# See https://www.tawesoft.co.uk/products/open-source-software",
         "format 2",
         "", "# node num_links path"] ++
        (d.sortedNodes.map (fun n =>
          "node " ++ natToString n.links.length ++ " " ++ str_encode n.path)) ++
        ["", "# func name hash"] ++
        ((collectCmds d.sortedNodes).map (fun c => "func " ++ c.1 ++ " " ++ toHex c.2)) ++
        ["", "# (d)link source_node_index dest_node_index function_index",
         "# dlink means the input is direct, link means indirect"] ++
        linkLines (d.sortedNodes.map Node.path) (collectCmds d.sortedNodes) 0 d.sortedNodes := rfl
  rw [hsl] at hlen
  simp [List.length_append] at hlen

/-- C4: the serialization round trip.  For every well-formed DAG (one
node per path; links point from their holder to a distinct interned
node; command names and hashes contain no separator characters — all
guaranteed for DAGs built by `to_dag`), `deserialize ∘ serialize`
succeeds and the result compares equal to the original under
`DAG.__eq__` (which, per `Node.__eq__`, compares the sorted path
sequences); the deserializer rebuilds every link through the
do-not-call stub command carrying the serialized name and hash
(`parseLinkFields`). -/
theorem c4_serialize_roundtrip (d : DAG) (h : wfSer d = true) :
    ∃ d', DAG.deserialize (DAG.serialize d) = .ok d' ∧ DAG.eq d' d = true := by
  obtain ⟨hnd, hlf⟩ := wfSer_spec h
  have hcmdsOK : ∀ c ∈ collectCmds d.sortedNodes,
      ((∀ ch ∈ c.1.toList, ch ≠ ' ') ∧ (∀ ch ∈ c.2.toList, ch ≠ ' ')) ∧
      ((∀ ch ∈ c.1.toList, ch ≠ '\n') ∧ (∀ ch ∈ c.2.toList, ch ≠ '\n')) := by
    intro c hc
    obtain ⟨n, hn, l, hl, rfl⟩ := collectCmds_mem_src hc
    have hn' : n ∈ d.nodes := by
      have hmem : n ∈ sortBy (fun a b => strLe a.path b.path) d.nodes := hn
      exact mem_sortBy.mp hmem
    obtain ⟨_, _, hname, hhash⟩ := hlf n hn' l hl
    exact ⟨⟨fun ch hch => (hname ch hch).1, fun ch hch => (hhash ch hch).1⟩,
           ⟨fun ch hch => (hname ch hch).2, fun ch hch => (hhash ch hch).2⟩⟩
  have hlines := linesOf_serialize d (serializeLines_nl d (fun c hc => (hcmdsOK c hc).2))
  have hkeysPerm : List.Perm (d.sortedNodes.map Node.path) (d.nodes.map Node.path) := by
    apply List.Perm.map
    show List.Perm (sortBy (fun a b => strLe a.path b.path) d.nodes) d.nodes
    exact sortBy_perm _ _
  have hkeysNodup : (d.sortedNodes.map Node.path).Nodup := (hkeysPerm.nodup_iff).mpr hnd
  -- phase 2: the node records
  obtain ⟨st1, hrun1, hnodes1, hpaths1, hcmds1⟩ := nodePhase d.sortedNodes
    (["", "# func name hash"] ++
      (((collectCmds d.sortedNodes).map (fun c => "func " ++ c.1 ++ " " ++ toHex c.2)) ++
        (["", "# (d)link source_node_index dest_node_index function_index",
          "# dlink means the input is direct, link means indirect"] ++
          linkLines (d.sortedNodes.map Node.path) (collectCmds d.sortedNodes) 0 d.sortedNodes)))
    6 {} (fun n _ => rfl) hkeysNodup
  -- phase 3: the func records
  obtain ⟨st2, hrun2, hdag2, hpaths2, hcmds2⟩ := funcPhase (collectCmds d.sortedNodes)
    (["", "# (d)link source_node_index dest_node_index function_index",
      "# dlink means the input is direct, link means indirect"] ++
      linkLines (d.sortedNodes.map Node.path) (collectCmds d.sortedNodes) 0 d.sortedNodes)
    (6 + d.sortedNodes.length + 2) st1 (fun c hc => (hcmdsOK c hc).1)
  -- facts feeding the link phase
  have hp2 : st2.paths = d.sortedNodes.map Node.path := by
    rw [hpaths2, hpaths1]
    rfl
  have hc2 : st2.commands = collectCmds d.sortedNodes := by
    rw [hcmds2, hcmds1]
    rfl
  have hlinkFacts : ∀ n ∈ d.sortedNodes, ∀ l ∈ n.links,
      (n.path == l.dest) = false ∧
      (d.sortedNodes.map Node.path).get? (idxOf l.dest (d.sortedNodes.map Node.path))
        = some l.dest ∧
      (collectCmds d.sortedNodes).get? (idxOf (l.cmd_name, l.cmd_hash) (collectCmds d.sortedNodes))
        = some (l.cmd_name, l.cmd_hash) := by
    intro n hn l hl
    have hn' : n ∈ d.nodes := by
      have hmem : n ∈ sortBy (fun a b => strLe a.path b.path) d.nodes := hn
      exact mem_sortBy.mp hmem
    obtain ⟨hne, hdest, _, _⟩ := hlf n hn' l hl
    refine ⟨hne, ?_, ?_⟩
    · exact idxOf_get? _ (hkeysPerm.mem_iff.mpr hdest)
    · exact idxOf_get? _ (collectCmds_mem hn hl)
  -- phase 4: the link records
  obtain ⟨dag', hrun3, hd3⟩ := linkPhase (d.sortedNodes.map Node.path)
    (collectCmds d.sortedNodes) d.sortedNodes 0
    (6 + d.sortedNodes.length + 2 + (collectCmds d.sortedNodes).length + 3) st2
    hp2 hc2 rfl hlinkFacts
  refine ⟨dag', ?_, ?_⟩
  · unfold DAG.deserialize
    rw [hlines]
    have hsl : d.serializeLines
        = ["# DAG serialised by Pyrrhic",
           "# See https://github.com/tawesoft/pyrrhic",
           "# See https://www.tawesoft.co.uk/products/open-source-software",
           "format 2",
           "", "# node num_links path"] ++
          ((d.sortedNodes.map (fun n =>
            "node " ++ natToString n.links.length ++ " " ++ str_encode n.path)) ++
           (["", "# func name hash"] ++
            (((collectCmds d.sortedNodes).map (fun c => "func " ++ c.1 ++ " " ++ toHex c.2)) ++
             (["", "# (d)link source_node_index dest_node_index function_index",
               "# dlink means the input is direct, link means indirect"] ++
              linkLines (d.sortedNodes.map Node.path) (collectCmds d.sortedNodes) 0
                d.sortedNodes)))) := by
      simp [DAG.serializeLines, List.append_assoc]
    rw [hsl]
    have hHdr : ∀ (X : List String), deserLoop
        (["# DAG serialised by Pyrrhic",
          "# See https://github.com/tawesoft/pyrrhic",
          "# See https://www.tawesoft.co.uk/products/open-source-software",
          "format 2",
          "", "# node num_links path"] ++ X) 0 ({} : DState) = deserLoop X 6 {} :=
      fun X => rfl
    rw [hHdr]
    rw [hrun1]
    have hM1 : ∀ (X : List String) (j : Nat) (st : DState),
        deserLoop (["", "# func name hash"] ++ X) j st = deserLoop X (j + 1 + 1) st :=
      fun X j st => rfl
    rw [hM1]
    rw [show 6 + d.sortedNodes.length + 1 + 1 = 6 + d.sortedNodes.length + 2 from by omega]
    rw [hrun2]
    have hM2 : ∀ (X : List String) (j : Nat) (st : DState),
        deserLoop (["", "# (d)link source_node_index dest_node_index function_index",
          "# dlink means the input is direct, link means indirect"] ++ X) j st
          = deserLoop X (j + 1 + 1 + 1) st :=
      fun X j st => rfl
    rw [hM2]
    rw [show 6 + d.sortedNodes.length + 2 + (collectCmds d.sortedNodes).length + 1 + 1 + 1
        = 6 + d.sortedNodes.length + 2 + (collectCmds d.sortedNodes).length + 3 from by omega]
    exact hrun3
  · have hpathsFinal : dag'.nodes.map Node.path = d.sortedNodes.map Node.path := by
      rw [hd3, hdag2, hnodes1]
      show (((({} : DState).dag.nodes ++
          d.sortedNodes.map (fun n => newNode n.path))).map Node.path) = _
      rw [show ({} : DState).dag.nodes = ([] : List Node) from rfl, List.nil_append,
        List.map_map]
      apply List.map_congr_left
      intro n _
      rfl
    apply (nodeItemsEq_iff_paths _ _).mpr
    show (sortBy (fun a b => strLe a.path b.path) dag'.nodes).map Node.path
      = (sortBy (fun a b => strLe a.path b.path) d.nodes).map Node.path
    rw [sortBy_map_path, sortBy_map_path, hpathsFinal]
    rw [show d.sortedNodes.map Node.path
        = sortBy strLe (d.nodes.map Node.path) from sortBy_map_path d.nodes]
    exact sortBy_idem strLe_total _

/-- Witness for `c4_serialize_roundtrip`: the two-link dag
`cexDagIterA`. -/
theorem c4_serialize_roundtrip_witness :
    wfSer cexDagIterA = true ∧
    ∃ d', DAG.deserialize (DAG.serialize cexDagIterA) = .ok d' ∧
      DAG.eq d' cexDagIterA = true :=
  ⟨by decide, c4_serialize_roundtrip cexDagIterA (by decide)⟩

end Pyrrhic
